import Mathlib

/-!
# LMIC scheduler and regional channel plans

A shallow embedding of the cooperative job scheduler (oslmic.cpp) and of the
US915 / EU868 channel-plan operations (lmic.us915.cpp, lmic.eu868.cpp),
followed by the properties established about them.

The scheduler keeps two intrusive singly linked lists of jobs.  The embedding
keeps the pointer structure: a job is named by its address, the next links live
in a memory of job objects, and a pointer-to-pointer cursor is a value of type
Link.  Following the next link of a null pointer is reported as a fault.
-/

namespace Lmic

/-! ## Time -/

/-- Modelled from the spec: the tick count type OsTime is declared in a header
that is not part of the sources.  The spec describes it as an opaque monotonic
tick count whose comparisons are well defined within the operating horizon, so
a tick is a natural number compared with the usual order. -/
abbrev OsTime := Nat

/-- Modelled from the spec: the signed tick delta OsDeltaTime, the difference of
two tick counts. -/
abbrev OsDeltaTime := Int

/-- Modelled from the spec: subtraction of two tick counts, giving a signed
delta (used as deadline minus current tick). -/
def OsTime.sub (a b : OsTime) : OsDeltaTime := (a : Int) - (b : Int)

/-- Modelled from the spec: hal_checkTimer belongs to the hardware layer; a
deadline is due when the current tick is at or past it. -/
def hal_checkTimer (ticks : OsTime) (time : OsTime) : Bool := decide (time ≤ ticks)

/-! ## Execution outcomes -/

/-- Outcome of running a loop of the program: a result, a dereference of a null
job pointer, or exhaustion of the step budget given to the loop. -/
inductive Exec (α : Type) where
  | ok (a : α)
  | nullDeref
  | outOfFuel

/-- Sequencing of two program fragments. -/
def Exec.bind {α β : Type} (x : Exec α) (f : α → Exec β) : Exec β :=
  match x with
  | .ok a => f a
  | .nullDeref => .nullDeref
  | .outOfFuel => .outOfFuel

/-! ## Scheduler memory -/

/-- The fields of a job object that the scheduler reads and writes: the
intrusive next link (none is the null pointer) and the deadline. -/
structure OsJobBase where
  next : Option Nat
  deadline : OsTime

/-- The scheduler: the job objects by address, the heads of the two lists and
the sleep flag. -/
structure OsScheduler where
  jobs : Nat → OsJobBase
  scheduledjobs : Option Nat
  runnablejobs : Option Nat
  is_sleep_allow : Bool

/-- A cell holding a job pointer, the target of the cursor pnext: one of the two
list heads or the next field of a job. -/
inductive Link where
  | scheduledjobs
  | runnablejobs
  | next (j : Nat)
deriving DecidableEq

/-- Reading through the cursor. -/
def OsScheduler.load (s : OsScheduler) : Link → Option Nat
  | .scheduledjobs => s.scheduledjobs
  | .runnablejobs => s.runnablejobs
  | .next j => (s.jobs j).next

/-- Assignment to the next field of job j. -/
def OsScheduler.setNext (s : OsScheduler) (j : Nat) (v : Option Nat) : OsScheduler :=
  { s with jobs := Function.update s.jobs j { s.jobs j with next := v } }

/-- Assignment to the deadline field of job j. -/
def OsScheduler.setDeadline (s : OsScheduler) (j : Nat) (t : OsTime) : OsScheduler :=
  { s with jobs := Function.update s.jobs j { s.jobs j with deadline := t } }

/-- Writing through the cursor. -/
def OsScheduler.store (s : OsScheduler) : Link → Option Nat → OsScheduler
  | .scheduledjobs, v => { s with scheduledjobs := v }
  | .runnablejobs, v => { s with runnablejobs := v }
  | .next j, v => s.setNext j v

/-! ## Scheduler operations -/

/-- The loop of OsScheduler::unlinkjob.  Each round tests the loop condition,
runs the body (which unlinks on a match and does not leave the loop) and then
advances the cursor to the next field of the job the cursor now points at; that
last step dereferences the pointer read through the cursor. -/
def unlinkjob : Nat → OsScheduler → Link → Nat → Exec OsScheduler
  | 0, _, _, _ => .outOfFuel
  | fuel + 1, s, pnext, job =>
    match s.load pnext with
    | none => .ok s
    | some p =>
      let s1 := if p = job then s.store pnext (s.jobs job).next else s
      match s1.load pnext with
      | none => .nullDeref
      | some q => unlinkjob fuel s1 (.next q) job

/-- The loop of OsScheduler::linkScheduledJob followed by the final store. -/
def linkScheduledJobLoop : Nat → OsScheduler → Link → Nat → OsTime → Exec OsScheduler
  | 0, _, _, _, _ => .outOfFuel
  | fuel + 1, s, pnext, job, time =>
    match s.load pnext with
    | none => .ok (s.store pnext (some job))
    | some p =>
      if (s.jobs p).deadline > time then
        .ok ((s.setNext job (some p)).store pnext (some job))
      else linkScheduledJobLoop fuel s (.next p) job time

/-- OsScheduler::linkScheduledJob. -/
def linkScheduledJob (fuel : Nat) (s : OsScheduler) (job : Nat) : Exec OsScheduler :=
  linkScheduledJobLoop fuel (s.setNext job none) .scheduledjobs job (s.jobs job).deadline

/-- The loop of OsScheduler::linkRunableJob followed by the final store. -/
def linkRunableJobLoop : Nat → OsScheduler → Link → Nat → Exec OsScheduler
  | 0, _, _, _ => .outOfFuel
  | fuel + 1, s, pnext, job =>
    match s.load pnext with
    | none => .ok (s.store pnext (some job))
    | some p => linkRunableJobLoop fuel s (.next p) job

/-- OsScheduler::linkRunableJob. -/
def linkRunableJob (fuel : Nat) (s : OsScheduler) (job : Nat) : Exec OsScheduler :=
  linkRunableJobLoop fuel (s.setNext job none) .runnablejobs job

/-- OsScheduler::unlinkScheduledJobs. -/
def unlinkScheduledJobs (fuel : Nat) (s : OsScheduler) (job : Nat) : Exec OsScheduler :=
  unlinkjob fuel s .scheduledjobs job

/-- OsScheduler::unlinkRunableJobs. -/
def unlinkRunableJobs (fuel : Nat) (s : OsScheduler) (job : Nat) : Exec OsScheduler :=
  unlinkjob fuel s .runnablejobs job

/-- OsScheduler::allowSleep. -/
def allowSleep (s : OsScheduler) : OsScheduler := { s with is_sleep_allow := true }

/-- OsScheduler::forbidSleep. -/
def forbidSleep (s : OsScheduler) : OsScheduler := { s with is_sleep_allow := false }

/-- OsScheduler::isSleepAllow. -/
def isSleepAllow (s : OsScheduler) : Bool := s.is_sleep_allow

/-- OsJobBase::setRunnable (scheduleNow). -/
def setRunnable (fuel : Nat) (s : OsScheduler) (job : Nat) : Exec OsScheduler :=
  (unlinkScheduledJobs fuel s job).bind fun s1 =>
  (unlinkRunableJobs fuel s1 job).bind fun s2 =>
  linkRunableJob fuel s2 job

/-- OsJobBase::clearCallback (cancel). -/
def clearCallback (fuel : Nat) (s : OsScheduler) (job : Nat) : Exec OsScheduler :=
  (unlinkScheduledJobs fuel (allowSleep s) job).bind fun s1 =>
  unlinkRunableJobs fuel s1 job

/-- OsJobBase::setTimed (scheduleAt). -/
def setTimed (fuel : Nat) (s : OsScheduler) (job : Nat) (time : OsTime) : Exec OsScheduler :=
  (unlinkScheduledJobs fuel s job).bind fun s1 =>
  (unlinkRunableJobs fuel s1 job).bind fun s2 =>
  linkScheduledJob fuel (s2.setDeadline job time) job

/-- What one call of runloopOnce did: the job whose callback was run (if any),
the returned idle duration and the scheduler afterwards. -/
structure StepResult where
  ran : Option Nat
  wait : OsDeltaTime
  sched : OsScheduler

/-- The job selection at the start of OsScheduler::runloopOnce: the selected job
and the scheduler with that job popped. -/
def selectJob (ticks : OsTime) (s : OsScheduler) : Option Nat × OsScheduler :=
  match s.runnablejobs with
  | some r => (some r, { s with runnablejobs := (s.jobs r).next })
  | none =>
    match s.scheduledjobs with
    | some d =>
      if hal_checkTimer ticks (s.jobs d).deadline then
        (some d, { s with scheduledjobs := (s.jobs d).next })
      else (none, s)
    | none => (none, s)

/-- The value returned at the end of OsScheduler::runloopOnce. -/
def idleTime (ticks : OsTime) (s : OsScheduler) : OsDeltaTime :=
  match s.runnablejobs, s.scheduledjobs with
  | none, some d =>
    if isSleepAllow s then OsTime.sub (s.jobs d).deadline ticks else 0
  | _, _ => 0

/-- OsScheduler::runloopOnce.  The callbacks are a parameter: call j is the
effect of the callback of job j on the scheduler.  The clock is read twice, by
hal_checkTimer before the callback (ticks) and by hal_ticks after it
(ticks2). -/
def runloopOnce (call : Nat → OsScheduler → OsScheduler) (ticks ticks2 : OsTime)
    (s : OsScheduler) : StepResult :=
  let sel := selectJob ticks s
  let s2 := match sel.1 with
    | some j => call j sel.2
    | none => sel.2
  { ran := sel.1, wait := idleTime ticks2 s2, sched := s2 }

/-! ## The lists held in memory -/

/-- The pointer p heads the null-terminated list l in the job memory. -/
def IsList (jobs : Nat → OsJobBase) : Option Nat → List Nat → Prop
  | p, [] => p = none
  | p, j :: l => p = some j ∧ IsList jobs (jobs j).next l

/-- The scheduler holds the deadline list ls and the runnable list lr, and no
job occurs twice in them. -/
def Lists (s : OsScheduler) (ls lr : List Nat) : Prop :=
  IsList s.jobs s.scheduledjobs ls ∧ IsList s.jobs s.runnablejobs lr ∧ (lr ++ ls).Nodup

/-- The deadlines along a list of jobs. -/
def deadlines (s : OsScheduler) (l : List Nat) : List OsTime :=
  l.map fun j => (s.jobs j).deadline

/-- The deadline list is non-decreasing from head to tail. -/
def SortedDeadlines (s : OsScheduler) (l : List Nat) : Prop :=
  (deadlines s l).Sorted (· ≤ ·)

/-- The position at which linkScheduledJob splices a job with deadline time into
a list: before the first job whose deadline is greater. -/
def insertByDeadline (dl : Nat → OsTime) (job : Nat) (time : OsTime) : List Nat → List Nat
  | [] => [job]
  | p :: l => if dl p > time then job :: p :: l else p :: insertByDeadline dl job time l

/-- What a linking loop started at the cursor pnext on the list l leaves behind:
the list l2 at the cursor, and every cell other than the cursor, the next field
of the job and the next fields of the jobs of l as it was. -/
def LinkPost (s : OsScheduler) (pnext : Link) (job : Nat) (l l2 : List Nat)
    (s2 : OsScheduler) : Prop :=
  IsList s2.jobs (s2.load pnext) l2 ∧
  (∀ lk, lk ≠ pnext → lk ≠ .next job → (∀ k ∈ l, lk ≠ .next k) → s2.load lk = s.load lk) ∧
  (∀ k, (s2.jobs k).deadline = (s.jobs k).deadline) ∧
  s2.is_sleep_allow = s.is_sleep_allow

/-- A sequence of setTimed calls, each given as a job and a deadline. -/
def setTimedAll (fuel : Nat) : OsScheduler → List (Nat × OsTime) → Exec OsScheduler
  | s, [] => .ok s
  | s, c :: rest => (setTimed fuel s c.1 c.2).bind fun s1 => setTimedAll fuel s1 rest

/-- A sequence of setRunnable calls. -/
def setRunnableAll (fuel : Nat) : OsScheduler → List Nat → Exec OsScheduler
  | s, [] => .ok s
  | s, job :: rest => (setRunnable fuel s job).bind fun s1 => setRunnableAll fuel s1 rest

/-- The jobs obtained by popping the head of a list n times, as runloopOnce pops
(the head becomes the next link of the popped job). -/
def popHeads (jobs : Nat → OsJobBase) : Nat → Option Nat → List Nat
  | 0, _ => []
  | _ + 1, none => []
  | n + 1, some j => j :: popHeads jobs n (jobs j).next

/-- Successive calls of runloopOnce, one for each pair of clock readings: the
jobs run by the calls and the scheduler after the last call. -/
def runloopMany (call : Nat → OsScheduler → OsScheduler) :
    List (OsTime × OsTime) → OsScheduler → List (Option Nat) × OsScheduler
  | [], s => ([], s)
  | t :: ts, s =>
    let r := runloopOnce call t.1 t.2 s
    let rest := runloopMany call ts r.sched
    (r.ran :: rest.1, rest.2)

/-- The scheduler states reached from a scheduler with two empty lists by calls
of setRunnable, setTimed, clearCallback, forbidSleep, allowSleep and runloopOnce
that complete.  A callback acts on the scheduler only through these operations,
so its effect is a further run of steps after the pop made by runloopOnce. -/
inductive Reachable : OsScheduler → Prop where
  | empty (s : OsScheduler) : s.scheduledjobs = none → s.runnablejobs = none → Reachable s
  | scheduleNow {s s2 : OsScheduler} (fuel job : Nat) :
      Reachable s → setRunnable fuel s job = .ok s2 → Reachable s2
  | scheduleAt {s s2 : OsScheduler} (fuel job : Nat) (time : OsTime) :
      Reachable s → setTimed fuel s job time = .ok s2 → Reachable s2
  | cancel {s s2 : OsScheduler} (fuel job : Nat) :
      Reachable s → clearCallback fuel s job = .ok s2 → Reachable s2
  | forbid {s : OsScheduler} : Reachable s → Reachable (forbidSleep s)
  | allow {s : OsScheduler} : Reachable s → Reachable (allowSleep s)
  | runStep {s : OsScheduler} (ticks ticks2 : OsTime) :
      Reachable s → Reachable (runloopOnce (fun _ t => t) ticks ticks2 s).sched

/-! ## Example schedulers -/

/-- A job memory in which no job is linked and every deadline is zero. -/
def idleJobs : Nat → OsJobBase := fun _ => { next := none, deadline := 0 }

/-- The scheduler with two empty lists and sleep allowed. -/
def emptyScheduler : OsScheduler :=
  { jobs := idleJobs, scheduledjobs := none, runnablejobs := none, is_sleep_allow := true }

/-- Job 1 alone in the runnable list, the deadline list empty. -/
def oneRunnable : OsScheduler :=
  { jobs := idleJobs, scheduledjobs := none, runnablejobs := some 1, is_sleep_allow := true }

/-- Job 1 alone in the deadline list with deadline zero, the runnable list empty. -/
def oneScheduled : OsScheduler :=
  { jobs := idleJobs, scheduledjobs := some 1, runnablejobs := none, is_sleep_allow := false }

/-- Jobs 1 and 2 in the deadline list with deadlines 5 and 6, the runnable list
empty, sleep allowed. -/
def twoScheduled : OsScheduler :=
  { jobs := fun j => if j = 1 then { next := some 2, deadline := 5 }
      else { next := none, deadline := 6 },
    scheduledjobs := some 1, runnablejobs := none, is_sleep_allow := true }

/-- Job 1 in the runnable list and job 2 in the deadline list with deadline 5. -/
def runnableAndScheduled : OsScheduler :=
  { jobs := fun _ => { next := none, deadline := 5 },
    scheduledjobs := some 2, runnablejobs := some 1, is_sleep_allow := true }

/-- The scheduler after setRunnable of job 1 and setTimed of job 2 at tick 7 on
the empty scheduler. -/
def afterTwoCalls : OsScheduler :=
  match (setRunnable 3 emptyScheduler 1).bind fun s1 => setTimed 3 s1 2 7 with
  | .ok s => s
  | _ => emptyScheduler

/-! ## US915 channel plan -/

/-- The fields of LmicUs915 that the channel-plan and join operations use.  The
channel map holds one 16-bit word for each group of 16 channels; xchFreq and
xchDrMap hold the custom channels 72, 73, ... at index 0, 1, ... -/
structure LmicUs915 where
  channelMap : Nat → Nat
  xchFreq : Nat → Nat
  xchDrMap : Nat → Nat
  txChnl : Nat
  chRnd : Nat
  datarate : Nat
  txCnt : Nat
  adrTxPow : Int
  txend : OsTime

namespace LmicUs915

/-- Data rate DR_SF10 of the enumeration _dr_us915_t. -/
def DR_SF10 : Nat := 0

/-- Data rate DR_SF9. -/
def DR_SF9 : Nat := 1

/-- Data rate DR_SF8. -/
def DR_SF8 : Nat := 2

/-- Data rate DR_SF7. -/
def DR_SF7 : Nat := 3

/-- Data rate DR_SF8C. -/
def DR_SF8C : Nat := 4

/-- Base frequency of the 125 kHz uplink channels. -/
def US915_125kHz_UPFBASE : Nat := 902300000

/-- Frequency step of the 125 kHz uplink channels. -/
def US915_125kHz_UPFSTEP : Nat := 200000

/-- Base frequency of the 500 kHz uplink channels. -/
def US915_500kHz_UPFBASE : Nat := 903000000

/-- Frequency step of the 500 kHz uplink channels. -/
def US915_500kHz_UPFSTEP : Nat := 1600000

/-- The test made on the channel map when a channel is considered for
transmission (as in nextTx): the bit of the channel in the word of its group of
sixteen is set. -/
def channelEnabled (s : LmicUs915) (chnl : Nat) : Bool :=
  (s.channelMap (chnl >>> 4) &&& (1 <<< (chnl &&& 0xF))) != 0

/-- LmicUs915::initDefaultChannels. -/
def initDefaultChannels (s : LmicUs915) : LmicUs915 :=
  { s with channelMap := fun i =>
      if i < 4 then 0xFFFF else if i = 4 then 0x00FF else s.channelMap i }

/-- LmicUs915::setupChannel: the returned flag and the state afterwards.  The
constant MAX_XCHANNELS and the function dr_range_map are declared outside the
sources and are parameters. -/
def setupChannel (MAX_XCHANNELS : Nat) (dr_range_map : Nat → Nat → Nat) (s : LmicUs915)
    (chidx newfreq drmap : Nat) : Bool × LmicUs915 :=
  if chidx < 72 ∨ chidx ≥ 72 + MAX_XCHANNELS then (false, s)
  else
    let chidx := chidx - 72
    (true,
      { s with
        xchFreq := Function.update s.xchFreq chidx newfreq,
        xchDrMap := (Function.update s.xchDrMap chidx
          (if drmap = 0 then dr_range_map DR_SF10 DR_SF8C else drmap)),
        channelMap := (Function.update s.channelMap (chidx >>> 4)
          ((s.channelMap (chidx >>> 4) ||| (1 <<< (chidx &&& 0xF))) % 65536)) })

/-- LmicUs915::disableChannel.  The complement of the one-bit mask is taken on
the 16 bits of a channel map word. -/
def disableChannel (MAX_XCHANNELS : Nat) (s : LmicUs915) (channel : Nat) : LmicUs915 :=
  if channel < 72 + MAX_XCHANNELS then
    { s with channelMap := (Function.update s.channelMap (channel >>> 4)
        ((s.channelMap (channel >>> 4) &&& (0xFFFF ^^^ (1 <<< (channel &&& 0xF)))) % 65536)) }
  else s

/-- LmicUs915::enableChannel. -/
def enableChannel (MAX_XCHANNELS : Nat) (s : LmicUs915) (channel : Nat) : LmicUs915 :=
  if channel < 72 + MAX_XCHANNELS then
    { s with channelMap := (Function.update s.channelMap (channel >>> 4)
        ((s.channelMap (channel >>> 4) ||| (1 <<< (channel &&& 0xF))) % 65536)) }
  else s

/-- LmicUs915::enableSubBand; a failed ASSERT halts and is the result none.  The
bounds start and end are 8-bit values. -/
def enableSubBand (MAX_XCHANNELS : Nat) (s : LmicUs915) (band : Nat) : Option LmicUs915 :=
  if band < 8 then
    let start := (band * 8) % 256
    let stop := (start + 8) % 256
    some ((List.range' start (stop - start)).foldl (enableChannel MAX_XCHANNELS) s)
  else none

/-- LmicUs915::disableSubBand. -/
def disableSubBand (MAX_XCHANNELS : Nat) (s : LmicUs915) (band : Nat) : Option LmicUs915 :=
  if band < 8 then
    let start := (band * 8) % 256
    let stop := (start + 8) % 256
    some ((List.range' start (stop - start)).foldl (disableChannel MAX_XCHANNELS) s)
  else none

/-- The loop of LmicUs915::selectSubBand over the bands 0 .. count - 1. -/
def selectSubBandLoop (MAX_XCHANNELS : Nat) (band : Nat) : Nat → LmicUs915 → Option LmicUs915
  | 0, s => some s
  | b + 1, s =>
    (selectSubBandLoop MAX_XCHANNELS band b s).bind fun s1 =>
      if band = b then enableSubBand MAX_XCHANNELS s1 b else disableSubBand MAX_XCHANNELS s1 b

/-- LmicUs915::selectSubBand. -/
def selectSubBand (MAX_XCHANNELS : Nat) (s : LmicUs915) (band : Nat) : Option LmicUs915 :=
  if band < 8 then selectSubBandLoop MAX_XCHANNELS band 8 s else none

/-- LmicUs915::getTxFrequency, a 32-bit value; a failed ASSERT is the result
none. -/
def getTxFrequency (MAX_XCHANNELS : Nat) (s : LmicUs915) : Option Nat :=
  let chnl := s.txChnl
  if chnl < 64 then
    some ((US915_125kHz_UPFBASE + chnl * US915_125kHz_UPFSTEP) % 4294967296)
  else if chnl < 64 + 8 then
    some ((US915_500kHz_UPFBASE + (chnl - 64) * US915_500kHz_UPFSTEP) % 4294967296)
  else if chnl < 64 + 8 + MAX_XCHANNELS then some (s.xchFreq (chnl - 72))
  else none

/-- A US915 state with every channel disabled and no custom channel set. -/
def blank : LmicUs915 :=
  { channelMap := fun _ => 0, xchFreq := fun _ => 0, xchDrMap := fun _ => 0, txChnl := 0,
    chRnd := 0, datarate := 0, txCnt := 0, adrTxPow := 0, txend := 0 }

end LmicUs915

/-! ## EU868 channel plan -/

/-- The methods of the channel list object held by LmicEu868.  Its class is
declared outside the sources, so the methods are parameters of the embedding. -/
structure ChannelListOps (Channels : Type) where
  configure : Channels → Nat → Nat → Nat → Channels
  disable : Channels → Nat → Channels
  enable : Channels → Nat → Channels
  enableAll : Channels → Channels
  disableAll : Channels → Channels
  init : Channels → Channels
  is_enable_at_dr : Channels → Nat → Nat → Bool
  getAvailability : Channels → Nat → OsTime
  getFrequency : Channels → Nat → Nat

/-- The fields of LmicEu868 that the channel-plan and join operations use. -/
structure LmicEu868 (Channels : Type) where
  channels : Channels
  txChnl : Nat
  datarate : Nat
  txCnt : Nat
  adrTxPow : Int
  txend : OsTime
  rx1DrOffset : Nat

namespace LmicEu868

/-- Data rate Dr::SF12, index 0 of the data rate tables. -/
def SF12 : Nat := 0

/-- Data rate Dr::SF7, index 5 of the data rate tables. -/
def SF7 : Nat := 5

/-- LmicEu868::setupChannel: the returned flag and the state afterwards.  The
constant MAX_CHANNELS and the function dr_range_map are declared outside the
sources and are parameters. -/
def setupChannel {Channels : Type} (ops : ChannelListOps Channels) (MAX_CHANNELS : Nat)
    (dr_range_map : Nat → Nat → Nat) (s : LmicEu868 Channels) (chidx newfreq drmap : Nat) :
    Bool × LmicEu868 Channels :=
  if chidx ≥ MAX_CHANNELS then (false, s)
  else
    (true, { s with channels := (ops.configure s.channels chidx newfreq
      (if drmap = 0 then dr_range_map SF12 SF7 else drmap)) })

end LmicEu868

/-- The list predicate can be decided on a given memory, head and list. -/
instance decIsList (jobs : Nat → OsJobBase) : ∀ (p : Option Nat) (l : List Nat),
    Decidable (IsList jobs p l)
  | p, [] => inferInstanceAs (Decidable (p = none))
  | p, j :: l =>
    have := decIsList jobs (jobs j).next l
    inferInstanceAs (Decidable (p = some j ∧ IsList jobs (jobs j).next l))

/-- The two-list predicate can be decided. -/
instance decLists (s : OsScheduler) (ls lr : List Nat) : Decidable (Lists s ls lr) :=
  inferInstanceAs (Decidable (IsList s.jobs s.scheduledjobs ls ∧
    IsList s.jobs s.runnablejobs lr ∧ (lr ++ ls).Nodup))

/-- Sortedness of the deadlines can be decided. -/
instance decSortedDeadlines (s : OsScheduler) (l : List Nat) :
    Decidable (SortedDeadlines s l) :=
  inferInstanceAs (Decidable ((deadlines s l).Sorted (· ≤ ·)))

namespace LmicUs915

/-- Conversion of an integer to the 8-bit signed type int8_t (two's
complement). -/
def toInt8 (v : Int) : Int := (v + 128) % 256 - 128

/-- LmicUs915::validMapChannels. -/
def validMapChannels (chMaskCntl : Nat) (_chMask : Nat) : Bool :=
  if chMaskCntl = 6 ∨ chMaskCntl = 7 then true
  else if chMaskCntl < 5 then true
  else false

/-- LmicUs915::mapChannels.  The loop over the four narrowband words and the
store to the wideband word are one update of the channel map. -/
def mapChannels (s : LmicUs915) (chMaskCntl chMask : Nat) : LmicUs915 :=
  if chMaskCntl = 6 ∨ chMaskCntl = 7 then
    let en125 := if chMaskCntl = 6 then 0xFFFF else 0x0000
    { s with channelMap := fun u =>
        if u < 4 then en125 else if u = 64 / 16 then chMask else s.channelMap u }
  else if chMaskCntl < 5 then
    { s with channelMap := Function.update s.channelMap chMaskCntl chMask }
  else s

/-- The 500 kHz loop of LmicUs915::nextTx with count rounds left: the rotation
counter and the transmit channel afterwards, and whether a channel was found.
The counter chRnd is an 8-bit value. -/
def nextTxLoop500 (map : Nat) : Nat → Nat → Nat → Bool × Nat × Nat
  | 0, chRnd, txChnl => (false, chRnd, txChnl)
  | count + 1, chRnd, txChnl =>
    let chRnd := (chRnd + 1) % 256
    if (map &&& (1 <<< (chRnd &&& 7))) != 0 then (true, chRnd, 64 + (chRnd &&& 7))
    else nextTxLoop500 map count chRnd txChnl

/-- The 125 kHz loop of LmicUs915::nextTx with count rounds left. -/
def nextTxLoop125 (s : LmicUs915) : Nat → Nat → Nat → Bool × Nat × Nat
  | 0, chRnd, txChnl => (false, chRnd, txChnl)
  | count + 1, chRnd, txChnl =>
    let chRnd := (chRnd + 1) % 256
    let chnl := chRnd &&& 0x3F
    if (s.channelMap (chnl >>> 4) &&& (1 <<< (chnl &&& 0xF))) != 0 then (true, chRnd, chnl)
    else nextTxLoop125 s count chRnd txChnl

/-- LmicUs915::nextTx: the returned time and the state afterwards.  The byte rnd
is what rand.uint8() returns if it is called. -/
def nextTx (rnd : Nat) (now : OsTime) (s : LmicUs915) : OsTime × LmicUs915 :=
  let chRnd := if s.chRnd = 0 then rnd &&& 0x3F else s.chRnd
  if s.datarate ≥ DR_SF8C then
    let map := s.channelMap (64 / 16) &&& 0xFF
    let r := nextTxLoop500 map 8 chRnd s.txChnl
    (now, { s with chRnd := r.2.1, txChnl := r.2.2 })
  else
    let r := nextTxLoop125 s 64 chRnd s.txChnl
    (now, { s with chRnd := r.2.1, txChnl := r.2.2 })

/-- Modelled from the spec: setDrJoin belongs to the base class, which is not
part of the sources; it sets the data rate used for the join attempt. -/
def setDrJoin (s : LmicUs915) (dr : Nat) : LmicUs915 := { s with datarate := dr }

/-- LmicUs915::initJoinLoop.  The tick now is what os_getTime() returns and
delay what the random delay OsDeltaTime::rnd_delay(rand, 8) is. -/
def initJoinLoop (now : OsTime) (delay : Nat) (s : LmicUs915) : LmicUs915 :=
  setDrJoin { s with chRnd := 0, txChnl := 0, adrTxPow := 20, txend := now + delay } DR_SF7

/-- LmicUs915::nextJoinState: the returned flag (true is continue, false is
failed) and the state afterwards.  The byte rnd is what rand.uint8() returns if
it is called, now what os_getTime() returns; txChnl, txCnt and datarate are
8-bit values and dr is an int8_t. -/
def nextJoinState (rnd : Nat) (now : OsTime) (s : LmicUs915) : Bool × LmicUs915 :=
  if s.datarate ≠ DR_SF8C then
    (true, { s with txChnl := (64 + (s.txChnl &&& 7)) % 256, datarate := DR_SF8C, txend := now })
  else
    let txCnt := (s.txCnt + 1) % 256
    let dr := toInt8 ((DR_SF7 : Int) - (txCnt : Int))
    let failed := decide (dr < (DR_SF10 : Int))
    let dr := if failed then (DR_SF10 : Int) else dr
    (!failed, { s with txChnl := rnd &&& 0x3F, txCnt := txCnt,
                       datarate := (dr % 256).toNat, txend := now })

/-- Successive calls of nextJoinState, one for each pair of a random byte and a
clock reading: the returned flags and the state after the last call. -/
def nextJoinStates : List (Nat × OsTime) → LmicUs915 → List Bool × LmicUs915
  | [], s => ([], s)
  | c :: cs, s =>
    let r := nextJoinState c.1 c.2 s
    let rest := nextJoinStates cs r.2
    (r.1 :: rest.1, rest.2)

/-- The channel map after initDefaultChannels and selectSubBand 3 (with two
custom channels), if selectSubBand completes. -/
def subBand3 : Option LmicUs915 := selectSubBand 2 (initDefaultChannels blank) 3

end LmicUs915

/-- Modelled from the spec: an entry of the EU868 channel list, whose class is
not part of the sources: frequency, data-rate eligibility mask, enabled flag and
available-at time. -/
structure ChannelDetail where
  frequency : Nat
  drMap : Nat
  enabled : Bool
  availability : OsTime

/-- Modelled from the spec: the methods of the EU868 channel list on a table of
channel entries.  Configuring a channel programs its frequency and data-rate
mask and enables it; enable and disable set and clear the enabled flag of one
channel; enableAll enables the MAX_CHANNELS entries of the table; a channel is
enabled at a data rate when its flag is set and the bit of the data rate is set
in its mask. -/
def channelList (MAX_CHANNELS : Nat) : ChannelListOps (Nat → ChannelDetail) where
  configure c k f m :=
    Function.update c k { c k with frequency := f, drMap := m, enabled := true }
  disable c k := Function.update c k { c k with enabled := false }
  enable c k := Function.update c k { c k with enabled := true }
  enableAll c := fun k => if k < MAX_CHANNELS then { c k with enabled := true } else c k
  disableAll c := fun k => { c k with enabled := false }
  init c := c
  is_enable_at_dr c k dr := (c k).enabled && ((c k).drMap &&& (1 <<< dr)) != 0
  getAvailability c k := (c k).availability
  getFrequency c k := (c k).frequency

namespace LmicEu868

/-- LmicEu868::validMapChannels. -/
def validMapChannels (chMaskCntl chMask : Nat) : Bool :=
  if chMaskCntl ≠ 0 ∧ chMaskCntl ≠ 6 then false
  else if chMaskCntl = 0 ∧ chMask = 0 then false
  else true

/-- The loop of LmicEu868::mapChannels over the channels 0 .. count - 1. -/
def mapChannelsLoop {Channels : Type} (ops : ChannelListOps Channels) (chMask : Nat) :
    Nat → Channels → Channels
  | 0, c => c
  | chnl + 1, c =>
    let c1 := mapChannelsLoop ops chMask chnl c
    if (chMask &&& (1 <<< chnl)) ≠ 0 then ops.enable c1 chnl else ops.disable c1 chnl

/-- LmicEu868::mapChannels. -/
def mapChannels {Channels : Type} (ops : ChannelListOps Channels) (MAX_CHANNELS : Nat)
    (s : LmicEu868 Channels) (chMaskCntl chMask : Nat) : LmicEu868 Channels :=
  if chMaskCntl = 6 then { s with channels := ops.enableAll s.channels }
  else { s with channels := mapChannelsLoop ops chMask MAX_CHANNELS s.channels }

/-- What one call of nextTx did: the returned time, the state afterwards and the
channel indices it examined, in order. -/
structure NextTxResult (Channels : Type) where
  time : OsTime
  state : LmicEu868 Channels
  examined : List Nat

/-- The loop of LmicEu868::nextTx with count rounds left.  The variables are
those of the source: nextChannel (an 8-bit value), channelFound,
nextTransmitTime and the field txChnl; examined collects the channel indices
tested so far.  The result is the returned time, txChnl and the indices
examined. -/
def nextTxLoop {Channels : Type} (ops : ChannelListOps Channels) (MAX_CHANNELS : Nat)
    (now : OsTime) (channels : Channels) (datarate : Nat) :
    Nat → Nat → Bool → OsTime → Nat → List Nat → OsTime × Nat × List Nat
  | 0, _, channelFound, nextTransmitTime, txChnl, examined =>
    if channelFound then (nextTransmitTime, txChnl, examined) else (now, txChnl, examined)
  | count + 1, nextChannel, channelFound, nextTransmitTime, txChnl, examined =>
    let nextChannel := if nextChannel ≥ MAX_CHANNELS then 0 else nextChannel
    if ops.is_enable_at_dr channels nextChannel datarate then
      let availability := ops.getAvailability channels nextChannel
      let better := !channelFound || decide (availability < nextTransmitTime)
      let txChnl := if better then nextChannel else txChnl
      let nextTransmitTime := if better then availability else nextTransmitTime
      if availability < now then (availability, nextChannel, examined ++ [nextChannel])
      else
        nextTxLoop ops MAX_CHANNELS now channels datarate count ((nextChannel + 1) % 256)
          true nextTransmitTime txChnl (examined ++ [nextChannel])
    else
      nextTxLoop ops MAX_CHANNELS now channels datarate count ((nextChannel + 1) % 256)
        channelFound nextTransmitTime txChnl (examined ++ [nextChannel])

/-- The channel indices that count rounds of the loop of nextTx examine when the
variable nextChannel starts at the given value. -/
def scanFrom (MAX_CHANNELS : Nat) : Nat → Nat → List Nat
  | _, 0 => []
  | nextChannel, count + 1 =>
    let nextChannel := if nextChannel ≥ MAX_CHANNELS then 0 else nextChannel
    nextChannel :: scanFrom MAX_CHANNELS ((nextChannel + 1) % 256) count

/-- The body of the loop of nextTx run over a given list of channel indices. -/
def nextTxPick {Channels : Type} (ops : ChannelListOps Channels) (now : OsTime)
    (channels : Channels) (datarate : Nat) :
    List Nat → Bool → OsTime → Nat → List Nat → OsTime × Nat × List Nat
  | [], channelFound, nextTransmitTime, txChnl, examined =>
    if channelFound then (nextTransmitTime, txChnl, examined) else (now, txChnl, examined)
  | nextChannel :: rest, channelFound, nextTransmitTime, txChnl, examined =>
    if ops.is_enable_at_dr channels nextChannel datarate then
      let availability := ops.getAvailability channels nextChannel
      let better := !channelFound || decide (availability < nextTransmitTime)
      let txChnl := if better then nextChannel else txChnl
      let nextTransmitTime := if better then availability else nextTransmitTime
      if availability < now then (availability, nextChannel, examined ++ [nextChannel])
      else
        nextTxPick ops now channels datarate rest true nextTransmitTime txChnl
          (examined ++ [nextChannel])
    else
      nextTxPick ops now channels datarate rest channelFound nextTransmitTime txChnl
        (examined ++ [nextChannel])

/-- The loop of nextTx left early: at the first examined channel c that is
enabled at the data rate and available before now, returning its
availability. -/
def PickEarly {Channels : Type} (ops : ChannelListOps Channels) (now : OsTime)
    (channels : Channels) (datarate : Nat) (l : List Nat) (ex : List Nat)
    (r : OsTime × Nat × List Nat) : Prop :=
  ∃ l1 c l2, l = l1 ++ c :: l2 ∧ r.2.2 = ex ++ l1 ++ [c] ∧ r.2.1 = c ∧
    ops.is_enable_at_dr channels c datarate = true ∧
    r.1 = ops.getAvailability channels c ∧ ops.getAvailability channels c < now ∧
    ∀ x ∈ l1, ops.is_enable_at_dr channels x datarate = true →
      now ≤ ops.getAvailability channels x

/-- The loop of nextTx run to its end over the list l: no enabled channel of l
is available before now; if a channel had been found before or l holds an
enabled one, the result is an enabled channel with the least availability;
otherwise the result is now and the old channel. -/
def PickFull {Channels : Type} (ops : ChannelListOps Channels) (now : OsTime)
    (channels : Channels) (datarate : Nat) (l : List Nat) (found : Bool) (t : OsTime)
    (tx : Nat) (ex : List Nat) (r : OsTime × Nat × List Nat) : Prop :=
  r.2.2 = ex ++ l ∧
  (∀ x ∈ l, ops.is_enable_at_dr channels x datarate = true →
    now ≤ ops.getAvailability channels x) ∧
  ((found = true ∨ ∃ x ∈ l, ops.is_enable_at_dr channels x datarate = true) →
    ops.is_enable_at_dr channels r.2.1 datarate = true ∧
    r.1 = ops.getAvailability channels r.2.1 ∧
    (found = true → r.1 ≤ t) ∧
    (∀ x ∈ l, ops.is_enable_at_dr channels x datarate = true →
      r.1 ≤ ops.getAvailability channels x) ∧
    (r.2.1 ∈ l ∨ (found = true ∧ r.2.1 = tx))) ∧
  (found = false → (∀ x ∈ l, ops.is_enable_at_dr channels x datarate = false) →
    r.1 = now ∧ r.2.1 = tx)

/-- LmicEu868::nextTx.  The byte rnd is what rand.uint8() returns. -/
def nextTx {Channels : Type} (ops : ChannelListOps Channels) (MAX_CHANNELS : Nat) (rnd : Nat)
    (now : OsTime) (s : LmicEu868 Channels) : NextTxResult Channels :=
  let nextChannel := (s.txChnl + 1 + rnd % 2) % 256
  let r := nextTxLoop ops MAX_CHANNELS now s.channels s.datarate MAX_CHANNELS nextChannel
    false 0 s.txChnl []
  { time := r.1, state := { s with txChnl := r.2.1 }, examined := r.2.2 }

/-- Modelled from the spec: decDR belongs to the base class, which is not part
of the sources; it steps a data rate down one notch (the lowest data rate has
no lower notch). -/
def decDR (dr : Nat) : Nat := dr - 1

/-- LmicEu868::nextJoinState: the returned flag (true is continue, false is
failed) and the state afterwards.  The tick now is what os_getTime() returns;
txChnl and txCnt are 8-bit values. -/
def nextJoinState {Channels : Type} (ops : ChannelListOps Channels) (now : OsTime)
    (s : LmicEu868 Channels) : Bool × LmicEu868 Channels :=
  let txChnl := if (s.txChnl + 1) % 256 = 3 then 0 else (s.txChnl + 1) % 256
  let txCnt := (s.txCnt + 1) % 256
  let step := decide (txCnt &&& 1 = 0)
  let failed := step && decide (s.datarate = SF12)
  let datarate :=
    if step then (if s.datarate = SF12 then SF7 else decDR s.datarate) else s.datarate
  let availability := ops.getAvailability s.channels txChnl
  let time := if now < availability then availability else now
  (!failed, { s with txChnl := txChnl, txCnt := txCnt, datarate := datarate, txend := time })

/-- Successive calls of nextJoinState, one for each clock reading: the returned
flags and the state after the last call. -/
def nextJoinStates {Channels : Type} (ops : ChannelListOps Channels) :
    List OsTime → LmicEu868 Channels → List Bool × LmicEu868 Channels
  | [], s => ([], s)
  | t :: ts, s =>
    let r := nextJoinState ops t s
    let rest := nextJoinStates ops ts r.2
    (r.1 :: rest.1, rest.2)

/-- A channel table with sixteen channels enabled at every data rate and
available at tick zero. -/
def allEnabled : Nat → ChannelDetail :=
  fun _ => { frequency := 868100000, drMap := 0xFFFF, enabled := true, availability := 0 }

/-- An EU868 state on the table allEnabled, at data rate SF7. -/
def example16 : LmicEu868 (Nat → ChannelDetail) :=
  { channels := allEnabled, txChnl := 0, datarate := SF7, txCnt := 0, adrTxPow := 16,
    txend := 0, rx1DrOffset := 0 }

/-- A channel table in which only channel 2 is enabled, available at tick 100. -/
def onlyChannel2 : Nat → ChannelDetail :=
  fun k => { frequency := 868500000, drMap := 0xFFFF, enabled := decide (k = 2),
             availability := 100 }

/-- A channel table in which no channel is enabled. -/
def noneEnabled : Nat → ChannelDetail :=
  fun _ => { frequency := 0, drMap := 0, enabled := false, availability := 0 }

end LmicEu868

/-! ## Regional tables and parameters -/

/-- The spreading factors named in the data-rate tables (enumerators SF7 ..
SF12 of a header that is not part of the sources). -/
inductive SpreadingFactor where
  | SF7 | SF8 | SF9 | SF10 | SF11 | SF12
deriving DecidableEq

/-- The number of a spreading factor. -/
def SpreadingFactor.toNat : SpreadingFactor → Nat
  | .SF7 => 7
  | .SF8 => 8
  | .SF9 => 9
  | .SF10 => 10
  | .SF11 => 11
  | .SF12 => 12

/-- The bandwidths named in the data-rate tables (enumeration BandWidth). -/
inductive BandWidth where
  | BW125 | BW250 | BW500
deriving DecidableEq

/-- The coding rate named in the data-rate tables (enumeration CodingRate). -/
inductive CodingRate where
  | CR_4_5
deriving DecidableEq

/-- The initialiser of an rps_t value: spreading factor, bandwidth, coding rate
and the no-CRC flag.  The class rps_t and its encoding rawValue are declared
outside the sources; the encoding is a parameter of the lookups. -/
structure rps_t where
  sf : SpreadingFactor
  bw : BandWidth
  cr : CodingRate
  nocrc : Bool
deriving DecidableEq

/-- The byte stored for an initialiser of the table _DR2RPS_CRC: the constant
ILLEGAL_RPS (initialiser none) or the raw value of an rps_t. -/
def rawEntry (rawValue : rps_t → Nat) (ILLEGAL_RPS : Nat) : Option rps_t → Nat
  | none => ILLEGAL_RPS
  | some r => rawValue r

/-- The exponent table T(sf, bw) of the comment above DR2HSYM: one symbol lasts
256 us * 2^T, half a symbol 128 us * 2^T. -/
def symExp : SpreadingFactor → BandWidth → Nat
  | .SF7, .BW125 => 2
  | .SF8, .BW125 => 3
  | .SF9, .BW125 => 4
  | .SF10, .BW125 => 5
  | .SF11, .BW125 => 6
  | .SF12, .BW125 => 7
  | .SF7, .BW250 => 1
  | .SF8, .BW250 => 2
  | .SF9, .BW250 => 3
  | .SF10, .BW250 => 4
  | .SF11, .BW250 => 5
  | .SF12, .BW250 => 6
  | .SF7, .BW500 => 0
  | .SF8, .BW500 => 1
  | .SF9, .BW500 => 2
  | .SF10, .BW500 => 3
  | .SF11, .BW500 => 4
  | .SF12, .BW500 => 5

/-- Modelled from the spec: rlsbf3 belongs to bufferpack.h, which is not part of
the sources; it reads the little-endian 24-bit value of three bytes. -/
def rlsbf3 (ptr : Nat → Nat) : Nat := ptr 0 + 256 * ptr 1 + 65536 * ptr 2

namespace LmicUs915

/-- Data rate DR_SF12CR. -/
def DR_SF12CR : Nat := 8

/-- Data rate DR_SF11CR. -/
def DR_SF11CR : Nat := 9

/-- Data rate DR_SF10CR. -/
def DR_SF10CR : Nat := 10

/-- Data rate DR_SF9CR. -/
def DR_SF9CR : Nat := 11

/-- Data rate DR_SF8CR. -/
def DR_SF8CR : Nat := 12

/-- Data rate DR_SF7CR. -/
def DR_SF7CR : Nat := 13

/-- Base frequency of the 500 kHz downlink channels. -/
def US915_500kHz_DNFBASE : Nat := 923300000

/-- Frequency step of the 500 kHz downlink channels. -/
def US915_500kHz_DNFSTEP : Nat := 600000

/-- Lower edge of the band. -/
def US915_FREQ_MIN : Nat := 902000000

/-- Upper edge of the band. -/
def US915_FREQ_MAX : Nat := 928000000

/-- Channel of the second receive window. -/
def CHNL_DNW2 : Nat := 0

/-- Frequency of the second receive window. -/
def FREQ_DNW2 : Nat := US915_500kHz_DNFBASE + CHNL_DNW2 * US915_500kHz_DNFSTEP

/-- The initialiser rps_DR0. -/
def rps_DR0 : rps_t := { sf := .SF10, bw := .BW125, cr := .CR_4_5, nocrc := false }

/-- The initialiser rps_DR1. -/
def rps_DR1 : rps_t := { sf := .SF9, bw := .BW125, cr := .CR_4_5, nocrc := false }

/-- The initialiser rps_DR2. -/
def rps_DR2 : rps_t := { sf := .SF8, bw := .BW125, cr := .CR_4_5, nocrc := false }

/-- The initialiser rps_DR3. -/
def rps_DR3 : rps_t := { sf := .SF7, bw := .BW125, cr := .CR_4_5, nocrc := false }

/-- The initialiser rps_DR4. -/
def rps_DR4 : rps_t := { sf := .SF8, bw := .BW500, cr := .CR_4_5, nocrc := false }

/-- The initialiser rps_DR8. -/
def rps_DR8 : rps_t := { sf := .SF12, bw := .BW500, cr := .CR_4_5, nocrc := false }

/-- The initialiser rps_DR9. -/
def rps_DR9 : rps_t := { sf := .SF11, bw := .BW500, cr := .CR_4_5, nocrc := false }

/-- The initialiser rps_DR10. -/
def rps_DR10 : rps_t := { sf := .SF10, bw := .BW500, cr := .CR_4_5, nocrc := false }

/-- The initialiser rps_DR11. -/
def rps_DR11 : rps_t := { sf := .SF9, bw := .BW500, cr := .CR_4_5, nocrc := false }

/-- The initialiser rps_DR12. -/
def rps_DR12 : rps_t := { sf := .SF8, bw := .BW500, cr := .CR_4_5, nocrc := false }

/-- The initialiser rps_DR13. -/
def rps_DR13 : rps_t := { sf := .SF7, bw := .BW500, cr := .CR_4_5, nocrc := false }

/-- The initialisers of the table _DR2RPS_CRC, sixteen entries; none stands for
ILLEGAL_RPS. -/
def _DR2RPS_CRC : List (Option rps_t) :=
  [none, some rps_DR0, some rps_DR1, some rps_DR2, some rps_DR3, some rps_DR4,
   none, none, none, some rps_DR8, some rps_DR9, some rps_DR10,
   some rps_DR11, some rps_DR12, some rps_DR13, none]

/-- LmicUs915::getRawRps: the byte read at index dr + 1 of _DR2RPS_CRC, or none
when that index lies outside the table.  The encoding rawValue and the constant
ILLEGAL_RPS are declared outside the sources and are parameters. -/
def getRawRps (rawValue : rps_t → Nat) (ILLEGAL_RPS : Nat) (dr : Nat) : Option Nat :=
  (_DR2RPS_CRC[dr + 1]?).map (rawEntry rawValue ILLEGAL_RPS)

/-- LmicUs915::pow2dBm, an int8_t value.  The constant InvalidPower is declared
outside the sources and is a parameter. -/
def pow2dBm (InvalidPower : Int) (powerIndex : Nat) : Int :=
  if powerIndex ≥ 15 then InvalidPower else toInt8 (30 - ((powerIndex : Int) * 2))

/-- The table DR2HSYM, six entries.  The conversion
OsDeltaTime::from_us_round(..).tick() is declared outside the sources and is a
parameter. -/
def DR2HSYM (from_us_round : Nat → Int) : List Int :=
  [from_us_round (128 <<< 5), from_us_round (128 <<< 4), from_us_round (128 <<< 3),
   from_us_round (128 <<< 2), from_us_round (128 <<< 1), from_us_round (128 <<< 0)]

/-- LmicUs915::dr2hsym: the entry read at index dr & 7 of DR2HSYM, or none when
that index lies outside the table. -/
def dr2hsym (from_us_round : Nat → Int) (dr : Nat) : Option OsDeltaTime :=
  (DR2HSYM from_us_round)[dr &&& 7]?

/-- LmicUs915::getRx1Frequency, a 32-bit value. -/
def getRx1Frequency (s : LmicUs915) : Nat :=
  (US915_500kHz_DNFBASE + (s.txChnl &&& 0x7) * US915_500kHz_DNFSTEP) % 4294967296

/-- LmicUs915::getRx1Dr, an 8-bit value. -/
def getRx1Dr (s : LmicUs915) : Nat :=
  if s.datarate < DR_SF8C then (s.datarate + DR_SF10CR - DR_SF10) % 256
  else if s.datarate = DR_SF8C then DR_SF7CR
  else s.datarate

end LmicUs915

namespace LmicEu868

/-- Lower edge of the band. -/
def EU868_FREQ_MIN : Nat := 863000000

/-- Upper edge of the band. -/
def EU868_FREQ_MAX : Nat := 870000000

/-- The constant MaxEIRP. -/
def MaxEIRP : Int := 16

/-- The initialiser rps_DR0. -/
def rps_DR0 : rps_t := { sf := .SF12, bw := .BW125, cr := .CR_4_5, nocrc := false }

/-- The initialiser rps_DR1. -/
def rps_DR1 : rps_t := { sf := .SF11, bw := .BW125, cr := .CR_4_5, nocrc := false }

/-- The initialiser rps_DR2. -/
def rps_DR2 : rps_t := { sf := .SF10, bw := .BW125, cr := .CR_4_5, nocrc := false }

/-- The initialiser rps_DR3. -/
def rps_DR3 : rps_t := { sf := .SF9, bw := .BW125, cr := .CR_4_5, nocrc := false }

/-- The initialiser rps_DR4. -/
def rps_DR4 : rps_t := { sf := .SF8, bw := .BW125, cr := .CR_4_5, nocrc := false }

/-- The initialiser rps_DR5. -/
def rps_DR5 : rps_t := { sf := .SF7, bw := .BW125, cr := .CR_4_5, nocrc := false }

/-- The initialiser rps_DR6. -/
def rps_DR6 : rps_t := { sf := .SF7, bw := .BW250, cr := .CR_4_5, nocrc := false }

/-- The initialisers of the table _DR2RPS_CRC, nine entries; none stands for
ILLEGAL_RPS. -/
def _DR2RPS_CRC : List (Option rps_t) :=
  [none, some rps_DR0, some rps_DR1, some rps_DR2, some rps_DR3,
   some rps_DR4, some rps_DR5, some rps_DR6, none]

/-- LmicEu868::getRawRps: the byte read at index dr + 1 of _DR2RPS_CRC, or none
when that index lies outside the table.  The encoding rawValue and the constant
ILLEGAL_RPS are declared outside the sources and are parameters. -/
def getRawRps (rawValue : rps_t → Nat) (ILLEGAL_RPS : Nat) (dr : Nat) : Option Nat :=
  (_DR2RPS_CRC[dr + 1]?).map (rawEntry rawValue ILLEGAL_RPS)

/-- LmicEu868::pow2dBm, an int8_t value.  The constant InvalidPower is declared
outside the sources and is a parameter. -/
def pow2dBm (InvalidPower : Int) (powerIndex : Nat) : Int :=
  if powerIndex ≥ 8 then InvalidPower
  else LmicUs915.toInt8 (MaxEIRP - 2 * (powerIndex : Int))

/-- The table DR2HSYM, eight entries.  The conversion
OsDeltaTime::from_us_round(..).tick() is declared outside the sources and is a
parameter. -/
def DR2HSYM (from_us_round : Nat → Int) : List Int :=
  [from_us_round (128 <<< 7), from_us_round (128 <<< 6), from_us_round (128 <<< 5),
   from_us_round (128 <<< 4), from_us_round (128 <<< 3), from_us_round (128 <<< 2),
   from_us_round (128 <<< 1), from_us_round 80]

/-- LmicEu868::dr2hsym: the entry read at index dr of DR2HSYM, or none when that
index lies outside the table. -/
def dr2hsym (from_us_round : Nat → Int) (dr : Nat) : Option OsDeltaTime :=
  (DR2HSYM from_us_round)[dr]?

/-- LmicEu868::convFreq on the three bytes at ptr; the product is a 32-bit
value. -/
def convFreq (ptr : Nat → Nat) : Nat :=
  let newfreq := (rlsbf3 ptr * 100) % 4294967296
  if newfreq < EU868_FREQ_MIN ∨ newfreq > EU868_FREQ_MAX then 0 else newfreq

/-- The loop of LmicEu868::handleCFList from the channel index chidx on, with the
payload read from ptr; the first argument bounds the number of rounds. -/
def handleCFListLoop {Channels : Type} (ops : ChannelListOps Channels) (MAX_CHANNELS : Nat)
    (dr_range_map : Nat → Nat → Nat) :
    Nat → Nat → (Nat → Nat) → LmicEu868 Channels → LmicEu868 Channels
  | 0, _, _, s => s
  | rounds + 1, chidx, ptr, s =>
    if chidx < 8 then
      let newfreq := convFreq ptr
      let s1 := if newfreq ≠ 0 then
          (setupChannel ops MAX_CHANNELS dr_range_map s chidx newfreq 0).2
        else s
      handleCFListLoop ops MAX_CHANNELS dr_range_map rounds ((chidx + 1) % 256)
        (fun i => ptr (i + 3)) s1
    else s

/-- LmicEu868::handleCFList: the loop runs from channel index 3 to 7. -/
def handleCFList {Channels : Type} (ops : ChannelListOps Channels) (MAX_CHANNELS : Nat)
    (dr_range_map : Nat → Nat → Nat) (s : LmicEu868 Channels) (ptr : Nat → Nat) :
    LmicEu868 Channels :=
  handleCFListLoop ops MAX_CHANNELS dr_range_map (8 - 3) 3 ptr s

/-- Modelled from the spec: setDrJoin belongs to the base class, which is not
part of the sources; it sets the data rate used for the join attempt. -/
def setDrJoin {Channels : Type} (s : LmicEu868 Channels) (dr : Nat) : LmicEu868 Channels :=
  { s with datarate := dr }

/-- LmicEu868::initJoinLoop.  The byte rnd is what rand.uint8() returns and
delay what the random delay OsDeltaTime::rnd_delay(rand, 8) is. -/
def initJoinLoop {Channels : Type} (ops : ChannelListOps Channels) (rnd delay : Nat)
    (s : LmicEu868 Channels) : LmicEu868 Channels :=
  let s1 := setDrJoin { s with txChnl := rnd % 3, adrTxPow := MaxEIRP } SF7
  { s1 with txend := ops.getAvailability s1.channels 0 + delay }

/-- A table in which channels 1 and 2 are enabled at every data rate, channel 1
available at tick 100 and channel 2 at tick 50. -/
def twoChannels : Nat → ChannelDetail :=
  fun k => { frequency := 868100000, drMap := 0xFFFF,
             enabled := decide (k = 1 ∨ k = 2),
             availability := if k = 1 then 100 else 50 }

end LmicEu868

/-! ## Memory lemmas -/

theorem load_store_same (s : OsScheduler) (lk : Link) (v : Option Nat) :
    (s.store lk v).load lk = v := by
  cases lk <;> simp [OsScheduler.store, OsScheduler.load, OsScheduler.setNext]

theorem load_store_ne (s : OsScheduler) {lk lk2 : Link} (v : Option Nat) (h : lk2 ≠ lk) :
    (s.store lk v).load lk2 = s.load lk2 := by
  cases lk <;> cases lk2 <;>
    simp_all [OsScheduler.store, OsScheduler.load, OsScheduler.setNext, Function.update]

theorem next_store_ne (s : OsScheduler) (lk : Link) (v : Option Nat) (k : Nat)
    (h : lk ≠ .next k) : ((s.store lk v).jobs k).next = (s.jobs k).next :=
  load_store_ne s v (Ne.symm h)

theorem deadline_store (s : OsScheduler) (lk : Link) (v : Option Nat) (k : Nat) :
    ((s.store lk v).jobs k).deadline = (s.jobs k).deadline := by
  cases lk <;> simp [OsScheduler.store, OsScheduler.setNext, Function.update]
  split <;> simp_all

theorem sleep_store (s : OsScheduler) (lk : Link) (v : Option Nat) :
    (s.store lk v).is_sleep_allow = s.is_sleep_allow := by
  cases lk <;> simp [OsScheduler.store, OsScheduler.setNext]

theorem IsList.frame {m m2 : Nat → OsJobBase} :
    ∀ {l : List Nat} {p : Option Nat}, (∀ k ∈ l, (m2 k).next = (m k).next) →
      IsList m p l → IsList m2 p l
  | [], _, _, h => h
  | j :: l, _, hk, h => by
    refine ⟨h.1, ?_⟩
    rw [hk j (List.mem_cons_self _ _)]
    exact IsList.frame (fun k hkl => hk k (List.mem_cons_of_mem _ hkl)) h.2

theorem IsList.unique {m : Nat → OsJobBase} :
    ∀ {l1 l2 : List Nat} {p : Option Nat}, IsList m p l1 → IsList m p l2 → l1 = l2
  | [], [], _, _, _ => rfl
  | [], _ :: _, _, h1, h2 => by
    have h1n : _ = none := h1
    rw [h2.1] at h1n
    cases h1n
  | _ :: _, [], _, h1, h2 => by
    have h2n : _ = none := h2
    rw [h1.1] at h2n
    cases h2n
  | a :: l1, b :: l2, _, h1, h2 => by
    have hab : a = b := by
      have := h1.1.symm.trans h2.1
      simpa using this
    subst hab
    rw [IsList.unique h1.2 h2.2]

theorem IsList.suffix {m : Nat → OsJobBase} {j : Nat} :
    ∀ {l : List Nat} {p : Option Nat}, IsList m p l → j ∈ l →
      ∃ l1 l2, l = l1 ++ j :: l2 ∧ IsList m (m j).next l2
  | [], _, _, hj => by cases hj
  | a :: l, _, h, hj => by
    by_cases haj : j = a
    · subst haj
      exact ⟨[], l, rfl, h.2⟩
    · have hjl : j ∈ l := by
        rcases List.mem_cons.mp hj with h1 | h1
        · exact absurd h1 haj
        · exact h1
      obtain ⟨l1, l2, hl, hl2⟩ := IsList.suffix h.2 hjl
      exact ⟨a :: l1, l2, by rw [hl]; rfl, hl2⟩

theorem IsList.nodup {m : Nat → OsJobBase} :
    ∀ {l : List Nat} {p : Option Nat}, IsList m p l → l.Nodup
  | [], _, _ => List.nodup_nil
  | j :: l, _, h => by
    refine List.nodup_cons.mpr ⟨?_, IsList.nodup h.2⟩
    intro hj
    obtain ⟨l1, l2, hl, hl2⟩ := IsList.suffix h.2 hj
    have hEq := IsList.unique h.2 hl2
    have hlen := congrArg List.length hl
    rw [← hEq] at hlen
    simp at hlen
    omega

theorem IsList.store_iff (s : OsScheduler) (lk : Link) (v : Option Nat) {l : List Nat}
    {p : Option Nat} (h : ∀ k ∈ l, lk ≠ .next k) :
    IsList (s.store lk v).jobs p l ↔ IsList s.jobs p l :=
  ⟨IsList.frame fun k hk => (next_store_ne s lk v k (h k hk)).symm,
   IsList.frame fun k hk => next_store_ne s lk v k (h k hk)⟩

/-! ## Removal from a list -/

theorem unlinkjob_spec (job : Nat) :
    ∀ (l : List Nat) (fuel : Nat) (s : OsScheduler) (pnext : Link),
      IsList s.jobs (s.load pnext) l → (∀ k ∈ l, pnext ≠ .next k) → l.length < fuel →
      (job ∉ l ∧ unlinkjob fuel s pnext job = .ok s) ∨
      (l.getLast? = some job ∧ unlinkjob fuel s pnext job = .nullDeref) ∨
      (job ∈ l ∧ l.getLast? ≠ some job ∧
        ∃ lk, (lk = pnext ∨ ∃ k ∈ l, k ≠ job ∧ lk = .next k) ∧
          unlinkjob fuel s pnext job = .ok (s.store lk (s.jobs job).next) ∧
          IsList (s.store lk (s.jobs job).next).jobs
            ((s.store lk (s.jobs job).next).load pnext) (l.erase job))
  | [], fuel, s, pnext, hl, _, hf => by
    left
    obtain ⟨n, rfl⟩ : ∃ n, fuel = n + 1 := ⟨fuel - 1, by simp at hf; omega⟩
    have h0 : s.load pnext = none := hl
    simp [unlinkjob, h0]
  | p :: l, fuel, s, pnext, hl, hp, hf => by
    obtain ⟨n, rfl⟩ : ∃ n, fuel = n + 1 := ⟨fuel - 1, by simp at hf; omega⟩
    have hnd : (p :: l).Nodup := IsList.nodup hl
    have hpl : p ∉ l := (List.nodup_cons.mp hnd).1
    have hload : s.load pnext = some p := hl.1
    have hlen : l.length < n := by simp at hf; omega
    by_cases hpj : p = job
    · -- the cursor points at the job: it is unlinked, then the cursor advances
      subst hpj
      cases l with
      | nil =>
        right; left
        have hnx : (s.jobs p).next = none := hl.2
        refine ⟨rfl, ?_⟩
        simp [unlinkjob, hload, load_store_same, hnx]
      | cons q l2 =>
        right; right
        have hq : (s.jobs p).next = some q := hl.2.1
        have hpn : pnext ≠ .next p := hp p (List.mem_cons_self _ _)
        have hstore : IsList (s.store pnext (s.jobs p).next).jobs (some q) (q :: l2) := by
          rw [IsList.store_iff s pnext _ (fun k hk => hp k (List.mem_cons_of_mem _ hk))]
          rw [← hq]; exact hl.2
        have hpl2 : p ∉ l2 := fun h => hpl (List.mem_cons_of_mem _ h)
        have hqn : ∀ k ∈ l2, Link.next q ≠ .next k := by
          intro k hk hEq
          have hqk : q = k := by injection hEq
          subst hqk
          exact (List.nodup_cons.mp (List.nodup_cons.mp hnd).2).1 hk
        have hrec := unlinkjob_spec p l2 n (s.store pnext (s.jobs p).next) (.next q)
          hstore.2 hqn (by simp at hlen; omega)
        have hrun : unlinkjob n (s.store pnext (s.jobs p).next) (.next q) p
            = .ok (s.store pnext (s.jobs p).next) := by
          rcases hrec with h | h | h
          · exact h.2
          · exact absurd (List.mem_of_getLast?_eq_some h.1) hpl2
          · exact absurd h.1 hpl2
        refine ⟨List.mem_cons_self _ _, ?_, pnext, Or.inl rfl, ?_, ?_⟩
        · intro hlast
          have hmem := List.mem_of_getLast?_eq_some (by simpa using hlast : (q :: l2).getLast? = some p)
          exact hpl hmem
        · simp [unlinkjob, hload, load_store_same, hq]
          rw [← hq]; exact hrun
        · rw [load_store_same, List.erase_cons_head]
          rw [hq] at hstore ⊢
          exact hstore
    · -- the cursor points at another job: it advances
      have hpn : ∀ k ∈ l, Link.next p ≠ .next k := by
        intro k hk hEq
        have hpk : p = k := by injection hEq
        subst hpk
        exact hpl hk
      have hrec := unlinkjob_spec job l n s (.next p) hl.2 hpn hlen
      have hstep : unlinkjob (n + 1) s pnext job = unlinkjob n s (.next p) job := by
        simp [unlinkjob, hload, hpj]
      rw [hstep]
      rcases hrec with h | h | h
      · left
        refine ⟨?_, h.2⟩
        intro hmem
        rcases List.mem_cons.mp hmem with h1 | h1
        · exact hpj h1.symm
        · exact h.1 h1
      · right; left
        refine ⟨?_, h.2⟩
        cases l with
        | nil => simp at h
        | cons q l2 => simpa [List.getLast?_cons_cons] using h.1
      · right; right
        obtain ⟨hmem, hlast, lk, hlk, hrun, hlist⟩ := h
        refine ⟨List.mem_cons_of_mem _ hmem, ?_, lk, ?_, hrun, ?_⟩
        · cases l with
          | nil => simp at hmem
          | cons q l2 => simpa [List.getLast?_cons_cons] using hlast
        · rcases hlk with h1 | ⟨k, hk, hkj, h1⟩
          · exact Or.inr ⟨p, List.mem_cons_self _ _, hpj, h1⟩
          · exact Or.inr ⟨k, List.mem_cons_of_mem _ hk, hkj, h1⟩
        · have hne : pnext ≠ lk := by
            rcases hlk with h1 | ⟨k, hk, _, h1⟩
            · rw [h1]; exact hp p (List.mem_cons_self _ _)
            · rw [h1]; exact hp k (List.mem_cons_of_mem _ hk)
          rw [load_store_ne s _ hne, hload]
          have herase : (p :: l).erase job = p :: l.erase job := by
            rw [List.erase_cons_tail]
            simpa using hpj
          rw [herase]
          exact ⟨rfl, hlist⟩

theorem unlinkjob_fuel_mono (job : Nat) :
    ∀ (fuel : Nat) (s : OsScheduler) (pnext : Link) (s2 : OsScheduler),
      unlinkjob fuel s pnext job = .ok s2 → ∀ n, unlinkjob (fuel + n) s pnext job = .ok s2
  | 0, _, _, _, h, _ => by simp [unlinkjob] at h
  | fuel + 1, s, pnext, s2, h, n => by
    have hfn : fuel + 1 + n = (fuel + n) + 1 := by omega
    rw [hfn]
    unfold unlinkjob at h ⊢
    cases hld : s.load pnext with
    | none => simpa [hld] using h
    | some p =>
      simp only [hld] at h ⊢
      split at h
      · cases h
      · rename_i q hq
        exact unlinkjob_fuel_mono job fuel _ _ _ h n

/-- Removal through a list head, seen on the two lists: l is the list the cursor
starts at, lo the other list. -/
theorem unlinkjob_head {s s1 : OsScheduler} (pnext other : Link) {l lo : List Nat}
    {fuel job : Nat} (hhead : ∀ k, pnext ≠ .next k) (hother : ∀ k, other ≠ .next k)
    (hne : other ≠ pnext) (hl : IsList s.jobs (s.load pnext) l)
    (hlo : IsList s.jobs (s.load other) lo) (hnd : (l ++ lo).Nodup)
    (hrun : unlinkjob fuel s pnext job = .ok s1) :
    IsList s1.jobs (s1.load pnext) (l.erase job) ∧ IsList s1.jobs (s1.load other) lo ∧
      (∀ k, (s1.jobs k).deadline = (s.jobs k).deadline) ∧
      s1.is_sleep_allow = s.is_sleep_allow ∧ l.getLast? ≠ some job := by
  have hrun2 := unlinkjob_fuel_mono job fuel s pnext s1 hrun (l.length + 1)
  rcases unlinkjob_spec job l (fuel + (l.length + 1)) s pnext hl (fun k _ => hhead k)
    (by omega) with h | h | h
  · rw [h.2] at hrun2
    cases hrun2
    refine ⟨?_, hlo, fun _ => rfl, rfl, ?_⟩
    · rw [List.erase_of_not_mem h.1]; exact hl
    · intro hlast
      exact h.1 (List.mem_of_getLast?_eq_some hlast)
  · rw [h.2] at hrun2
    cases hrun2
  · obtain ⟨_, hlast, lk, hlk, hrun3, hlist⟩ := h
    rw [hrun3] at hrun2
    cases hrun2
    have hlko : other ≠ lk := by
      rcases hlk with h1 | ⟨k, _, _, h1⟩
      · rw [h1]; exact hne
      · rw [h1]; exact hother k
    refine ⟨hlist, ?_, fun k => deadline_store _ _ _ k, sleep_store _ _ _, hlast⟩
    rw [load_store_ne s _ hlko]
    refine (IsList.store_iff s lk _ ?_).mpr hlo
    intro k hk hEq
    rcases hlk with h1 | ⟨k2, hk2, _, h1⟩
    · exact hhead k (h1 ▸ hEq)
    · rw [h1] at hEq
      have hkk : k2 = k := by injection hEq
      subst hkk
      exact (List.disjoint_of_nodup_append hnd) hk2 hk

/-- Enough fuel and a job that is not the last of the list: removal completes. -/
theorem unlinkjob_progress {s : OsScheduler} (pnext : Link) {l : List Nat} {fuel : Nat}
    (job : Nat) (hhead : ∀ k, pnext ≠ .next k) (hl : IsList s.jobs (s.load pnext) l)
    (hf : l.length < fuel) (hlast : l.getLast? ≠ some job) :
    ∃ s1, unlinkjob fuel s pnext job = .ok s1 := by
  rcases unlinkjob_spec job l fuel s pnext hl (fun k _ => hhead k) hf with h | h | h
  · exact ⟨_, h.2⟩
  · exact absurd h.1 hlast
  · obtain ⟨_, _, lk, _, hrun, _⟩ := h
    exact ⟨_, hrun⟩

/-- Enough fuel and a job that is the last of the list: removal dereferences the
null pointer. -/
theorem unlinkjob_last {s : OsScheduler} (pnext : Link) {l : List Nat} {fuel : Nat}
    (job : Nat) (hhead : ∀ k, pnext ≠ .next k) (hl : IsList s.jobs (s.load pnext) l)
    (hf : l.length < fuel) (hlast : l.getLast? = some job) :
    unlinkjob fuel s pnext job = .nullDeref := by
  rcases unlinkjob_spec job l fuel s pnext hl (fun k _ => hhead k) hf with h | h | h
  · exact absurd (List.mem_of_getLast?_eq_some hlast) h.1
  · exact h.2
  · exact absurd hlast h.2.1

/-! ## Insertion into a list -/

theorem setNext_eq_store (s : OsScheduler) (j : Nat) (v : Option Nat) :
    s.setNext j v = s.store (.next j) v := rfl

theorem linkPost_end {s : OsScheduler} {pnext : Link} {job : Nat}
    (hnx : (s.jobs job).next = none) (hpj : pnext ≠ .next job) :
    LinkPost s pnext job [] [job] (s.store pnext (some job)) := by
  refine ⟨⟨load_store_same _ _ _, ?_⟩, ?_, fun k => deadline_store _ _ _ k, sleep_store _ _ _⟩
  · show ((s.store pnext (some job)).jobs job).next = none
    rw [next_store_ne s pnext _ job hpj]; exact hnx
  · intro lk h1 _ _
    exact load_store_ne s _ h1

theorem linkPost_cons {s s2 : OsScheduler} {pnext : Link} {job p : Nat} {l l2 : List Nat}
    (hload : s.load pnext = some p) (hpj : pnext ≠ .next job)
    (hp : ∀ k ∈ p :: l, pnext ≠ .next k) (h : LinkPost s (.next p) job l l2 s2) :
    LinkPost s pnext job (p :: l) (p :: l2) s2 := by
  obtain ⟨hlist, hframe, hdl, hsl⟩ := h
  refine ⟨⟨?_, hlist⟩, ?_, hdl, hsl⟩
  · rw [hframe pnext (hp p (List.mem_cons_self _ _)) hpj
      (fun k hk => hp k (List.mem_cons_of_mem _ hk))]
    exact hload
  · intro lk h1 h2 h3
    exact hframe lk (h3 p (List.mem_cons_self _ _)) h2
      (fun k hk => h3 k (List.mem_cons_of_mem _ hk))

theorem linkScheduledJobLoop_spec (job : Nat) (time : OsTime) :
    ∀ (l : List Nat) (fuel : Nat) (s : OsScheduler) (pnext : Link),
      IsList s.jobs (s.load pnext) l → job ∉ l → (s.jobs job).next = none →
      pnext ≠ .next job → (∀ k ∈ l, pnext ≠ .next k) →
      (l.length < fuel → ∃ s2, linkScheduledJobLoop fuel s pnext job time = .ok s2) ∧
      (∀ s2, linkScheduledJobLoop fuel s pnext job time = .ok s2 →
        LinkPost s pnext job l (insertByDeadline (fun k => (s.jobs k).deadline) job time l) s2)
  | _, 0, _, _, _, _, _, _, _ => by
    refine ⟨fun h => absurd h (Nat.not_lt_zero _), fun s2 h => ?_⟩
    simp [linkScheduledJobLoop] at h
  | [], fuel + 1, s, pnext, hl, _, hnx, hpj, _ => by
    have h0 : s.load pnext = none := hl
    have hrun : linkScheduledJobLoop (fuel + 1) s pnext job time
        = .ok (s.store pnext (some job)) := by
      simp [linkScheduledJobLoop, h0]
    rw [hrun]
    refine ⟨fun _ => ⟨_, rfl⟩, fun s2 h => ?_⟩
    cases h
    exact linkPost_end hnx hpj
  | p :: l, fuel + 1, s, pnext, hl, hjl, hnx, hpj, hp => by
    have hload : s.load pnext = some p := hl.1
    have hnd : (p :: l).Nodup := IsList.nodup hl
    by_cases hd : (s.jobs p).deadline > time
    · have hrun : linkScheduledJobLoop (fuel + 1) s pnext job time
          = .ok ((s.setNext job (some p)).store pnext (some job)) := by
        simp [linkScheduledJobLoop, hload, hd]
      rw [hrun]
      refine ⟨fun _ => ⟨_, rfl⟩, fun s2 h => ?_⟩
      cases h
      have hins : insertByDeadline (fun k => (s.jobs k).deadline) job time (p :: l)
          = job :: p :: l := by
        simp [insertByDeadline, hd]
      rw [hins, setNext_eq_store]
      refine ⟨⟨load_store_same _ _ _, ?_⟩, ?_, ?_, ?_⟩
      · have hjn : ((((s.store (.next job) (some p)).store pnext (some job)).jobs job).next)
            = some p := by
          rw [next_store_ne _ pnext _ job hpj]
          exact load_store_same s (.next job) (some p)
        rw [hjn]
        refine (IsList.store_iff _ pnext _ hp).mpr ?_
        refine (IsList.store_iff s (.next job) _ ?_).mpr ⟨rfl, hl.2⟩
        intro k hk hEq
        have hkj : job = k := by injection hEq
        exact hjl (hkj ▸ hk)
      · intro lk h1 h2 _
        rw [load_store_ne _ _ h1, load_store_ne _ _ h2]
      · intro k
        rw [deadline_store, deadline_store]
      · rw [sleep_store, sleep_store]
    · have hstep : linkScheduledJobLoop (fuel + 1) s pnext job time
          = linkScheduledJobLoop fuel s (.next p) job time := by
        simp only [linkScheduledJobLoop, hload]
        rw [if_neg hd]
      have hins : insertByDeadline (fun k => (s.jobs k).deadline) job time (p :: l)
          = p :: insertByDeadline (fun k => (s.jobs k).deadline) job time l := by
        simp only [insertByDeadline]
        rw [if_neg hd]
      have hpn : ∀ k ∈ l, Link.next p ≠ .next k := by
        intro k hk hEq
        have hpk : p = k := by injection hEq
        exact (List.nodup_cons.mp hnd).1 (hpk ▸ hk)
      have hpjob : Link.next p ≠ .next job := by
        intro hEq
        have hpk : p = job := by injection hEq
        exact hjl (hpk ▸ List.mem_cons_self _ _)
      have hrec := linkScheduledJobLoop_spec job time l fuel s (.next p) hl.2
        (fun h => hjl (List.mem_cons_of_mem _ h)) hnx hpjob hpn
      rw [hstep, hins]
      refine ⟨fun hf => hrec.1 (by simp at hf; omega), fun s2 h => ?_⟩
      exact linkPost_cons hload hpj hp (hrec.2 s2 h)

theorem linkRunableJobLoop_spec (job : Nat) :
    ∀ (l : List Nat) (fuel : Nat) (s : OsScheduler) (pnext : Link),
      IsList s.jobs (s.load pnext) l → job ∉ l → (s.jobs job).next = none →
      pnext ≠ .next job → (∀ k ∈ l, pnext ≠ .next k) →
      (l.length < fuel → ∃ s2, linkRunableJobLoop fuel s pnext job = .ok s2) ∧
      (∀ s2, linkRunableJobLoop fuel s pnext job = .ok s2 →
        LinkPost s pnext job l (l ++ [job]) s2)
  | _, 0, _, _, _, _, _, _, _ => by
    refine ⟨fun h => absurd h (Nat.not_lt_zero _), fun s2 h => ?_⟩
    simp [linkRunableJobLoop] at h
  | [], fuel + 1, s, pnext, hl, _, hnx, hpj, _ => by
    have h0 : s.load pnext = none := hl
    have hrun : linkRunableJobLoop (fuel + 1) s pnext job
        = .ok (s.store pnext (some job)) := by
      simp [linkRunableJobLoop, h0]
    rw [hrun]
    refine ⟨fun _ => ⟨_, rfl⟩, fun s2 h => ?_⟩
    cases h
    exact linkPost_end hnx hpj
  | p :: l, fuel + 1, s, pnext, hl, hjl, hnx, hpj, hp => by
    have hload : s.load pnext = some p := hl.1
    have hnd : (p :: l).Nodup := IsList.nodup hl
    have hstep : linkRunableJobLoop (fuel + 1) s pnext job
        = linkRunableJobLoop fuel s (.next p) job := by
      simp only [linkRunableJobLoop, hload]
    have hpn : ∀ k ∈ l, Link.next p ≠ .next k := by
      intro k hk hEq
      have hpk : p = k := by injection hEq
      exact (List.nodup_cons.mp hnd).1 (hpk ▸ hk)
    have hpjob : Link.next p ≠ .next job := by
      intro hEq
      have hpk : p = job := by injection hEq
      exact hjl (hpk ▸ List.mem_cons_self _ _)
    have hrec := linkRunableJobLoop_spec job l fuel s (.next p) hl.2
      (fun h => hjl (List.mem_cons_of_mem _ h)) hnx hpjob hpn
    rw [hstep]
    refine ⟨fun hf => hrec.1 (by simp at hf; omega), fun s2 h => ?_⟩
    exact linkPost_cons hload hpj hp (hrec.2 s2 h)

/-! ## The operations seen on the two lists -/

theorem Exec.bind_eq_ok {α β : Type} {x : Exec α} {f : α → Exec β} {b : β} :
    x.bind f = .ok b ↔ ∃ a, x = .ok a ∧ f a = .ok b := by
  cases x <;> simp [Exec.bind]

theorem Exec.bind_assoc {α β γ : Type} (x : Exec α) (f : α → Exec β) (g : β → Exec γ) :
    (x.bind f).bind g = x.bind fun a => (f a).bind g := by
  cases x <;> simp [Exec.bind]

theorem IsList.of_load_eq {s s2 : OsScheduler} (lk : Link) {l : List Nat}
    (hnext : ∀ k ∈ l, s2.load (.next k) = s.load (.next k)) (hhead : s2.load lk = s.load lk)
    (h : IsList s.jobs (s.load lk) l) : IsList s2.jobs (s2.load lk) l := by
  rw [hhead]
  exact IsList.frame hnext h

theorem Lists.disjoint {s : OsScheduler} {ls lr : List Nat} (h : Lists s ls lr) :
    ∀ k, k ∈ lr → k ∉ ls :=
  fun _ hr hs => (List.disjoint_of_nodup_append h.2.2) hr hs

theorem unlinkBoth_ok {s s2 : OsScheduler} {ls lr : List Nat} {fuel job : Nat}
    (h : Lists s ls lr)
    (hrun : (unlinkScheduledJobs fuel s job).bind
      (fun s1 => unlinkRunableJobs fuel s1 job) = .ok s2) :
    Lists s2 (ls.erase job) (lr.erase job) ∧
      (∀ k, (s2.jobs k).deadline = (s.jobs k).deadline) ∧
      s2.is_sleep_allow = s.is_sleep_allow ∧
      ls.getLast? ≠ some job ∧ lr.getLast? ≠ some job := by
  obtain ⟨s1, h1, h2⟩ := Exec.bind_eq_ok.mp hrun
  have hnd : (ls ++ lr).Nodup :=
    (List.perm_append_comm.nodup_iff).mp h.2.2
  obtain ⟨a1, a2, a3, a4, a5⟩ := unlinkjob_head .scheduledjobs .runnablejobs (fun k => by simp) (fun k => by simp) (by simp) h.1 h.2.1 hnd h1
  have hnd1 : (lr ++ ls.erase job).Nodup :=
    h.2.2.sublist (List.Sublist.append (List.Sublist.refl _) (List.erase_sublist _ _))
  obtain ⟨b1, b2, b3, b4, b5⟩ := unlinkjob_head .runnablejobs .scheduledjobs (fun k => by simp) (fun k => by simp) (by simp) a2 a1 hnd1 h2
  refine ⟨⟨b2, b1, ?_⟩, fun k => (b3 k).trans (a3 k), b4.trans a4, a5, b5⟩
  exact h.2.2.sublist (List.Sublist.append (List.erase_sublist _ _) (List.erase_sublist _ _))

theorem unlinkBoth_progress {s : OsScheduler} {ls lr : List Nat} {fuel job : Nat}
    (h : Lists s ls lr) (hfs : ls.length < fuel) (hfr : lr.length < fuel)
    (hls : ls.getLast? ≠ some job) (hlr : lr.getLast? ≠ some job) :
    ∃ s2, (unlinkScheduledJobs fuel s job).bind
      (fun s1 => unlinkRunableJobs fuel s1 job) = .ok s2 := by
  obtain ⟨s1, h1⟩ := unlinkjob_progress .scheduledjobs job
    (fun k => by simp) h.1 hfs hls
  have hnd : (ls ++ lr).Nodup :=
    (List.perm_append_comm.nodup_iff).mp h.2.2
  obtain ⟨_, a2, _, _, _⟩ := unlinkjob_head .scheduledjobs .runnablejobs (fun k => by simp) (fun k => by simp) (by simp) h.1 h.2.1 hnd h1
  obtain ⟨s2, h2⟩ := unlinkjob_progress .runnablejobs job
    (fun k => by simp) a2 hfr hlr
  exact ⟨s2, Exec.bind_eq_ok.mpr ⟨s1, h1, h2⟩⟩

theorem unlinkBoth_last {s : OsScheduler} {ls lr : List Nat} {fuel job : Nat}
    (h : Lists s ls lr) (hfs : ls.length < fuel) (hfr : lr.length < fuel)
    (hlast : ls.getLast? = some job ∨ lr.getLast? = some job) :
    (unlinkScheduledJobs fuel s job).bind
      (fun s1 => unlinkRunableJobs fuel s1 job) = .nullDeref := by
  rcases hlast with hls | hlr
  · have h1 := unlinkjob_last .scheduledjobs job
      (fun k => by simp) h.1 hfs hls
    simp [unlinkScheduledJobs, h1, Exec.bind]
  · have hjr : job ∈ lr := List.mem_of_getLast?_eq_some hlr
    have hjs : job ∉ ls := h.disjoint job hjr
    have hls : ls.getLast? ≠ some job := fun hl => hjs (List.mem_of_getLast?_eq_some hl)
    obtain ⟨s1, h1⟩ := unlinkjob_progress .scheduledjobs job
      (fun k => by simp) h.1 hfs hls
    have hnd : (ls ++ lr).Nodup :=
      (List.perm_append_comm.nodup_iff).mp h.2.2
    obtain ⟨_, a2, _, _, _⟩ := unlinkjob_head .scheduledjobs .runnablejobs (fun k => by simp) (fun k => by simp) (by simp) h.1 h.2.1 hnd h1
    have h2 := unlinkjob_last .runnablejobs job
      (fun k => by simp) a2 hfr hlr
    simp [unlinkScheduledJobs, unlinkRunableJobs, h1, h2, Exec.bind]

theorem insertByDeadline_perm (dl : Nat → OsTime) (job : Nat) (time : OsTime) :
    ∀ l : List Nat, (insertByDeadline dl job time l).Perm (job :: l)
  | [] => List.Perm.refl _
  | p :: l => by
    unfold insertByDeadline
    split
    · exact List.Perm.refl _
    · exact ((insertByDeadline_perm dl job time l).cons p).trans (List.Perm.swap job p l)

theorem insertByDeadline_congr {dl dl2 : Nat → OsTime} (job : Nat) (time : OsTime) :
    ∀ l : List Nat, (∀ k ∈ l, dl2 k = dl k) →
      insertByDeadline dl2 job time l = insertByDeadline dl job time l
  | [], _ => rfl
  | p :: l, h => by
    unfold insertByDeadline
    rw [h p (List.mem_cons_self _ _),
      insertByDeadline_congr job time l (fun k hk => h k (List.mem_cons_of_mem _ hk))]

theorem load_setDeadline (s : OsScheduler) (j : Nat) (t : OsTime) (lk : Link) :
    (s.setDeadline j t).load lk = s.load lk := by
  cases lk <;> simp [OsScheduler.setDeadline, OsScheduler.load, Function.update]
  split <;> simp_all

theorem deadline_setDeadline_same (s : OsScheduler) (j : Nat) (t : OsTime) :
    ((s.setDeadline j t).jobs j).deadline = t := by
  simp [OsScheduler.setDeadline]

theorem deadline_setDeadline_ne (s : OsScheduler) {j k : Nat} (t : OsTime) (h : k ≠ j) :
    ((s.setDeadline j t).jobs k).deadline = (s.jobs k).deadline := by
  simp [OsScheduler.setDeadline, Function.update, h]

theorem Lists.setDeadline {s : OsScheduler} {ls lr : List Nat} (h : Lists s ls lr)
    (j : Nat) (t : OsTime) : Lists (s.setDeadline j t) ls lr :=
  ⟨IsList.of_load_eq .scheduledjobs (fun _ _ => load_setDeadline s j t _)
      (load_setDeadline s j t _) h.1,
   IsList.of_load_eq .runnablejobs (fun _ _ => load_setDeadline s j t _)
      (load_setDeadline s j t _) h.2.1, h.2.2⟩

/-- The state handed to a linking loop: the next field of the job has been
cleared, and the two lists, which do not hold the job, are as before. -/
theorem Lists.clearNext {s : OsScheduler} {ls lr : List Nat} (h : Lists s ls lr)
    {job : Nat} (hs : job ∉ ls) (hr : job ∉ lr) : Lists (s.setNext job none) ls lr := by
  have hne : ∀ l : List Nat, job ∉ l → ∀ k ∈ l, Link.next job ≠ .next k := by
    intro l hl k hk hEq
    have hkj : job = k := by injection hEq
    exact hl (hkj ▸ hk)
  rw [setNext_eq_store]
  exact ⟨(IsList.store_iff s _ _ (hne ls hs)).mpr h.1,
    (IsList.store_iff s _ _ (hne lr hr)).mpr h.2.1, h.2.2⟩

theorem linkScheduledJob_lists {s : OsScheduler} {ls lr : List Nat} (fuel : Nat) {job : Nat}
    (h : Lists s ls lr) (hs : job ∉ ls) (hr : job ∉ lr) :
    (ls.length < fuel → ∃ s2, linkScheduledJob fuel s job = .ok s2) ∧
    (∀ s2, linkScheduledJob fuel s job = .ok s2 →
      Lists s2 (insertByDeadline (fun k => (s.jobs k).deadline) job (s.jobs job).deadline ls) lr ∧
      (∀ k, (s2.jobs k).deadline = (s.jobs k).deadline) ∧
      s2.is_sleep_allow = s.is_sleep_allow) := by
  have h0 := h.clearNext hs hr
  have hnx : ((s.setNext job none).jobs job).next = none :=
    load_store_same s (.next job) none
  have hspec := linkScheduledJobLoop_spec job (s.jobs job).deadline ls fuel
    (s.setNext job none) .scheduledjobs h0.1 hs hnx (by simp) (fun k _ => by simp)
  refine ⟨hspec.1, fun s2 hrun => ?_⟩
  obtain ⟨hlist, hframe, hdl, hsl⟩ := hspec.2 s2 hrun
  have hdl0 : ∀ k, ((s.setNext job none).jobs k).deadline = (s.jobs k).deadline :=
    fun k => deadline_store s (.next job) none k
  rw [insertByDeadline_congr job _ ls (fun k _ => hdl0 k)] at hlist
  refine ⟨⟨hlist, ?_, ?_⟩, fun k => (hdl k).trans (hdl0 k), hsl⟩
  · refine IsList.of_load_eq .runnablejobs ?_ ?_ h0.2.1
    · intro k hk
      refine hframe _ (by simp) ?_ ?_
      · intro hEq
        have hkj : k = job := by injection hEq
        exact hr (hkj ▸ hk)
      · intro k2 hk2 hEq
        have hkk : k = k2 := by injection hEq
        exact h.disjoint k hk (hkk ▸ hk2)
    · exact hframe _ (by simp) (by simp) (fun k _ => by simp)
  · have hperm : (lr ++ insertByDeadline (fun k => (s.jobs k).deadline) job
        (s.jobs job).deadline ls).Perm (job :: (lr ++ ls)) :=
      ((insertByDeadline_perm _ job _ ls).append_left lr).trans List.perm_middle
    rw [hperm.nodup_iff]
    refine List.nodup_cons.mpr ⟨?_, h.2.2⟩
    intro hmem
    rcases List.mem_append.mp hmem with h1 | h1
    · exact hr h1
    · exact hs h1

theorem linkRunableJob_lists {s : OsScheduler} {ls lr : List Nat} (fuel : Nat) {job : Nat}
    (h : Lists s ls lr) (hs : job ∉ ls) (hr : job ∉ lr) :
    (lr.length < fuel → ∃ s2, linkRunableJob fuel s job = .ok s2) ∧
    (∀ s2, linkRunableJob fuel s job = .ok s2 →
      Lists s2 ls (lr ++ [job]) ∧
      (∀ k, (s2.jobs k).deadline = (s.jobs k).deadline) ∧
      s2.is_sleep_allow = s.is_sleep_allow) := by
  have h0 := h.clearNext hs hr
  have hnx : ((s.setNext job none).jobs job).next = none :=
    load_store_same s (.next job) none
  have hspec := linkRunableJobLoop_spec job lr fuel
    (s.setNext job none) .runnablejobs h0.2.1 hr hnx (by simp) (fun k _ => by simp)
  refine ⟨hspec.1, fun s2 hrun => ?_⟩
  obtain ⟨hlist, hframe, hdl, hsl⟩ := hspec.2 s2 hrun
  have hdl0 : ∀ k, ((s.setNext job none).jobs k).deadline = (s.jobs k).deadline :=
    fun k => deadline_store s (.next job) none k
  refine ⟨⟨?_, hlist, ?_⟩, fun k => (hdl k).trans (hdl0 k), hsl⟩
  · refine IsList.of_load_eq .scheduledjobs ?_ ?_ h0.1
    · intro k hk
      refine hframe _ (by simp) ?_ ?_
      · intro hEq
        have hkj : k = job := by injection hEq
        exact hs (hkj ▸ hk)
      · intro k2 hk2 hEq
        have hkk : k = k2 := by injection hEq
        exact h.disjoint k2 hk2 (hkk ▸ hk)
    · exact hframe _ (by simp) (by simp) (fun k _ => by simp)
  · have hperm : ((lr ++ [job]) ++ ls).Perm (job :: (lr ++ ls)) := by
      rw [List.append_assoc]
      exact List.perm_middle
    rw [hperm.nodup_iff]
    refine List.nodup_cons.mpr ⟨?_, h.2.2⟩
    intro hmem
    rcases List.mem_append.mp hmem with h1 | h1
    · exact hr h1
    · exact hs h1

theorem Lists.nodup_scheduled {s : OsScheduler} {ls lr : List Nat} (h : Lists s ls lr) :
    ls.Nodup := (List.nodup_append.mp h.2.2).2.1

theorem Lists.nodup_runnable {s : OsScheduler} {ls lr : List Nat} (h : Lists s ls lr) :
    lr.Nodup := (List.nodup_append.mp h.2.2).1

theorem Lists.determined {s : OsScheduler} {ls lr ls2 lr2 : List Nat} (h : Lists s ls lr)
    (h2 : Lists s ls2 lr2) : ls2 = ls ∧ lr2 = lr :=
  ⟨IsList.unique h2.1 h.1, IsList.unique h2.2.1 h.2.1⟩

theorem setTimed_eq (fuel : Nat) (s : OsScheduler) (job : Nat) (time : OsTime) :
    setTimed fuel s job time =
      ((unlinkScheduledJobs fuel s job).bind fun s1 => unlinkRunableJobs fuel s1 job).bind
        fun s2 => linkScheduledJob fuel (s2.setDeadline job time) job :=
  (Exec.bind_assoc _ _ _).symm

theorem setRunnable_eq (fuel : Nat) (s : OsScheduler) (job : Nat) :
    setRunnable fuel s job =
      ((unlinkScheduledJobs fuel s job).bind fun s1 => unlinkRunableJobs fuel s1 job).bind
        fun s2 => linkRunableJob fuel s2 job :=
  (Exec.bind_assoc _ _ _).symm

/-- What a completed setTimed leaves: the job removed from both lists and
spliced into the deadline list, with its deadline set. -/
theorem setTimed_ok {s s2 : OsScheduler} {ls lr : List Nat} {fuel job : Nat} {time : OsTime}
    (h : Lists s ls lr) (hrun : setTimed fuel s job time = .ok s2) :
    Lists s2 (insertByDeadline (fun k => (s.jobs k).deadline) job time (ls.erase job))
        (lr.erase job) ∧
      (s2.jobs job).deadline = time ∧
      (∀ k, k ≠ job → (s2.jobs k).deadline = (s.jobs k).deadline) ∧
      s2.is_sleep_allow = s.is_sleep_allow := by
  rw [setTimed_eq] at hrun
  obtain ⟨s1, h1, h2⟩ := Exec.bind_eq_ok.mp hrun
  obtain ⟨hl1, hd1, hs1, _, _⟩ := unlinkBoth_ok h h1
  have hjs : job ∉ ls.erase job := h.nodup_scheduled.not_mem_erase
  have hjr : job ∉ lr.erase job := h.nodup_runnable.not_mem_erase
  obtain ⟨hl2, hd2, hs2⟩ :=
    (linkScheduledJob_lists fuel (hl1.setDeadline job time) hjs hjr).2 s2 h2
  rw [deadline_setDeadline_same] at hl2
  have hcongr : insertByDeadline (fun k => ((s1.setDeadline job time).jobs k).deadline) job time
      (ls.erase job) = insertByDeadline (fun k => (s.jobs k).deadline) job time
      (ls.erase job) := by
    refine insertByDeadline_congr job time _ ?_
    intro k hk
    have hkj : k ≠ job := fun hEq => hjs (hEq ▸ hk)
    show ((s1.setDeadline job time).jobs k).deadline = (s.jobs k).deadline
    rw [deadline_setDeadline_ne s1 time hkj, hd1]
  rw [hcongr] at hl2
  refine ⟨hl2, ?_, ?_, hs2.trans hs1⟩
  · rw [hd2, deadline_setDeadline_same]
  · intro k hkj
    rw [hd2, deadline_setDeadline_ne s1 time hkj, hd1]

theorem setTimed_progress {s : OsScheduler} {ls lr : List Nat} {fuel job : Nat} (time : OsTime)
    (h : Lists s ls lr) (hfs : ls.length < fuel) (hfr : lr.length < fuel)
    (hls : ls.getLast? ≠ some job) (hlr : lr.getLast? ≠ some job) :
    ∃ s2, setTimed fuel s job time = .ok s2 := by
  obtain ⟨s1, h1⟩ := unlinkBoth_progress h hfs hfr hls hlr
  obtain ⟨hl1, _, _, _, _⟩ := unlinkBoth_ok h h1
  have hjs : job ∉ ls.erase job := h.nodup_scheduled.not_mem_erase
  have hjr : job ∉ lr.erase job := h.nodup_runnable.not_mem_erase
  have hlen : (ls.erase job).length < fuel :=
    lt_of_le_of_lt (List.erase_sublist _ _).length_le hfs
  obtain ⟨s2, h2⟩ :=
    (linkScheduledJob_lists fuel (hl1.setDeadline job time) hjs hjr).1 hlen
  exact ⟨s2, by rw [setTimed_eq]; exact Exec.bind_eq_ok.mpr ⟨s1, h1, h2⟩⟩

theorem setTimed_last {s : OsScheduler} {ls lr : List Nat} {fuel job : Nat} (time : OsTime)
    (h : Lists s ls lr) (hfs : ls.length < fuel) (hfr : lr.length < fuel)
    (hlast : ls.getLast? = some job ∨ lr.getLast? = some job) :
    setTimed fuel s job time = .nullDeref := by
  rw [setTimed_eq, unlinkBoth_last h hfs hfr hlast]
  rfl

/-- What a completed setRunnable leaves: the job removed from both lists and
appended to the runnable list. -/
theorem setRunnable_ok {s s2 : OsScheduler} {ls lr : List Nat} {fuel job : Nat}
    (h : Lists s ls lr) (hrun : setRunnable fuel s job = .ok s2) :
    Lists s2 (ls.erase job) (lr.erase job ++ [job]) ∧
      (∀ k, (s2.jobs k).deadline = (s.jobs k).deadline) ∧
      s2.is_sleep_allow = s.is_sleep_allow := by
  rw [setRunnable_eq] at hrun
  obtain ⟨s1, h1, h2⟩ := Exec.bind_eq_ok.mp hrun
  obtain ⟨hl1, hd1, hs1, _, _⟩ := unlinkBoth_ok h h1
  have hjs : job ∉ ls.erase job := h.nodup_scheduled.not_mem_erase
  have hjr : job ∉ lr.erase job := h.nodup_runnable.not_mem_erase
  obtain ⟨hl2, hd2, hs2⟩ := (linkRunableJob_lists fuel hl1 hjs hjr).2 s2 h2
  exact ⟨hl2, fun k => (hd2 k).trans (hd1 k), hs2.trans hs1⟩

theorem setRunnable_progress {s : OsScheduler} {ls lr : List Nat} {fuel job : Nat}
    (h : Lists s ls lr) (hfs : ls.length < fuel) (hfr : lr.length < fuel)
    (hls : ls.getLast? ≠ some job) (hlr : lr.getLast? ≠ some job) :
    ∃ s2, setRunnable fuel s job = .ok s2 := by
  obtain ⟨s1, h1⟩ := unlinkBoth_progress h hfs hfr hls hlr
  obtain ⟨hl1, _, _, _, _⟩ := unlinkBoth_ok h h1
  have hjs : job ∉ ls.erase job := h.nodup_scheduled.not_mem_erase
  have hjr : job ∉ lr.erase job := h.nodup_runnable.not_mem_erase
  have hlen : (lr.erase job).length < fuel :=
    lt_of_le_of_lt (List.erase_sublist _ _).length_le hfr
  obtain ⟨s2, h2⟩ := (linkRunableJob_lists fuel hl1 hjs hjr).1 hlen
  exact ⟨s2, by rw [setRunnable_eq]; exact Exec.bind_eq_ok.mpr ⟨s1, h1, h2⟩⟩

theorem setRunnable_last {s : OsScheduler} {ls lr : List Nat} {fuel job : Nat}
    (h : Lists s ls lr) (hfs : ls.length < fuel) (hfr : lr.length < fuel)
    (hlast : ls.getLast? = some job ∨ lr.getLast? = some job) :
    setRunnable fuel s job = .nullDeref := by
  rw [setRunnable_eq, unlinkBoth_last h hfs hfr hlast]
  rfl

theorem Lists.allowSleep {s : OsScheduler} {ls lr : List Nat} (h : Lists s ls lr) :
    Lists (allowSleep s) ls lr := h

/-- What a completed clearCallback leaves: the job removed from both lists and
the sleep flag set. -/
theorem clearCallback_ok {s s2 : OsScheduler} {ls lr : List Nat} {fuel job : Nat}
    (h : Lists s ls lr) (hrun : clearCallback fuel s job = .ok s2) :
    Lists s2 (ls.erase job) (lr.erase job) ∧
      (∀ k, (s2.jobs k).deadline = (s.jobs k).deadline) ∧
      s2.is_sleep_allow = true ∧
      ls.getLast? ≠ some job ∧ lr.getLast? ≠ some job := by
  obtain ⟨hl, hd, hs, h4, h5⟩ := unlinkBoth_ok h.allowSleep hrun
  exact ⟨hl, hd, hs, h4, h5⟩

theorem clearCallback_progress {s : OsScheduler} {ls lr : List Nat} {fuel job : Nat}
    (h : Lists s ls lr) (hfs : ls.length < fuel) (hfr : lr.length < fuel)
    (hls : ls.getLast? ≠ some job) (hlr : lr.getLast? ≠ some job) :
    ∃ s2, clearCallback fuel s job = .ok s2 :=
  unlinkBoth_progress h.allowSleep hfs hfr hls hlr

theorem clearCallback_last {s : OsScheduler} {ls lr : List Nat} {fuel job : Nat}
    (h : Lists s ls lr) (hfs : ls.length < fuel) (hfr : lr.length < fuel)
    (hlast : ls.getLast? = some job ∨ lr.getLast? = some job) :
    clearCallback fuel s job = .nullDeref :=
  unlinkBoth_last h.allowSleep hfs hfr hlast

/-! ## Order of the deadline list -/

theorem sortedDeadlines_iff (s : OsScheduler) (l : List Nat) :
    SortedDeadlines s l ↔ l.Pairwise fun a b => (s.jobs a).deadline ≤ (s.jobs b).deadline := by
  unfold SortedDeadlines deadlines List.Sorted
  exact List.pairwise_map

theorem insertByDeadline_pairwise (dl : Nat → OsTime) (job : Nat) :
    ∀ l : List Nat, (l.Pairwise fun a b => dl a ≤ dl b) →
      (insertByDeadline dl job (dl job) l).Pairwise fun a b => dl a ≤ dl b
  | [], _ => List.pairwise_singleton _ _
  | p :: l, h => by
    obtain ⟨hp, hl⟩ := List.pairwise_cons.mp h
    unfold insertByDeadline
    split
    · rename_i hgt
      refine List.pairwise_cons.mpr ⟨?_, h⟩
      intro x hx
      rcases List.mem_cons.mp hx with h1 | h1
      · rw [h1]; exact Nat.le_of_lt hgt
      · exact Nat.le_trans (Nat.le_of_lt hgt) (hp x h1)
    · rename_i hgt
      refine List.pairwise_cons.mpr ⟨?_, insertByDeadline_pairwise dl job l hl⟩
      intro x hx
      rcases List.mem_cons.mp ((insertByDeadline_perm dl job (dl job) l).mem_iff.mp hx)
        with h1 | h1
      · rw [h1]; exact Nat.le_of_not_lt hgt
      · exact hp x h1

/-- One completed setTimed keeps the deadline list sorted. -/
theorem setTimed_sorted {s s2 : OsScheduler} {ls lr : List Nat} {fuel job : Nat}
    {time : OsTime} (h : Lists s ls lr) (hsorted : SortedDeadlines s ls)
    (hrun : setTimed fuel s job time = .ok s2) :
    Lists s2 (insertByDeadline (fun k => (s.jobs k).deadline) job time (ls.erase job))
        (lr.erase job) ∧
      SortedDeadlines s2
        (insertByDeadline (fun k => (s.jobs k).deadline) job time (ls.erase job)) := by
  obtain ⟨hl, hdj, hdk, _⟩ := setTimed_ok h hrun
  refine ⟨hl, ?_⟩
  have hjs : job ∉ ls.erase job := h.nodup_scheduled.not_mem_erase
  have hcongr : insertByDeadline (fun k => (s.jobs k).deadline) job time (ls.erase job)
      = insertByDeadline (fun k => (s2.jobs k).deadline) job
          ((fun k => (s2.jobs k).deadline) job) (ls.erase job) := by
    show _ = insertByDeadline (fun k => (s2.jobs k).deadline) job (s2.jobs job).deadline _
    rw [hdj]
    refine (insertByDeadline_congr job time _ ?_).symm
    intro k hk
    exact hdk k (fun hEq => hjs (hEq ▸ hk))
  rw [hcongr, sortedDeadlines_iff]
  refine insertByDeadline_pairwise (fun k => (s2.jobs k).deadline) job _ ?_
  have hold := ((sortedDeadlines_iff s ls).mp hsorted).sublist (List.erase_sublist job ls)
  refine hold.imp_of_mem ?_
  intro a b ha hb hab
  show (s2.jobs a).deadline ≤ (s2.jobs b).deadline
  rw [hdk a (fun hEq => hjs (hEq ▸ ha)), hdk b (fun hEq => hjs (hEq ▸ hb))]
  exact hab

theorem popHeads_eq_take {jobs : Nat → OsJobBase} :
    ∀ (n : Nat) {l : List Nat} {p : Option Nat}, IsList jobs p l → popHeads jobs n p = l.take n
  | 0, _, _, _ => by simp [popHeads]
  | n + 1, [], _, h => by
    have h0 : _ = none := h
    subst h0
    simp [popHeads]
  | n + 1, j :: l, _, h => by
    obtain ⟨h1, h2⟩ := h
    subst h1
    simp [popHeads, popHeads_eq_take n h2]

theorem setTimedAll_sorted (fuel : Nat) :
    ∀ (calls : List (Nat × OsTime)) (s s2 : OsScheduler) (ls lr : List Nat),
      Lists s ls lr → SortedDeadlines s ls → setTimedAll fuel s calls = .ok s2 →
      ∃ ls2 lr2, Lists s2 ls2 lr2 ∧ SortedDeadlines s2 ls2
  | [], s, s2, ls, lr, h, hsorted, hrun => by
    simp only [setTimedAll] at hrun
    cases hrun
    exact ⟨ls, lr, h, hsorted⟩
  | c :: rest, s, s2, ls, lr, h, hsorted, hrun => by
    simp only [setTimedAll] at hrun
    obtain ⟨s1, h1, h2⟩ := Exec.bind_eq_ok.mp hrun
    obtain ⟨hl1, hs1⟩ := setTimed_sorted h hsorted h1
    exact setTimedAll_sorted fuel rest s1 s2 _ _ hl1 hs1 h2

theorem not_last_of_not_mem {l : List Nat} {job : Nat} (h : job ∉ l) :
    l.getLast? ≠ some job :=
  fun hl => h (List.mem_of_getLast?_eq_some hl)

theorem setTimedAll_progress (fuel : Nat) :
    ∀ (calls : List (Nat × OsTime)) (s : OsScheduler) (ls lr : List Nat),
      Lists s ls lr → (calls.map Prod.fst).Nodup →
      (∀ c ∈ calls, c.1 ∉ ls ∧ c.1 ∉ lr) →
      ls.length + calls.length < fuel → lr.length < fuel →
      ∃ s2, setTimedAll fuel s calls = .ok s2
  | [], s, _, _, _, _, _, _, _ => ⟨s, rfl⟩
  | c :: rest, s, ls, lr, h, hnd, hfresh, hfs, hfr => by
    obtain ⟨hcs, hcr⟩ := hfresh c (List.mem_cons_self _ _)
    have hlen : ls.length < fuel := by simp at hfs; omega
    obtain ⟨s1, h1⟩ := setTimed_progress c.2 h hlen hfr
      (not_last_of_not_mem hcs) (not_last_of_not_mem hcr)
    obtain ⟨hl1, _, _, _⟩ := setTimed_ok h h1
    rw [List.erase_of_not_mem hcs, List.erase_of_not_mem hcr] at hl1
    have hnd2 := List.nodup_cons.mp (by simpa using hnd : (c.1 :: rest.map Prod.fst).Nodup)
    have hfresh2 : ∀ d ∈ rest,
        d.1 ∉ insertByDeadline (fun k => (s.jobs k).deadline) c.1 c.2 ls ∧ d.1 ∉ lr := by
      intro d hd
      obtain ⟨hds, hdr⟩ := hfresh d (List.mem_cons_of_mem _ hd)
      refine ⟨?_, hdr⟩
      intro hmem
      rcases List.mem_cons.mp ((insertByDeadline_perm _ c.1 c.2 ls).mem_iff.mp hmem)
        with h3 | h3
      · exact hnd2.1 (h3 ▸ List.mem_map_of_mem Prod.fst hd)
      · exact hds h3
    have hlen2 : (insertByDeadline (fun k => (s.jobs k).deadline) c.1 c.2 ls).length
        + rest.length < fuel := by
      rw [(insertByDeadline_perm _ c.1 c.2 ls).length_eq]
      simp at hfs ⊢
      omega
    obtain ⟨s2, h2⟩ := setTimedAll_progress fuel rest s1 _ lr hl1 hnd2.2 hfresh2 hlen2 hfr
    exact ⟨s2, by simp only [setTimedAll]; exact Exec.bind_eq_ok.mpr ⟨s1, h1, h2⟩⟩

/-- C1: every sequence of setTimed (scheduleAt) calls on a scheduler whose
deadline list is sorted leaves, when the calls have completed, a deadline list
that is non-decreasing in deadline from head to tail, so that popping the head
any number of times yields jobs in non-decreasing deadline order; and the calls
do complete when they schedule distinct jobs that are not yet queued. -/
theorem scheduleAt_keeps_deadlines_sorted (fuel : Nat) (calls : List (Nat × OsTime))
    (s : OsScheduler) (ls lr : List Nat) (h : Lists s ls lr)
    (hsorted : SortedDeadlines s ls) :
    (∀ s2, setTimedAll fuel s calls = .ok s2 →
      ∃ ls2 lr2, Lists s2 ls2 lr2 ∧ SortedDeadlines s2 ls2 ∧
        ∀ n, popHeads s2.jobs n s2.scheduledjobs = ls2.take n ∧
          SortedDeadlines s2 (popHeads s2.jobs n s2.scheduledjobs)) ∧
    ((calls.map Prod.fst).Nodup → (∀ c ∈ calls, c.1 ∉ ls ∧ c.1 ∉ lr) →
      ls.length + calls.length < fuel → lr.length < fuel →
      ∃ s2, setTimedAll fuel s calls = .ok s2) := by
  refine ⟨fun s2 hrun => ?_, fun hnd hfresh hfs hfr =>
    setTimedAll_progress fuel calls s ls lr h hnd hfresh hfs hfr⟩
  obtain ⟨ls2, lr2, hl2, hs2⟩ := setTimedAll_sorted fuel calls s s2 ls lr h hsorted hrun
  refine ⟨ls2, lr2, hl2, hs2, fun n => ?_⟩
  have hpop := popHeads_eq_take n hl2.1
  refine ⟨hpop, ?_⟩
  rw [hpop, sortedDeadlines_iff]
  exact ((sortedDeadlines_iff s2 ls2).mp hs2).sublist (List.take_sublist n ls2)

/-- Witness for C1: three jobs scheduled out of deadline order on the empty
scheduler. -/
theorem scheduleAt_keeps_deadlines_sorted_witness :
    Lists emptyScheduler [] [] ∧ SortedDeadlines emptyScheduler [] ∧
      ∃ s2 ls2 lr2, setTimedAll 8 emptyScheduler [(1, 30), (2, 10), (3, 20)] = .ok s2 ∧
        Lists s2 ls2 lr2 ∧ SortedDeadlines s2 ls2 := by
  have hl : Lists emptyScheduler [] [] := by simp [Lists, IsList, emptyScheduler]
  have hs : SortedDeadlines emptyScheduler [] := by simp [SortedDeadlines, deadlines]
  have hthm := scheduleAt_keeps_deadlines_sorted 8 [(1, 30), (2, 10), (3, 20)]
    emptyScheduler [] [] hl hs
  obtain ⟨s2, hrun⟩ := hthm.2 (by decide) (by simp) (by decide) (by decide)
  obtain ⟨ls2, lr2, h1, h2, _⟩ := hthm.1 s2 hrun
  exact ⟨hl, hs, s2, ls2, lr2, hrun, h1, h2⟩

/-! ## One step of the run loop -/

theorem Lists.runnable_head {s : OsScheduler} {ls lr : List Nat} {j : Nat}
    (h : Lists s ls (j :: lr)) : s.runnablejobs = some j := h.2.1.1

theorem Lists.scheduled_head {s : OsScheduler} {ls lr : List Nat} {j : Nat}
    (h : Lists s (j :: ls) lr) : s.scheduledjobs = some j := h.1.1

theorem Lists.runnable_none {s : OsScheduler} {ls : List Nat} (h : Lists s ls []) :
    s.runnablejobs = none := h.2.1

theorem Lists.scheduled_none {s : OsScheduler} {lr : List Nat} (h : Lists s [] lr) :
    s.scheduledjobs = none := h.1

theorem Lists.popRunnable {s : OsScheduler} {ls lr : List Nat} {j : Nat}
    (h : Lists s ls (j :: lr)) :
    Lists { s with runnablejobs := (s.jobs j).next } ls lr :=
  ⟨h.1, h.2.1.2, (List.nodup_cons.mp h.2.2).2⟩

theorem Lists.popScheduled {s : OsScheduler} {ls lr : List Nat} {j : Nat}
    (h : Lists s (j :: ls) lr) :
    Lists { s with scheduledjobs := (s.jobs j).next } ls lr :=
  ⟨h.1.2, h.2.1, h.2.2.sublist
    (List.Sublist.append (List.Sublist.refl _) (List.sublist_cons_self _ _))⟩

theorem selectJob_runnable {s : OsScheduler} {j : Nat} (ticks : OsTime)
    (h : s.runnablejobs = some j) :
    selectJob ticks s = (some j, { s with runnablejobs := (s.jobs j).next }) := by
  simp [selectJob, h]

theorem selectJob_due {s : OsScheduler} {d : Nat} {ticks : OsTime}
    (hr : s.runnablejobs = none) (hs : s.scheduledjobs = some d)
    (hdue : (s.jobs d).deadline ≤ ticks) :
    selectJob ticks s = (some d, { s with scheduledjobs := (s.jobs d).next }) := by
  simp [selectJob, hr, hs, hal_checkTimer, hdue]

theorem selectJob_early {s : OsScheduler} {d : Nat} {ticks : OsTime}
    (hr : s.runnablejobs = none) (hs : s.scheduledjobs = some d)
    (hearly : ticks < (s.jobs d).deadline) : selectJob ticks s = (none, s) := by
  simp [selectJob, hr, hs, hal_checkTimer, hearly]

theorem selectJob_none {s : OsScheduler} (ticks : OsTime)
    (hr : s.runnablejobs = none) (hs : s.scheduledjobs = none) :
    selectJob ticks s = (none, s) := by
  simp [selectJob, hr, hs]

theorem selectJob_lists {s : OsScheduler} {ls lr : List Nat} (ticks : OsTime)
    (h : Lists s ls lr) : ∃ ls2 lr2, Lists (selectJob ticks s).2 ls2 lr2 := by
  cases lr with
  | cons j lr2 =>
    rw [selectJob_runnable ticks h.runnable_head]
    exact ⟨ls, lr2, h.popRunnable⟩
  | nil =>
    cases ls with
    | nil =>
      rw [selectJob_none ticks h.runnable_none h.scheduled_none]
      exact ⟨[], [], h⟩
    | cons d ls2 =>
      by_cases hdue : (s.jobs d).deadline ≤ ticks
      · rw [selectJob_due h.runnable_none h.scheduled_head hdue]
        exact ⟨ls2, [], h.popScheduled⟩
      · rw [selectJob_early h.runnable_none h.scheduled_head (Nat.lt_of_not_le hdue)]
        exact ⟨d :: ls2, [], h⟩

/-- C2: runloopOnce runs at most one job.  If the runnable list is non-empty it
pops and runs the runnable head, whatever the deadlines are; otherwise, if the
head of the deadline list is due, it pops and runs that head; otherwise it runs
nothing and leaves the scheduler as it was.  A job of the deadline list is run
only when no runnable job is pending and its deadline has been reached. -/
theorem runloopOnce_selects (call : Nat → OsScheduler → OsScheduler) (ticks ticks2 : OsTime)
    (s : OsScheduler) (ls lr : List Nat) (h : Lists s ls lr) :
    (∀ j lr2, lr = j :: lr2 →
      (runloopOnce call ticks ticks2 s).ran = some j ∧
      ∃ s1, Lists s1 ls lr2 ∧ s1.jobs = s.jobs ∧ s1.is_sleep_allow = s.is_sleep_allow ∧
        (runloopOnce call ticks ticks2 s).sched = call j s1) ∧
    (∀ j ls2, lr = [] → ls = j :: ls2 → (s.jobs j).deadline ≤ ticks →
      (runloopOnce call ticks ticks2 s).ran = some j ∧
      ∃ s1, Lists s1 ls2 [] ∧ s1.jobs = s.jobs ∧ s1.is_sleep_allow = s.is_sleep_allow ∧
        (runloopOnce call ticks ticks2 s).sched = call j s1) ∧
    (lr = [] → (∀ j ∈ ls.head?, ticks < (s.jobs j).deadline) →
      (runloopOnce call ticks ticks2 s).ran = none ∧
      (runloopOnce call ticks ticks2 s).sched = s) ∧
    (∀ j, (runloopOnce call ticks ticks2 s).ran = some j → j ∈ ls →
      lr = [] ∧ ls.head? = some j ∧ (s.jobs j).deadline ≤ ticks) := by
  refine ⟨?_, ?_, ?_, ?_⟩
  · intro j lr2 hlr
    subst hlr
    have hsel := selectJob_runnable ticks h.runnable_head
    refine ⟨by simp [runloopOnce, hsel], _, h.popRunnable, rfl, rfl, ?_⟩
    simp [runloopOnce, hsel]
  · intro j ls2 hlr hls hdue
    subst hlr hls
    have hsel := selectJob_due h.runnable_none h.scheduled_head hdue
    refine ⟨by simp [runloopOnce, hsel], _, h.popScheduled, rfl, rfl, ?_⟩
    simp [runloopOnce, hsel]
  · intro hlr hearly
    subst hlr
    cases ls with
    | nil =>
      have hsel := selectJob_none ticks h.runnable_none h.scheduled_none
      simp [runloopOnce, hsel]
    | cons d ls2 =>
      have hsel := selectJob_early h.runnable_none h.scheduled_head (hearly d rfl)
      simp [runloopOnce, hsel]
  · intro j hran hj
    cases lr with
    | cons r lr2 =>
      have hsel := selectJob_runnable ticks h.runnable_head
      have hjr : j = r := by
        simp [runloopOnce, hsel] at hran
        exact hran.symm
      exact absurd hj (h.disjoint j (hjr ▸ List.mem_cons_self _ _))
    | nil =>
      cases ls with
      | nil => cases hj
      | cons d ls2 =>
        by_cases hdue : (s.jobs d).deadline ≤ ticks
        · have hsel := selectJob_due h.runnable_none h.scheduled_head hdue
          have hjd : d = j := by simpa [runloopOnce, hsel] using hran
          subst hjd
          exact ⟨rfl, rfl, hdue⟩
        · have hsel := selectJob_early h.runnable_none h.scheduled_head
            (Nat.lt_of_not_le hdue)
          simp [runloopOnce, hsel] at hran

/-- Witness for C2: a runnable job pending next to a deadline job that is due. -/
theorem runloopOnce_selects_witness :
    Lists runnableAndScheduled [2] [1] ∧
      (runloopOnce (fun _ t => t) 9 9 runnableAndScheduled).ran = some 1 := by
  have hl : Lists runnableAndScheduled [2] [1] := by
    simp [Lists, IsList, runnableAndScheduled]
  exact ⟨hl, ((runloopOnce_selects (fun _ t => t) 9 9 runnableAndScheduled [2] [1] hl).1
    1 [] rfl).1⟩

/-! ## Each job is queued at most once -/

theorem runloopOnce_sched_idle (ticks ticks2 : OsTime) (s : OsScheduler) :
    (runloopOnce (fun _ t => t) ticks ticks2 s).sched = (selectJob ticks s).2 := by
  simp only [runloopOnce]
  split <;> rfl

theorem reachable_lists {s : OsScheduler} (h : Reachable s) : ∃ ls lr, Lists s ls lr := by
  induction h with
  | empty s hs hr => exact ⟨[], [], hs, hr, List.nodup_nil⟩
  | scheduleNow fuel job _ hrun ih =>
    obtain ⟨ls, lr, hl⟩ := ih
    exact ⟨_, _, (setRunnable_ok hl hrun).1⟩
  | scheduleAt fuel job time _ hrun ih =>
    obtain ⟨ls, lr, hl⟩ := ih
    exact ⟨_, _, (setTimed_ok hl hrun).1⟩
  | cancel fuel job _ hrun ih =>
    obtain ⟨ls, lr, hl⟩ := ih
    exact ⟨_, _, (clearCallback_ok hl hrun).1⟩
  | forbid _ ih =>
    obtain ⟨ls, lr, hl⟩ := ih
    exact ⟨ls, lr, hl⟩
  | allow _ ih =>
    obtain ⟨ls, lr, hl⟩ := ih
    exact ⟨ls, lr, hl⟩
  | runStep ticks ticks2 _ ih =>
    obtain ⟨ls, lr, hl⟩ := ih
    obtain ⟨ls2, lr2, hl2⟩ := selectJob_lists ticks hl
    refine ⟨ls2, lr2, ?_⟩
    rw [runloopOnce_sched_idle]
    exact hl2

/-- C3: in every scheduler state reached from the empty scheduler by calls of
setRunnable, setTimed, clearCallback and runloopOnce, the two head pointers head
null-terminated lists and no job occurs twice in the concatenation of the
runnable list and the deadline list. -/
theorem reachable_jobs_queued_once (s : OsScheduler) (h : Reachable s) :
    ∃ ls lr, IsList s.jobs s.scheduledjobs ls ∧ IsList s.jobs s.runnablejobs lr ∧
      (lr ++ ls).Nodup :=
  reachable_lists h

theorem afterTwoCalls_run :
    ((setRunnable 3 emptyScheduler 1).bind fun s1 => setTimed 3 s1 2 7) = .ok afterTwoCalls :=
  rfl

theorem afterTwoCalls_reachable : Reachable afterTwoCalls := by
  obtain ⟨s1, h1, h2⟩ := Exec.bind_eq_ok.mp afterTwoCalls_run
  exact Reachable.scheduleAt 3 2 7
    (Reachable.scheduleNow 3 1 (Reachable.empty emptyScheduler rfl rfl) h1) h2

/-- Witness for C3: the state reached by scheduling job 1 now and job 2 at
tick 7. -/
theorem reachable_jobs_queued_once_witness :
    Reachable afterTwoCalls ∧
      ∃ ls lr, IsList afterTwoCalls.jobs afterTwoCalls.scheduledjobs ls ∧
        IsList afterTwoCalls.jobs afterTwoCalls.runnablejobs lr ∧ (lr ++ ls).Nodup :=
  ⟨afterTwoCalls_reachable, reachable_jobs_queued_once afterTwoCalls afterTwoCalls_reachable⟩

/-! ## Cancelling a job -/

theorem unlinkjob_absent {s : OsScheduler} (pnext : Link) {l : List Nat} {fuel : Nat}
    (job : Nat) (hhead : ∀ k, pnext ≠ .next k) (hl : IsList s.jobs (s.load pnext) l)
    (hf : l.length < fuel) (hj : job ∉ l) : unlinkjob fuel s pnext job = .ok s := by
  rcases unlinkjob_spec job l fuel s pnext hl (fun k _ => hhead k) hf with h | h | h
  · exact h.2
  · exact absurd (List.mem_of_getLast?_eq_some h.1) hj
  · exact absurd h.1 hj

theorem allowSleep_of_allowed {s : OsScheduler} (h : s.is_sleep_allow = true) :
    allowSleep s = s := by
  cases s
  simp_all [allowSleep]

/-- When a clearCallback completes, the job is in neither list and every further
clearCallback of the job returns the same state. -/
theorem clearCallback_again {s s2 : OsScheduler} {ls lr : List Nat} {fuel job : Nat}
    (h : Lists s ls lr) (hrun : clearCallback fuel s job = .ok s2) :
    Lists s2 (ls.erase job) (lr.erase job) ∧ job ∉ ls.erase job ∧ job ∉ lr.erase job ∧
      ∀ fuel2, ls.length < fuel2 → lr.length < fuel2 →
        clearCallback fuel2 s2 job = .ok s2 := by
  obtain ⟨hl, _, hs, _, _⟩ := clearCallback_ok h hrun
  have hjs : job ∉ ls.erase job := h.nodup_scheduled.not_mem_erase
  have hjr : job ∉ lr.erase job := h.nodup_runnable.not_mem_erase
  refine ⟨hl, hjs, hjr, fun fuel2 hfs hfr => ?_⟩
  have h1 : unlinkjob fuel2 s2 .scheduledjobs job = .ok s2 :=
    unlinkjob_absent .scheduledjobs job (fun k => by simp) hl.1
      (lt_of_le_of_lt (List.erase_sublist _ _).length_le hfs) hjs
  have h2 : unlinkjob fuel2 s2 .runnablejobs job = .ok s2 :=
    unlinkjob_absent .runnablejobs job (fun k => by simp) hl.2.1
      (lt_of_le_of_lt (List.erase_sublist _ _).length_le hfr) hjr
  simp [clearCallback, unlinkScheduledJobs, unlinkRunableJobs, allowSleep_of_allowed hs, h1, h2,
    Exec.bind]

/-- C4, at the failing input: with job 1 alone in the runnable list,
clearCallback of job 1 unlinks it and then follows the next link of the null
pointer, so no state with the job in neither list is produced. -/
theorem clearCallback_only_runnable_faults :
    clearCallback 2 oneRunnable 1 = Exec.nullDeref := rfl

/-- C7, at the failing input: with job 1 alone in the deadline list and sleep
forbidden, clearCallback of job 1 follows the next link of the null pointer
after unlinking the job. -/
theorem clearCallback_only_scheduled_faults :
    clearCallback 2 oneScheduled 1 = Exec.nullDeref := rfl

/-- C6, at the failing input: with job 1 alone in the deadline list and the
runnable list empty, setRunnable of job 1 follows the next link of the null
pointer while removing the job from the deadline list, so the job is not
appended to the runnable list. -/
theorem setRunnable_only_scheduled_faults :
    setRunnable 2 oneScheduled 1 = Exec.nullDeref := rfl

/-! ## The idle duration -/

theorem tick_sub_pos_iff (a b : Nat) : (0 : Int) < (a : Int) - (b : Int) ↔ ¬ a ≤ b := by
  omega

theorem tick_sub_nonpos_iff (a b : Nat) : (a : Int) - (b : Int) ≤ 0 ↔ a ≤ b := by
  omega

/-- C5, counterexample: with two due jobs in the deadline list (deadlines 5 and
6, clock at 10) the step runs job 1; afterwards no runnable job is pending,
sleep is allowed and the head of the deadline list, job 2, is already due, yet
the returned duration is 6 - 10 = -4 and not zero. -/
theorem runloopOnce_wait_due_head_not_zero :
    (runloopOnce (fun _ t => t) 10 10 twoScheduled).ran = some 1 ∧
      (runloopOnce (fun _ t => t) 10 10 twoScheduled).sched.runnablejobs = none ∧
      (runloopOnce (fun _ t => t) 10 10 twoScheduled).sched.scheduledjobs = some 2 ∧
      hal_checkTimer 10
        ((runloopOnce (fun _ t => t) 10 10 twoScheduled).sched.jobs 2).deadline = true ∧
      (runloopOnce (fun _ t => t) 10 10 twoScheduled).wait = -4 ∧
      (runloopOnce (fun _ t => t) 10 10 twoScheduled).wait ≠ 0 := by
  decide

/-- C5, amended: the duration returned by runloopOnce is zero whenever, after
the step, a runnable job is pending, or sleep is forbidden, or the deadline list
is empty; in every other case it is the head deadline minus the current tick,
which is positive exactly when that head is not yet due and is zero or negative
when the head is already due. -/
theorem runloopOnce_idle_duration (call : Nat → OsScheduler → OsScheduler) (ticks ticks2 : OsTime)
    (s : OsScheduler) :
    ((runloopOnce call ticks ticks2 s).sched.runnablejobs ≠ none ∨
      (runloopOnce call ticks ticks2 s).sched.is_sleep_allow = false ∨
      (runloopOnce call ticks ticks2 s).sched.scheduledjobs = none →
        (runloopOnce call ticks ticks2 s).wait = 0) ∧
    (∀ d, (runloopOnce call ticks ticks2 s).sched.runnablejobs = none →
      (runloopOnce call ticks ticks2 s).sched.is_sleep_allow = true →
      (runloopOnce call ticks ticks2 s).sched.scheduledjobs = some d →
        (runloopOnce call ticks ticks2 s).wait
          = (((runloopOnce call ticks ticks2 s).sched.jobs d).deadline : Int) - (ticks2 : Int) ∧
        (0 < (runloopOnce call ticks ticks2 s).wait ↔
          hal_checkTimer ticks2
            ((runloopOnce call ticks ticks2 s).sched.jobs d).deadline = false) ∧
        ((runloopOnce call ticks ticks2 s).wait ≤ 0 ↔
          hal_checkTimer ticks2
            ((runloopOnce call ticks ticks2 s).sched.jobs d).deadline = true)) := by
  have hwait : (runloopOnce call ticks ticks2 s).wait
      = idleTime ticks2 (runloopOnce call ticks ticks2 s).sched := rfl
  rw [hwait]
  generalize (runloopOnce call ticks ticks2 s).sched = t
  refine ⟨?_, ?_⟩
  · intro h
    unfold idleTime
    split
    · rename_i hr hs
      rcases h with h1 | h1 | h1
      · exact absurd hr h1
      · simp [isSleepAllow, h1]
      · rw [h1] at hs; cases hs
    · rfl
  · intro d hr hsl hs
    have hval : idleTime ticks2 t = ((t.jobs d).deadline : Int) - (ticks2 : Int) := by
      simp [idleTime, hr, hs, isSleepAllow, hsl, OsTime.sub]
    rw [hval]
    refine ⟨rfl, ?_, ?_⟩
    · rw [hal_checkTimer, decide_eq_false_iff_not]
      exact tick_sub_pos_iff _ _
    · rw [hal_checkTimer, decide_eq_true_eq]
      exact tick_sub_nonpos_iff _ _

/-! ## Order of the runnable list -/

theorem setRunnableAll_ok (fuel : Nat) :
    ∀ (js : List Nat) (s s2 : OsScheduler) (ls lr : List Nat),
      Lists s ls lr → (lr ++ js).Nodup → setRunnableAll fuel s js = .ok s2 →
      Lists s2 (js.foldl (fun l j => l.erase j) ls) (lr ++ js)
  | [], s, s2, ls, lr, h, _, hrun => by
    simp only [setRunnableAll] at hrun
    cases hrun
    simpa using h
  | j :: rest, s, s2, ls, lr, h, hnd, hrun => by
    simp only [setRunnableAll] at hrun
    obtain ⟨s1, h1, h2⟩ := Exec.bind_eq_ok.mp hrun
    obtain ⟨hl1, _, _⟩ := setRunnable_ok h h1
    have hjr : j ∉ lr := by
      intro hj
      exact (List.disjoint_of_nodup_append hnd) hj (List.mem_cons_self _ _)
    rw [List.erase_of_not_mem hjr] at hl1
    have hnd2 : ((lr ++ [j]) ++ rest).Nodup := by simpa using hnd
    have := setRunnableAll_ok fuel rest s1 s2 _ _ hl1 hnd2 h2
    simpa using this

theorem runloopMany_runnable (call : Nat → OsScheduler → OsScheduler)
    (hcall : ∀ j t, call j t = t) :
    ∀ (ts : List (OsTime × OsTime)) (s : OsScheduler) (ls lr : List Nat),
      Lists s ls lr → ts.length ≤ lr.length →
      (runloopMany call ts s).1 = (lr.take ts.length).map some
  | [], _, _, _, _, _ => by simp [runloopMany]
  | t :: ts, s, ls, lr, h, hlen => by
    cases lr with
    | nil => simp at hlen
    | cons j lr2 =>
      have hsel := selectJob_runnable t.1 h.runnable_head
      have hran : (runloopOnce call t.1 t.2 s).ran = some j := by
        simp [runloopOnce, hsel]
      have hsched : (runloopOnce call t.1 t.2 s).sched
          = { s with runnablejobs := (s.jobs j).next } := by
        simp [runloopOnce, hsel, hcall]
      have hrec := runloopMany_runnable call hcall ts _ ls lr2 h.popRunnable
        (by simp at hlen; omega)
      simp only [runloopMany, hran, hsched, hrec]
      simp

/-- First in, first out: jobs scheduled with setRunnable on an empty runnable
list, once the calls have completed, are run by the following calls of
runloopOnce in the order in which they were scheduled. -/
theorem runnable_fifo (fuel : Nat) (call : Nat → OsScheduler → OsScheduler)
    (hcall : ∀ j t, call j t = t) (s s2 : OsScheduler) (ls js : List Nat)
    (ts : List (OsTime × OsTime)) (h : Lists s ls []) (hnd : js.Nodup)
    (hrun : setRunnableAll fuel s js = .ok s2) (hts : ts.length = js.length) :
    IsList s2.jobs s2.runnablejobs js ∧ (runloopMany call ts s2).1 = js.map some := by
  have hl2 := setRunnableAll_ok fuel js s s2 ls [] h (by simpa using hnd) hrun
  rw [List.nil_append] at hl2
  refine ⟨hl2.2.1, ?_⟩
  rw [runloopMany_runnable call hcall ts s2 _ js hl2 (le_of_eq hts), hts, List.take_length]

/-! ## US915: the channel map -/

namespace LmicUs915

theorem and_one_shiftLeft_ne_zero (w k : Nat) : ((w &&& (1 <<< k)) != 0) = w.testBit k := by
  rw [Nat.one_shiftLeft]
  cases h : w.testBit k with
  | true =>
    have hbit : (w &&& 2 ^ k).testBit k = true := by
      rw [Nat.testBit_and, h, Nat.testBit_two_pow_self]; rfl
    have hne : w &&& 2 ^ k ≠ 0 := by
      intro h0
      rw [h0, Nat.zero_testBit] at hbit
      cases hbit
    simpa using hne
  | false =>
    have h0 : w &&& 2 ^ k = 0 := by
      apply Nat.eq_of_testBit_eq
      intro i
      rw [Nat.testBit_and, Nat.zero_testBit, Nat.testBit_two_pow]
      by_cases hki : k = i
      · subst hki; simp [h]
      · simp [hki]
    simp [h0]

theorem channelEnabled_eq (s : LmicUs915) (c : Nat) :
    channelEnabled s c = (s.channelMap (c / 16)).testBit (c % 16) := by
  have h1 : c >>> 4 = c / 16 := by rw [Nat.shiftRight_eq_div_pow]
  have h2 : c &&& 0xF = c % 16 := Nat.and_pow_two_sub_one_eq_mod c 4
  unfold channelEnabled
  rw [and_one_shiftLeft_ne_zero, h1, h2]

theorem testBit_set (w k i : Nat) (hi : i < 16) :
    ((w ||| (1 <<< k)) % 65536).testBit i = (decide (k = i) || w.testBit i) := by
  have h16 : (65536 : Nat) = 2 ^ 16 := by norm_num
  rw [h16, Nat.testBit_mod_two_pow, Nat.testBit_or, Nat.one_shiftLeft, Nat.testBit_two_pow]
  simp [hi, Bool.or_comm]

theorem testBit_clear (w k i : Nat) (hi : i < 16) :
    ((w &&& (0xFFFF ^^^ (1 <<< k))) % 65536).testBit i = (!decide (k = i) && w.testBit i) := by
  have h16 : (65536 : Nat) = 2 ^ 16 := by norm_num
  have hff : (0xFFFF : Nat) = 2 ^ 16 - 1 := by norm_num
  rw [h16, Nat.testBit_mod_two_pow, Nat.testBit_and, Nat.testBit_xor, Nat.one_shiftLeft,
    Nat.testBit_two_pow, hff, Nat.testBit_two_pow_sub_one]
  by_cases hki : k = i <;> simp [hi, hki]

theorem channel_eq_iff (c ch : Nat) : (c / 16 = ch / 16 ∧ c % 16 = ch % 16) ↔ c = ch := by
  omega

theorem channelEnabled_enableChannel (MAX_XCHANNELS : Nat) (s : LmicUs915) (ch c : Nat)
    (hch : ch < 72 + MAX_XCHANNELS) :
    channelEnabled (enableChannel MAX_XCHANNELS s ch) c
      = (decide (c = ch) || channelEnabled s c) := by
  have h1 : ch >>> 4 = ch / 16 := by rw [Nat.shiftRight_eq_div_pow]
  have h2 : ch &&& 0xF = ch % 16 := Nat.and_pow_two_sub_one_eq_mod ch 4
  rw [channelEnabled_eq, channelEnabled_eq]
  simp only [enableChannel, if_pos hch, h1, h2]
  by_cases hw : c / 16 = ch / 16
  · rw [hw, Function.update_same, testBit_set _ _ _ (Nat.mod_lt _ (by norm_num))]
    by_cases hb : ch % 16 = c % 16
    · have : c = ch := (channel_eq_iff c ch).mp ⟨hw, hb.symm⟩
      simp [hb, this]
    · have : c ≠ ch := fun h => hb (by rw [h])
      simp [hb, this]
  · rw [Function.update_noteq hw]
    have : c ≠ ch := fun h => hw (by rw [h])
    simp [this]

theorem channelEnabled_disableChannel (MAX_XCHANNELS : Nat) (s : LmicUs915) (ch c : Nat)
    (hch : ch < 72 + MAX_XCHANNELS) :
    channelEnabled (disableChannel MAX_XCHANNELS s ch) c
      = (!decide (c = ch) && channelEnabled s c) := by
  have h1 : ch >>> 4 = ch / 16 := by rw [Nat.shiftRight_eq_div_pow]
  have h2 : ch &&& 0xF = ch % 16 := Nat.and_pow_two_sub_one_eq_mod ch 4
  rw [channelEnabled_eq, channelEnabled_eq]
  simp only [disableChannel, if_pos hch, h1, h2]
  by_cases hw : c / 16 = ch / 16
  · rw [hw, Function.update_same, testBit_clear _ _ _ (Nat.mod_lt _ (by norm_num))]
    by_cases hb : ch % 16 = c % 16
    · have : c = ch := (channel_eq_iff c ch).mp ⟨hw, hb.symm⟩
      simp [hb, this]
    · have : c ≠ ch := fun h => hb (by rw [h])
      simp [hb, this]
  · rw [Function.update_noteq hw]
    have : c ≠ ch := fun h => hw (by rw [h])
    simp [this]

theorem channelEnabled_enableAll (MAX_XCHANNELS : Nat) (c : Nat) :
    ∀ (chs : List Nat) (s : LmicUs915), (∀ ch ∈ chs, ch < 72 + MAX_XCHANNELS) →
      channelEnabled (chs.foldl (enableChannel MAX_XCHANNELS) s) c
        = (decide (c ∈ chs) || channelEnabled s c)
  | [], _, _ => by simp
  | ch :: chs, s, h => by
    rw [List.foldl_cons, channelEnabled_enableAll MAX_XCHANNELS c chs _
      (fun x hx => h x (List.mem_cons_of_mem _ hx)),
      channelEnabled_enableChannel MAX_XCHANNELS s ch c (h ch (List.mem_cons_self _ _))]
    by_cases h1 : c = ch <;> by_cases h2 : c ∈ chs <;> simp [h1, h2]

theorem channelEnabled_disableAll (MAX_XCHANNELS : Nat) (c : Nat) :
    ∀ (chs : List Nat) (s : LmicUs915), (∀ ch ∈ chs, ch < 72 + MAX_XCHANNELS) →
      channelEnabled (chs.foldl (disableChannel MAX_XCHANNELS) s) c
        = (!decide (c ∈ chs) && channelEnabled s c)
  | [], _, _ => by simp
  | ch :: chs, s, h => by
    rw [List.foldl_cons, channelEnabled_disableAll MAX_XCHANNELS c chs _
      (fun x hx => h x (List.mem_cons_of_mem _ hx)),
      channelEnabled_disableChannel MAX_XCHANNELS s ch c (h ch (List.mem_cons_self _ _))]
    by_cases h1 : c = ch <;> by_cases h2 : c ∈ chs <;> simp [h1, h2]

theorem enableSubBand_spec (MAX_XCHANNELS : Nat) (s : LmicUs915) (b : Nat) (hb : b < 8) :
    ∃ s2, enableSubBand MAX_XCHANNELS s b = some s2 ∧
      ∀ c, channelEnabled s2 c = (decide (8 * b ≤ c ∧ c < 8 * b + 8) || channelEnabled s c) := by
  have hstart : (b * 8) % 256 = 8 * b := by omega
  have hstop : (8 * b + 8) % 256 - 8 * b = 8 := by omega
  refine ⟨_, by simp only [enableSubBand, if_pos hb]; rfl, fun c => ?_⟩
  simp only [hstart, hstop]
  rw [channelEnabled_enableAll MAX_XCHANNELS c _ s
    (fun ch hch => by have := List.mem_range'_1.mp hch; omega)]
  simp [List.mem_range'_1]

theorem disableSubBand_spec (MAX_XCHANNELS : Nat) (s : LmicUs915) (b : Nat) (hb : b < 8) :
    ∃ s2, disableSubBand MAX_XCHANNELS s b = some s2 ∧
      ∀ c, channelEnabled s2 c
        = (!decide (8 * b ≤ c ∧ c < 8 * b + 8) && channelEnabled s c) := by
  have hstart : (b * 8) % 256 = 8 * b := by omega
  have hstop : (8 * b + 8) % 256 - 8 * b = 8 := by omega
  refine ⟨_, by simp only [disableSubBand, if_pos hb]; rfl, fun c => ?_⟩
  simp only [hstart, hstop]
  rw [channelEnabled_disableAll MAX_XCHANNELS c _ s
    (fun ch hch => by have := List.mem_range'_1.mp hch; omega)]
  simp [List.mem_range'_1]

theorem selectSubBandLoop_spec (MAX_XCHANNELS band : Nat) (s : LmicUs915) :
    ∀ m, m ≤ 8 → ∃ s2, selectSubBandLoop MAX_XCHANNELS band m s = some s2 ∧
      ∀ c, channelEnabled s2 c
        = if c < 8 * m then decide (8 * band ≤ c ∧ c < 8 * band + 8) else channelEnabled s c
  | 0, _ => ⟨s, rfl, fun c => by simp⟩
  | m + 1, hm => by
    obtain ⟨s1, h1, hc1⟩ := selectSubBandLoop_spec MAX_XCHANNELS band s m (by omega)
    by_cases hbm : band = m
    · obtain ⟨s2, h2, hc2⟩ := enableSubBand_spec MAX_XCHANNELS s1 m (by omega)
      rw [hbm] at h1 hc1 ⊢
      refine ⟨s2, by simp [selectSubBandLoop, h1, h2], fun c => ?_⟩
      rw [hc2, hc1]
      by_cases ha : c < 8 * m
      · have hb : c < 8 * (m + 1) := by omega
        have hr : ¬ (8 * m ≤ c ∧ c < 8 * m + 8) := by omega
        simp [ha, hb, hr]
      · by_cases hb : c < 8 * (m + 1)
        · have hr : 8 * m ≤ c ∧ c < 8 * m + 8 := by omega
          simp [hb, hr]
        · have hr : ¬ (8 * m ≤ c ∧ c < 8 * m + 8) := by omega
          simp [ha, hb, hr]
    · obtain ⟨s2, h2, hc2⟩ := disableSubBand_spec MAX_XCHANNELS s1 m (by omega)
      refine ⟨s2, by simp [selectSubBandLoop, h1, hbm, h2], fun c => ?_⟩
      rw [hc2, hc1]
      by_cases ha : c < 8 * m
      · have hb : c < 8 * (m + 1) := by omega
        have hr : ¬ (8 * m ≤ c ∧ c < 8 * m + 8) := by omega
        simp [ha, hb, hr]
      · by_cases hb : c < 8 * (m + 1)
        · have hr : 8 * m ≤ c ∧ c < 8 * m + 8 := by omega
          have hn : ¬ (8 * band ≤ c ∧ c < 8 * band + 8) := by omega
          simp [hb, hr, hn]
        · have hr : ¬ (8 * m ≤ c ∧ c < 8 * m + 8) := by omega
          simp [ha, hb, hr]

end LmicUs915

/-- C8, counterexample: after initDefaultChannels, selectSubBand 3 leaves the
channels 24..31 enabled and also the wideband channels 64..71, which it does not
touch; the enumeration of all channel indices does not find exactly 24..31. -/
theorem selectSubBand_keeps_wideband :
    ((LmicUs915.selectSubBand 2 (LmicUs915.initDefaultChannels LmicUs915.blank) 3).map
        fun t => (List.range 74).filter (LmicUs915.channelEnabled t))
      = some [24, 25, 26, 27, 28, 29, 30, 31, 64, 65, 66, 67, 68, 69, 70, 71] := by
  decide

/-- C8, amended: for every sub-band n < 8 and every prior channel map,
selectSubBand n completes, afterwards a narrowband channel c in 0..63 is enabled
if and only if 8n <= c < 8n+8, and every channel index from 64 on (wideband
64..71 and custom channels) has the enable state it had before. -/
theorem selectSubBand_narrowband (MAX_XCHANNELS : Nat) (s : LmicUs915) (n : Nat)
    (hn : n < 8) :
    ∃ s2, LmicUs915.selectSubBand MAX_XCHANNELS s n = some s2 ∧
      (∀ c, c < 64 → (LmicUs915.channelEnabled s2 c = true ↔ 8 * n ≤ c ∧ c < 8 * n + 8)) ∧
      (∀ c, 64 ≤ c → LmicUs915.channelEnabled s2 c = LmicUs915.channelEnabled s c) := by
  obtain ⟨s2, h2, hc⟩ := LmicUs915.selectSubBandLoop_spec MAX_XCHANNELS n s 8 (le_refl 8)
  refine ⟨s2, by simp [LmicUs915.selectSubBand, hn, h2], fun c hc64 => ?_, fun c hc64 => ?_⟩
  · rw [hc c, if_pos (by omega)]
    simp
  · rw [hc c, if_neg (by omega)]

/-- Witness for C8, amended: sub-band 3 selected on the default channel map. -/
theorem selectSubBand_narrowband_witness :
    3 < 8 ∧ ∃ s2, LmicUs915.selectSubBand 2
        (LmicUs915.initDefaultChannels LmicUs915.blank) 3 = some s2 ∧
      (∀ c, c < 64 → (LmicUs915.channelEnabled s2 c = true ↔ 8 * 3 ≤ c ∧ c < 8 * 3 + 8)) ∧
      (∀ c, 64 ≤ c → LmicUs915.channelEnabled s2 c
        = LmicUs915.channelEnabled (LmicUs915.initDefaultChannels LmicUs915.blank) c) :=
  ⟨by decide, selectSubBand_narrowband 2 (LmicUs915.initDefaultChannels LmicUs915.blank) 3
    (by decide)⟩

/-! ## setupChannel -/

/-- C9: setupChannel returns false exactly when the index is outside the valid
range of the region (EU868: at or above MAX_CHANNELS; US915: below 72 or at or
above 72 + MAX_XCHANNELS) and true otherwise, and when it returns false the
state is the one it was called on. -/
theorem setupChannel_rejects_exactly_out_of_range {Channels : Type}
    (ops : ChannelListOps Channels) (MAX_CHANNELS MAX_XCHANNELS : Nat)
    (dr_range_map : Nat → Nat → Nat) (e : LmicEu868 Channels) (u : LmicUs915)
    (chidx newfreq drmap : Nat) :
    ((LmicEu868.setupChannel ops MAX_CHANNELS dr_range_map e chidx newfreq drmap).1 = false
        ↔ chidx ≥ MAX_CHANNELS) ∧
      ((LmicEu868.setupChannel ops MAX_CHANNELS dr_range_map e chidx newfreq drmap).1 = true
        ↔ chidx < MAX_CHANNELS) ∧
      ((LmicEu868.setupChannel ops MAX_CHANNELS dr_range_map e chidx newfreq drmap).1 = false →
        (LmicEu868.setupChannel ops MAX_CHANNELS dr_range_map e chidx newfreq drmap).2 = e) ∧
      ((LmicUs915.setupChannel MAX_XCHANNELS dr_range_map u chidx newfreq drmap).1 = false
        ↔ (chidx < 72 ∨ chidx ≥ 72 + MAX_XCHANNELS)) ∧
      ((LmicUs915.setupChannel MAX_XCHANNELS dr_range_map u chidx newfreq drmap).1 = true
        ↔ (72 ≤ chidx ∧ chidx < 72 + MAX_XCHANNELS)) ∧
      ((LmicUs915.setupChannel MAX_XCHANNELS dr_range_map u chidx newfreq drmap).1 = false →
        (LmicUs915.setupChannel MAX_XCHANNELS dr_range_map u chidx newfreq drmap).2 = u) := by
  refine ⟨?_, ?_, ?_, ?_, ?_, ?_⟩
  · unfold LmicEu868.setupChannel
    split <;> simp_all
  · unfold LmicEu868.setupChannel
    split
    · simp; omega
    · simp; omega
  · unfold LmicEu868.setupChannel
    split <;> simp_all
  · unfold LmicUs915.setupChannel
    split <;> simp_all
  · unfold LmicUs915.setupChannel
    split
    · simp; omega
    · simp; omega
  · unfold LmicUs915.setupChannel
    split <;> simp_all

/-- What setupChannel does to the channel map for a custom index i: it sets the
bit of channel i - 72, leaves the bit of channel i as it was, and stores the
frequency in the slot read back when i is the transmit channel. -/
theorem LmicUs915.setupChannel_bit (MAX_XCHANNELS : Nat) (dr_range_map : Nat → Nat → Nat)
    (s : LmicUs915) (i newfreq drmap : Nat) (h1 : 72 ≤ i) (h2 : i < 72 + MAX_XCHANNELS) :
    LmicUs915.channelEnabled
        (LmicUs915.setupChannel MAX_XCHANNELS dr_range_map s i newfreq drmap).2 (i - 72) = true ∧
      LmicUs915.channelEnabled
        (LmicUs915.setupChannel MAX_XCHANNELS dr_range_map s i newfreq drmap).2 i
          = LmicUs915.channelEnabled s i ∧
      (LmicUs915.setupChannel MAX_XCHANNELS dr_range_map s i newfreq drmap).2.xchFreq (i - 72)
          = newfreq ∧
      LmicUs915.getTxFrequency MAX_XCHANNELS
        { (LmicUs915.setupChannel MAX_XCHANNELS dr_range_map s i newfreq drmap).2 with
          txChnl := i } = some newfreq := by
  have hr : ¬ (i < 72 ∨ i ≥ 72 + MAX_XCHANNELS) := by omega
  have hs1 : (i - 72) >>> 4 = (i - 72) / 16 := by rw [Nat.shiftRight_eq_div_pow]
  have hs2 : (i - 72) &&& 0xF = (i - 72) % 16 := Nat.and_pow_two_sub_one_eq_mod (i - 72) 4
  have hg1 : ¬ i < 64 := by omega
  have hg2 : ¬ i < 64 + 8 := by omega
  have hg3 : i < 64 + 8 + MAX_XCHANNELS := by omega
  simp only [LmicUs915.setupChannel, if_neg hr, LmicUs915.channelEnabled_eq, hs1, hs2,
    LmicUs915.getTxFrequency, if_neg hg1, if_neg hg2, if_pos hg3]
  refine ⟨?_, ?_, by simp, by simp⟩
  · rw [Function.update_same, LmicUs915.testBit_set _ _ _ (Nat.mod_lt _ (by norm_num))]
    simp
  · by_cases hw : i / 16 = (i - 72) / 16
    · rw [hw, Function.update_same, LmicUs915.testBit_set _ _ _ (Nat.mod_lt _ (by norm_num))]
      have hb : ¬ ((i - 72) % 16 = i % 16) := by omega
      simp [hb]
    · rw [Function.update_noteq hw]

/-- C10, at the failing input: on a channel map with every channel disabled (and
two custom channels), setupChannel 72 returns true and stores the frequency for
channel 72, but the bit it sets is that of the hardwired channel 0; channel 72
itself stays disabled. -/
theorem setupChannel_enables_hardwired_channel :
    (LmicUs915.setupChannel 2 (fun _ _ => 0) LmicUs915.blank 72 915000000 0).1 = true ∧
      LmicUs915.getTxFrequency 2
        { (LmicUs915.setupChannel 2 (fun _ _ => 0) LmicUs915.blank 72 915000000 0).2 with
          txChnl := 72 } = some 915000000 ∧
      LmicUs915.channelEnabled
        (LmicUs915.setupChannel 2 (fun _ _ => 0) LmicUs915.blank 72 915000000 0).2 72 = false ∧
      LmicUs915.channelEnabled LmicUs915.blank 0 = false ∧
      LmicUs915.channelEnabled
        (LmicUs915.setupChannel 2 (fun _ _ => 0) LmicUs915.blank 72 915000000 0).2 0 = true := by
  decide

/-! ## mapChannels -/

theorem testBit_allOnes16 (i : Nat) (hi : i < 16) : (0xFFFF : Nat).testBit i = true := by
  have hff : (0xFFFF : Nat) = 2 ^ 16 - 1 := by norm_num
  rw [hff, Nat.testBit_two_pow_sub_one]
  simpa using hi

/-- C13: US915 mapChannels, for every prior channel map.  With control code 6
(resp. 7) all narrowband channels 0..63 are enabled (resp. disabled) afterwards
and wideband channel 64+k is enabled iff bit k of the mask is set; with a
control code below 5 the channels of the 16-channel group of that number are
enabled exactly according to the mask and the other groups are unchanged; for
every other control code, which are exactly those validMapChannels rejects, the
state is unchanged. -/
theorem us915_mapChannels_effect (s : LmicUs915) (cntl mask : Nat) :
    (cntl = 6 →
      (∀ c, c < 64 → LmicUs915.channelEnabled (LmicUs915.mapChannels s cntl mask) c = true) ∧
      (∀ k, k < 8 → LmicUs915.channelEnabled (LmicUs915.mapChannels s cntl mask) (64 + k)
        = mask.testBit k)) ∧
    (cntl = 7 →
      (∀ c, c < 64 → LmicUs915.channelEnabled (LmicUs915.mapChannels s cntl mask) c = false) ∧
      (∀ k, k < 8 → LmicUs915.channelEnabled (LmicUs915.mapChannels s cntl mask) (64 + k)
        = mask.testBit k)) ∧
    (cntl < 5 →
      (∀ k, k < 16 → LmicUs915.channelEnabled (LmicUs915.mapChannels s cntl mask)
        (16 * cntl + k) = mask.testBit k) ∧
      (∀ c, c / 16 ≠ cntl → LmicUs915.channelEnabled (LmicUs915.mapChannels s cntl mask) c
        = LmicUs915.channelEnabled s c)) ∧
    ((cntl = 5 ∨ 8 ≤ cntl) → LmicUs915.mapChannels s cntl mask = s) ∧
    (LmicUs915.validMapChannels cntl mask = false ↔ (cntl = 5 ∨ 8 ≤ cntl)) := by
  refine ⟨?_, ?_, ?_, ?_, ?_⟩
  · intro h
    subst h
    refine ⟨fun c hc => ?_, fun k hk => ?_⟩
    · have h4 : c / 16 < 4 := by omega
      rw [LmicUs915.channelEnabled_eq]
      have hbit := testBit_allOnes16 (c % 16) (Nat.mod_lt _ (by norm_num))
      simpa [LmicUs915.mapChannels, h4] using hbit
    · have h4 : (64 + k) / 16 = 4 := by omega
      have hk16 : (64 + k) % 16 = k := by omega
      rw [LmicUs915.channelEnabled_eq, h4, hk16]
      simp [LmicUs915.mapChannels]
  · intro h
    subst h
    refine ⟨fun c hc => ?_, fun k hk => ?_⟩
    · have h4 : c / 16 < 4 := by omega
      rw [LmicUs915.channelEnabled_eq]
      simp [LmicUs915.mapChannels, h4]
    · have h4 : (64 + k) / 16 = 4 := by omega
      have hk16 : (64 + k) % 16 = k := by omega
      rw [LmicUs915.channelEnabled_eq, h4, hk16]
      simp [LmicUs915.mapChannels]
  · intro h
    have h67 : ¬ (cntl = 6 ∨ cntl = 7) := by omega
    refine ⟨fun k hk => ?_, fun c hc => ?_⟩
    · have h1 : (16 * cntl + k) / 16 = cntl := by omega
      have h2 : (16 * cntl + k) % 16 = k := by omega
      rw [LmicUs915.channelEnabled_eq, h1, h2]
      simp [LmicUs915.mapChannels, h67, h]
    · rw [LmicUs915.channelEnabled_eq, LmicUs915.channelEnabled_eq]
      simp [LmicUs915.mapChannels, h67, h, Function.update_noteq hc]
  · intro h
    have h67 : ¬ (cntl = 6 ∨ cntl = 7) := by omega
    have h5 : ¬ cntl < 5 := by omega
    simp [LmicUs915.mapChannels, h67, h5]
  · unfold LmicUs915.validMapChannels
    split
    · simp; omega
    · split
      · simp; omega
      · simp; omega

/-! ## EU868: the channel mask command -/

theorem channelList_enable_same (MAX_CHANNELS : Nat) (c : Nat → ChannelDetail) (k : Nat) :
    (channelList MAX_CHANNELS).enable c k k = { c k with enabled := true } := by
  simp [channelList]

theorem channelList_enable_other (MAX_CHANNELS : Nat) (c : Nat → ChannelDetail) {j k : Nat}
    (h : j ≠ k) : (channelList MAX_CHANNELS).enable c k j = c j := by
  simp [channelList, Function.update_noteq h]

theorem channelList_disable_same (MAX_CHANNELS : Nat) (c : Nat → ChannelDetail) (k : Nat) :
    (channelList MAX_CHANNELS).disable c k k = { c k with enabled := false } := by
  simp [channelList]

theorem channelList_disable_other (MAX_CHANNELS : Nat) (c : Nat → ChannelDetail) {j k : Nat}
    (h : j ≠ k) : (channelList MAX_CHANNELS).disable c k j = c j := by
  simp [channelList, Function.update_noteq h]

theorem eu868_mapChannelsLoop_entry (MAX_CHANNELS mask : Nat) (c : Nat → ChannelDetail) :
    ∀ (n k : Nat),
      (LmicEu868.mapChannelsLoop (channelList MAX_CHANNELS) mask n c k).enabled
        = (if k < n then mask.testBit k else (c k).enabled) ∧
      (LmicEu868.mapChannelsLoop (channelList MAX_CHANNELS) mask n c k).frequency
        = (c k).frequency ∧
      (LmicEu868.mapChannelsLoop (channelList MAX_CHANNELS) mask n c k).drMap = (c k).drMap ∧
      (LmicEu868.mapChannelsLoop (channelList MAX_CHANNELS) mask n c k).availability
        = (c k).availability
  | 0, k => by simp [LmicEu868.mapChannelsLoop]
  | n + 1, k => by
    obtain ⟨h1, h2, h3, h4⟩ := eu868_mapChannelsLoop_entry MAX_CHANNELS mask c n k
    have hbit : ((mask &&& (1 <<< n)) ≠ 0) ↔ mask.testBit n = true := by
      rw [← LmicUs915.and_one_shiftLeft_ne_zero]
      simp
    simp only [LmicEu868.mapChannelsLoop]
    by_cases hkn : k = n
    · subst hkn
      by_cases hb : mask.testBit k = true
      · rw [if_pos (hbit.mpr hb), channelList_enable_same]
        simp [h2, h3, h4, hb]
      · rw [if_neg (fun h => hb (hbit.mp h)), channelList_disable_same]
        simp [h2, h3, h4, hb]
    · have hite : (if k < n + 1 then mask.testBit k else (c k).enabled)
          = (if k < n then mask.testBit k else (c k).enabled) := by
        by_cases hk : k < n
        · rw [if_pos hk, if_pos (by omega)]
        · rw [if_neg hk, if_neg (by omega)]
      by_cases hb : mask.testBit n = true
      · rw [if_pos (hbit.mpr hb), channelList_enable_other _ _ hkn, hite]
        exact ⟨h1, h2, h3, h4⟩
      · rw [if_neg (fun h => hb (hbit.mp h)), channelList_disable_other _ _ hkn, hite]
        exact ⟨h1, h2, h3, h4⟩

theorem eu868_validMapChannels_iff (cntl mask : Nat) :
    LmicEu868.validMapChannels cntl mask = true ↔ (cntl = 6 ∨ (cntl = 0 ∧ mask ≠ 0)) := by
  unfold LmicEu868.validMapChannels
  split
  · simp; omega
  · split
    · simp; omega
    · simp; omega

/-- C11, counterexample: the pair (0, 0) is rejected by validMapChannels, yet
mapChannels applied with it to a table whose channels are all enabled disables
channel 0 (and every other channel below MAX_CHANNELS). -/
theorem eu868_mapChannels_rejected_pair_disables :
    LmicEu868.validMapChannels 0 0 = false ∧
      (LmicEu868.example16.channels 0).enabled = true ∧
      ((LmicEu868.mapChannels (channelList 16) 16 LmicEu868.example16 0 0).channels 0).enabled
        = false ∧
      (List.range 16).all (fun k =>
        !((LmicEu868.mapChannels (channelList 16) 16 LmicEu868.example16 0 0).channels k).enabled)
        = true := by
  decide

/-- C11, amended: mapChannels does not consult the validity check.  For every
(control field, mask) pair that validMapChannels rejects, mapChannels applied
with that pair sets the enabled flag of every channel c below MAX_CHANNELS to
bit c of the mask and leaves the channels from MAX_CHANNELS on, and every
frequency, data-rate mask and availability, as they were. -/
theorem eu868_mapChannels_rejected_pair (MAX_CHANNELS : Nat)
    (s : LmicEu868 (Nat → ChannelDetail)) (cntl mask : Nat)
    (h : LmicEu868.validMapChannels cntl mask = false) :
    (∀ c, c < MAX_CHANNELS →
      ((LmicEu868.mapChannels (channelList MAX_CHANNELS) MAX_CHANNELS s cntl mask).channels
        c).enabled = mask.testBit c) ∧
    (∀ c, MAX_CHANNELS ≤ c →
      ((LmicEu868.mapChannels (channelList MAX_CHANNELS) MAX_CHANNELS s cntl mask).channels
        c).enabled = (s.channels c).enabled) ∧
    (∀ c,
      ((LmicEu868.mapChannels (channelList MAX_CHANNELS) MAX_CHANNELS s cntl mask).channels
        c).frequency = (s.channels c).frequency ∧
      ((LmicEu868.mapChannels (channelList MAX_CHANNELS) MAX_CHANNELS s cntl mask).channels
        c).drMap = (s.channels c).drMap ∧
      ((LmicEu868.mapChannels (channelList MAX_CHANNELS) MAX_CHANNELS s cntl mask).channels
        c).availability = (s.channels c).availability) := by
  have h6 : cntl ≠ 6 := by
    intro h6
    have := (eu868_validMapChannels_iff cntl mask).mpr (Or.inl h6)
    rw [h] at this
    cases this
  have hmap : (LmicEu868.mapChannels (channelList MAX_CHANNELS) MAX_CHANNELS s cntl mask).channels
      = LmicEu868.mapChannelsLoop (channelList MAX_CHANNELS) mask MAX_CHANNELS s.channels := by
    simp [LmicEu868.mapChannels, h6]
  rw [hmap]
  refine ⟨fun c hc => ?_, fun c hc => ?_, fun c => ?_⟩
  · rw [(eu868_mapChannelsLoop_entry MAX_CHANNELS mask s.channels MAX_CHANNELS c).1, if_pos hc]
  · rw [(eu868_mapChannelsLoop_entry MAX_CHANNELS mask s.channels MAX_CHANNELS c).1,
      if_neg (by omega)]
  · exact (eu868_mapChannelsLoop_entry MAX_CHANNELS mask s.channels MAX_CHANNELS c).2

/-- Witness for C11, amended: the rejected pair (0, 0) on sixteen enabled
channels. -/
theorem eu868_mapChannels_rejected_pair_witness :
    LmicEu868.validMapChannels 0 0 = false ∧
      ∀ c, c < 16 →
        ((LmicEu868.mapChannels (channelList 16) 16 LmicEu868.example16 0 0).channels
          c).enabled = Nat.testBit 0 c :=
  ⟨by decide, (eu868_mapChannels_rejected_pair 16 LmicEu868.example16 0 0 (by decide)).1⟩

theorem exists_bit_below_16 (mask : Nat) (h0 : mask ≠ 0) (h16 : mask < 65536) :
    ∃ k, k < 16 ∧ mask.testBit k = true := by
  obtain ⟨i, hi⟩ := Nat.ne_zero_implies_bit_true h0
  refine ⟨i, ?_, hi⟩
  by_contra hge
  have hpow : mask < 2 ^ i :=
    lt_of_lt_of_le h16 (by
      have : (65536 : Nat) = 2 ^ 16 := by norm_num
      rw [this]
      exact Nat.pow_le_pow_right (by norm_num) (by omega))
  rw [Nat.testBit_lt_two_pow hpow] at hi
  cases hi

/-- C12: validMapChannels accepts a pair exactly when the control code is 6, or
the control code is 0 and the mask is not zero.  Consequently, when the channel
table holds the sixteen channels a 16-bit mask addresses, mapChannels applied
with an accepted pair asks for a channel below MAX_CHANNELS to be enabled (the
loop test succeeds for it, or all channels are enabled by control code 6), and
on the modelled channel list some channel below MAX_CHANNELS is enabled
afterwards. -/
theorem eu868_validMapChannels_accepts (MAX_CHANNELS cntl mask : Nat) :
    (LmicEu868.validMapChannels cntl mask = true ↔ (cntl = 6 ∨ (cntl = 0 ∧ mask ≠ 0))) ∧
    (16 ≤ MAX_CHANNELS → mask < 65536 → LmicEu868.validMapChannels cntl mask = true →
      (cntl = 6 ∨ ∃ chnl, chnl < MAX_CHANNELS ∧ (mask &&& (1 <<< chnl)) ≠ 0) ∧
      ∀ s : LmicEu868 (Nat → ChannelDetail), ∃ chnl, chnl < MAX_CHANNELS ∧
        ((LmicEu868.mapChannels (channelList MAX_CHANNELS) MAX_CHANNELS s cntl mask).channels
          chnl).enabled = true) := by
  refine ⟨eu868_validMapChannels_iff cntl mask, fun hmax hmask hvalid => ?_⟩
  rcases (eu868_validMapChannels_iff cntl mask).mp hvalid with h6 | ⟨h0, hm⟩
  · refine ⟨Or.inl h6, fun s => ⟨0, by omega, ?_⟩⟩
    have hpos : 0 < MAX_CHANNELS := by omega
    simp [LmicEu868.mapChannels, h6, channelList, hpos]
  · obtain ⟨k, hk, hbit⟩ := exists_bit_below_16 mask hm hmask
    have hne : (mask &&& (1 <<< k)) ≠ 0 := by
      have := LmicUs915.and_one_shiftLeft_ne_zero mask k
      rw [hbit] at this
      simpa using this
    refine ⟨Or.inr ⟨k, by omega, hne⟩, fun s => ⟨k, by omega, ?_⟩⟩
    have h6 : cntl ≠ 6 := by omega
    have hmap : (LmicEu868.mapChannels (channelList MAX_CHANNELS) MAX_CHANNELS s cntl mask).channels
        = LmicEu868.mapChannelsLoop (channelList MAX_CHANNELS) mask MAX_CHANNELS s.channels := by
      simp [LmicEu868.mapChannels, h6]
    rw [hmap, (eu868_mapChannelsLoop_entry MAX_CHANNELS mask s.channels MAX_CHANNELS k).1,
      if_pos (by omega), hbit]

/-- A table of fewer than sixteen channels: an accepted mask whose only set bit
is at or above MAX_CHANNELS leaves every channel of the table disabled. -/
theorem eu868_mapChannels_small_table (MAX_CHANNELS : Nat) (hmax : MAX_CHANNELS < 16)
    (s : LmicEu868 (Nat → ChannelDetail)) :
    2 ^ MAX_CHANNELS < 65536 ∧ LmicEu868.validMapChannels 0 (2 ^ MAX_CHANNELS) = true ∧
      ∀ c, c < MAX_CHANNELS →
        ((LmicEu868.mapChannels (channelList MAX_CHANNELS) MAX_CHANNELS s 0
          (2 ^ MAX_CHANNELS)).channels c).enabled = false := by
  have hpow : 2 ^ MAX_CHANNELS < 65536 := by
    have h16 : (65536 : Nat) = 2 ^ 16 := by norm_num
    rw [h16]
    exact Nat.pow_lt_pow_right (by norm_num) hmax
  refine ⟨hpow, (eu868_validMapChannels_iff 0 _).mpr (Or.inr ⟨rfl, by positivity⟩),
    fun c hc => ?_⟩
  have hmap : (LmicEu868.mapChannels (channelList MAX_CHANNELS) MAX_CHANNELS s 0
      (2 ^ MAX_CHANNELS)).channels
      = LmicEu868.mapChannelsLoop (channelList MAX_CHANNELS) (2 ^ MAX_CHANNELS) MAX_CHANNELS
          s.channels := by
    simp [LmicEu868.mapChannels]
  rw [hmap, (eu868_mapChannelsLoop_entry MAX_CHANNELS _ s.channels MAX_CHANNELS c).1, if_pos hc,
    Nat.testBit_two_pow]
  simp
  omega
/-! ## EU868: nextTx -/

theorem nextTxLoop_eq_pick {Channels : Type} (ops : ChannelListOps Channels)
    (MAX_CHANNELS : Nat) (now : OsTime) (channels : Channels) (datarate : Nat) :
    ∀ (count nextChannel : Nat) (found : Bool) (t : OsTime) (tx : Nat) (ex : List Nat),
      LmicEu868.nextTxLoop ops MAX_CHANNELS now channels datarate count nextChannel found t tx ex
        = LmicEu868.nextTxPick ops now channels datarate
            (LmicEu868.scanFrom MAX_CHANNELS nextChannel count) found t tx ex
  | 0, _, _, _, _, _ => rfl
  | count + 1, nextChannel, found, t, tx, ex => by
    have ih := nextTxLoop_eq_pick ops MAX_CHANNELS now channels datarate count
    simp only [LmicEu868.nextTxLoop, LmicEu868.scanFrom, LmicEu868.nextTxPick, ih]

theorem scanFrom_reset (MAX_CHANNELS : Nat) (c n : Nat) :
    LmicEu868.scanFrom MAX_CHANNELS c n
      = LmicEu868.scanFrom MAX_CHANNELS (if c ≥ MAX_CHANNELS then 0 else c) n := by
  cases n with
  | zero => rfl
  | succ n =>
    simp only [LmicEu868.scanFrom]
    by_cases h : c ≥ MAX_CHANNELS
    · by_cases h0 : 0 ≥ MAX_CHANNELS <;> simp [h, h0]
    · simp [h]

theorem scanFrom_run (MAX_CHANNELS : Nat) (hmax : MAX_CHANNELS ≤ 255) :
    ∀ (n c m : Nat), c + n ≤ MAX_CHANNELS →
      LmicEu868.scanFrom MAX_CHANNELS c (n + m)
        = List.range' c n ++ LmicEu868.scanFrom MAX_CHANNELS (c + n) m
  | 0, c, m, _ => by simp
  | n + 1, c, m, h => by
    have hc : ¬ c ≥ MAX_CHANNELS := by omega
    have hmod : (c + 1) % 256 = c + 1 := Nat.mod_eq_of_lt (by omega)
    have hnm : n + 1 + m = (n + m) + 1 := by omega
    rw [hnm]
    simp only [LmicEu868.scanFrom, if_neg hc, hmod]
    rw [scanFrom_run MAX_CHANNELS hmax n (c + 1) m (by omega), List.range'_succ]
    have hcn : c + 1 + n = c + (n + 1) := by omega
    rw [hcn]
    rfl

/-- The full scan: from any starting value the MAX_CHANNELS rounds examine the
indices from the start up to MAX_CHANNELS - 1 and then those below the start. -/
theorem scanFrom_full (MAX_CHANNELS : Nat) (hmax : MAX_CHANNELS ≤ 255) (c : Nat) :
    ∃ st, st ≤ MAX_CHANNELS ∧
      LmicEu868.scanFrom MAX_CHANNELS c MAX_CHANNELS
        = List.range' st (MAX_CHANNELS - st) ++ List.range' 0 st := by
  by_cases h0 : MAX_CHANNELS = 0
  · subst h0
    exact ⟨0, le_refl 0, rfl⟩
  · refine ⟨if c ≥ MAX_CHANNELS then 0 else c, ?_, ?_⟩
    · split <;> omega
    · rw [scanFrom_reset]
      generalize hst : (if c ≥ MAX_CHANNELS then 0 else c) = st
      have hlt : st < MAX_CHANNELS := by
        rw [← hst]
        split <;> omega
      have h1 := scanFrom_run MAX_CHANNELS hmax (MAX_CHANNELS - st) st st (by omega)
      have hsum : MAX_CHANNELS - st + st = MAX_CHANNELS := by omega
      have hsum2 : st + (MAX_CHANNELS - st) = MAX_CHANNELS := by omega
      rw [hsum, hsum2] at h1
      rw [h1, scanFrom_reset, if_pos (le_refl _)]
      have h2 := scanFrom_run MAX_CHANNELS hmax st 0 0 (by omega)
      simp only [Nat.add_zero, Nat.zero_add] at h2
      rw [h2]
      simp [LmicEu868.scanFrom]

theorem scanFrom_full_mem (MAX_CHANNELS : Nat) (hmax : MAX_CHANNELS ≤ 255) (c k : Nat) :
    k ∈ LmicEu868.scanFrom MAX_CHANNELS c MAX_CHANNELS ↔ k < MAX_CHANNELS := by
  obtain ⟨st, hst, heq⟩ := scanFrom_full MAX_CHANNELS hmax c
  rw [heq, List.mem_append, List.mem_range'_1, List.mem_range'_1]
  omega

theorem scanFrom_full_nodup (MAX_CHANNELS : Nat) (hmax : MAX_CHANNELS ≤ 255) (c : Nat) :
    (LmicEu868.scanFrom MAX_CHANNELS c MAX_CHANNELS).Nodup := by
  obtain ⟨st, hst, heq⟩ := scanFrom_full MAX_CHANNELS hmax c
  rw [heq, List.nodup_append]
  refine ⟨List.nodup_range' _ _, List.nodup_range' _ _, ?_⟩
  intro x h1 h2
  rw [List.mem_range'_1] at h1 h2
  omega

theorem nextTxPick_spec {Channels : Type} (ops : ChannelListOps Channels) (now : OsTime)
    (channels : Channels) (datarate : Nat) :
    ∀ (l : List Nat) (found : Bool) (t : OsTime) (tx : Nat) (ex : List Nat),
      (found = true → ops.is_enable_at_dr channels tx datarate = true ∧
        ops.getAvailability channels tx = t) →
      LmicEu868.PickEarly ops now channels datarate l ex
          (LmicEu868.nextTxPick ops now channels datarate l found t tx ex) ∨
        LmicEu868.PickFull ops now channels datarate l found t tx ex
          (LmicEu868.nextTxPick ops now channels datarate l found t tx ex)
  | [], found, t, tx, ex, hinv => by
    right
    cases found with
    | false =>
      refine ⟨by simp [LmicEu868.nextTxPick], (fun x hx => by cases hx), ?_, ?_⟩
      · rintro (h | ⟨x, hx, _⟩)
        · cases h
        · cases hx
      · intro _ _
        simp [LmicEu868.nextTxPick]
    | true =>
      obtain ⟨he, ha⟩ := hinv rfl
      refine ⟨by simp [LmicEu868.nextTxPick], (fun x hx => by cases hx), ?_, ?_⟩
      · intro _
        have hr : LmicEu868.nextTxPick ops now channels datarate [] true t tx ex
            = (t, tx, ex) := rfl
        rw [hr]
        exact ⟨he, ha.symm, fun _ => le_refl _, (fun x hx => by cases hx), Or.inr ⟨rfl, rfl⟩⟩
      · intro h
        cases h
  | c :: l, found, t, tx, ex, hinv => by
    by_cases hE : ops.is_enable_at_dr channels c datarate = true
    · by_cases hnow : ops.getAvailability channels c < now
      · left
        refine ⟨[], c, l, rfl, ?_, ?_, hE, ?_, hnow, (fun x hx => by cases hx)⟩ <;>
          simp [LmicEu868.nextTxPick, hE, hnow]
      · -- the channel is enabled but not yet available: it may become the best so far
        have hstep : LmicEu868.nextTxPick ops now channels datarate (c :: l) found t tx ex
            = LmicEu868.nextTxPick ops now channels datarate l true
                (if (!found || decide (ops.getAvailability channels c < t)) = true
                  then ops.getAvailability channels c else t)
                (if (!found || decide (ops.getAvailability channels c < t)) = true
                  then c else tx) (ex ++ [c]) := by
          simp only [LmicEu868.nextTxPick, hE, if_true, if_neg hnow]
        rw [hstep]
        generalize hb : (!found || decide (ops.getAvailability channels c < t)) = better
        have hinv2 : (true = true →
            ops.is_enable_at_dr channels (if better = true then c else tx) datarate = true ∧
            ops.getAvailability channels (if better = true then c else tx)
              = (if better = true then ops.getAvailability channels c else t)) := by
          intro _
          cases better with
          | true => exact ⟨hE, rfl⟩
          | false =>
            have hf : found = true := by
              cases found
              · simp at hb
              · rfl
            exact hinv hf
        have hle : (if better = true then ops.getAvailability channels c else t)
            ≤ ops.getAvailability channels c := by
          cases better with
          | true => exact le_refl _
          | false =>
            have : ¬ ops.getAvailability channels c < t := by
              intro hlt
              simp [hlt] at hb
            exact Nat.le_of_not_lt this
        have hle2 : found = true →
            (if better = true then ops.getAvailability channels c else t) ≤ t := by
          intro hf
          cases better with
          | true =>
            have : ops.getAvailability channels c < t := by
              simpa [hf] using hb
            exact Nat.le_of_lt this
          | false => exact le_refl _
        rcases nextTxPick_spec ops now channels datarate l true _ _ (ex ++ [c]) hinv2
          with hearly | hfull
        · left
          obtain ⟨l1, c1, l2, h1, h2, h3, h4, h5, h6, h7⟩ := hearly
          refine ⟨c :: l1, c1, l2, by rw [h1]; rfl, by rw [h2]; simp, h3, h4, h5, h6, ?_⟩
          intro x hx hxE
          rcases List.mem_cons.mp hx with hxc | hxl
          · rw [hxc]; exact Nat.le_of_not_lt hnow
          · exact h7 x hxl hxE
        · right
          obtain ⟨h1, h2, h3, _⟩ := hfull
          obtain ⟨g1, g2, g3, g4, g5⟩ := h3 (Or.inl rfl)
          refine ⟨by rw [h1]; simp, ?_, fun _ => ⟨g1, g2, ?_, ?_, ?_⟩, ?_⟩
          · intro x hx hxE
            rcases List.mem_cons.mp hx with hxc | hxl
            · rw [hxc]; exact Nat.le_of_not_lt hnow
            · exact h2 x hxl hxE
          · intro hf
            exact le_trans (g3 rfl) (hle2 hf)
          · intro x hx hxE
            rcases List.mem_cons.mp hx with hxc | hxl
            · rw [hxc]; exact le_trans (g3 rfl) hle
            · exact g4 x hxl hxE
          · rcases g5 with g | ⟨_, g⟩
            · exact Or.inl (List.mem_cons_of_mem _ g)
            · cases better with
              | true => exact Or.inl (by rw [g]; exact List.mem_cons_self _ _)
              | false =>
                have hf : found = true := by
                  cases found
                  · simp at hb
                  · rfl
                exact Or.inr ⟨hf, g⟩
          · intro _ hnone
            have := hnone c (List.mem_cons_self _ _)
            rw [hE] at this
            cases this
    · -- the channel is not enabled at the data rate: it is skipped
      have hEf : ops.is_enable_at_dr channels c datarate = false := by
        cases h : ops.is_enable_at_dr channels c datarate
        · rfl
        · exact absurd h hE
      have hstep : LmicEu868.nextTxPick ops now channels datarate (c :: l) found t tx ex
          = LmicEu868.nextTxPick ops now channels datarate l found t tx (ex ++ [c]) := by
        simp [LmicEu868.nextTxPick, hEf]
      rw [hstep]
      rcases nextTxPick_spec ops now channels datarate l found t tx (ex ++ [c]) hinv
        with hearly | hfull
      · left
        obtain ⟨l1, c1, l2, h1, h2, h3, h4, h5, h6, h7⟩ := hearly
        refine ⟨c :: l1, c1, l2, by rw [h1]; rfl, by rw [h2]; simp, h3, h4, h5, h6, ?_⟩
        intro x hx hxE
        rcases List.mem_cons.mp hx with hxc | hxl
        · rw [hxc] at hxE; exact absurd hxE hE
        · exact h7 x hxl hxE
      · right
        obtain ⟨h1, h2, h3, h4⟩ := hfull
        refine ⟨by rw [h1]; simp, ?_, ?_, ?_⟩
        · intro x hx hxE
          rcases List.mem_cons.mp hx with hxc | hxl
          · rw [hxc] at hxE; exact absurd hxE hE
          · exact h2 x hxl hxE
        · intro hpre
          have hpre2 : found = true ∨ ∃ x ∈ l, ops.is_enable_at_dr channels x datarate = true := by
            rcases hpre with hf | ⟨x, hx, hxE⟩
            · exact Or.inl hf
            · rcases List.mem_cons.mp hx with hxc | hxl
              · rw [hxc] at hxE; exact absurd hxE hE
              · exact Or.inr ⟨x, hxl, hxE⟩
          obtain ⟨g1, g2, g3, g4, g5⟩ := h3 hpre2
          refine ⟨g1, g2, g3, ?_, ?_⟩
          · intro x hx hxE
            rcases List.mem_cons.mp hx with hxc | hxl
            · rw [hxc] at hxE; exact absurd hxE hE
            · exact g4 x hxl hxE
          · rcases g5 with g | g
            · exact Or.inl (List.mem_cons_of_mem _ g)
            · exact Or.inr g
        · intro hf hnone
          exact h4 hf (fun x hx => hnone x (List.mem_cons_of_mem _ hx))

theorem scanFrom_lt (MAX_CHANNELS : Nat) (hpos : 0 < MAX_CHANNELS) :
    ∀ (n c : Nat), ∀ x ∈ LmicEu868.scanFrom MAX_CHANNELS c n, x < MAX_CHANNELS
  | 0, _, x, hx => by cases hx
  | n + 1, c, x, hx => by
    simp only [LmicEu868.scanFrom, List.mem_cons] at hx
    rcases hx with h | h
    · rw [h]
      split <;> omega
    · exact scanFrom_lt MAX_CHANNELS hpos n _ x h

theorem scanFrom_all_lt (MAX_CHANNELS c : Nat) :
    ∀ x ∈ LmicEu868.scanFrom MAX_CHANNELS c MAX_CHANNELS, x < MAX_CHANNELS := by
  by_cases h0 : MAX_CHANNELS = 0
  · subst h0
    intro x hx
    cases hx
  · exact scanFrom_lt MAX_CHANNELS (Nat.pos_of_ne_zero h0) MAX_CHANNELS c

/-- The two ways a call of nextTx ends, in terms of the channels it scans. -/
theorem eu868_nextTx_cases {Channels : Type} (ops : ChannelListOps Channels)
    (MAX_CHANNELS rnd : Nat) (now : OsTime) (s : LmicEu868 Channels) :
    ∃ l, l = LmicEu868.scanFrom MAX_CHANNELS ((s.txChnl + 1 + rnd % 2) % 256) MAX_CHANNELS ∧
      (LmicEu868.nextTx ops MAX_CHANNELS rnd now s).state
        = { s with txChnl := (LmicEu868.nextTx ops MAX_CHANNELS rnd now s).state.txChnl } ∧
      (LmicEu868.PickEarly ops now s.channels s.datarate l []
          ((LmicEu868.nextTx ops MAX_CHANNELS rnd now s).time,
            (LmicEu868.nextTx ops MAX_CHANNELS rnd now s).state.txChnl,
            (LmicEu868.nextTx ops MAX_CHANNELS rnd now s).examined) ∨
        LmicEu868.PickFull ops now s.channels s.datarate l false 0 s.txChnl []
          ((LmicEu868.nextTx ops MAX_CHANNELS rnd now s).time,
            (LmicEu868.nextTx ops MAX_CHANNELS rnd now s).state.txChnl,
            (LmicEu868.nextTx ops MAX_CHANNELS rnd now s).examined)) := by
  refine ⟨_, rfl, rfl, ?_⟩
  have hspec := nextTxPick_spec ops now s.channels s.datarate
    (LmicEu868.scanFrom MAX_CHANNELS ((s.txChnl + 1 + rnd % 2) % 256) MAX_CHANNELS)
    false 0 s.txChnl [] (fun h => by cases h)
  rw [← nextTxLoop_eq_pick] at hspec
  exact hspec

/-- C15: EU868 nextTx, when at least one channel is enabled at the current data
rate, for every previous txChnl and random byte.  The scan examines channel
indices below MAX_CHANNELS only, none twice, and all of them unless it returns
early; afterwards txChnl is a channel enabled at the current data rate, the
returned time is the availability of that channel, and that time is earlier
than now or is the least availability over the channels enabled at the current
data rate.  No other field changes. -/
theorem eu868_nextTx_selects {Channels : Type} (ops : ChannelListOps Channels)
    (MAX_CHANNELS rnd : Nat) (now : OsTime) (s : LmicEu868 Channels)
    (hmax : MAX_CHANNELS ≤ 255)
    (hen : ∃ c, c < MAX_CHANNELS ∧ ops.is_enable_at_dr s.channels c s.datarate = true) :
    (∀ x ∈ (LmicEu868.nextTx ops MAX_CHANNELS rnd now s).examined, x < MAX_CHANNELS) ∧
    (LmicEu868.nextTx ops MAX_CHANNELS rnd now s).examined.Nodup ∧
    (now ≤ (LmicEu868.nextTx ops MAX_CHANNELS rnd now s).time →
      ∀ c, c < MAX_CHANNELS → c ∈ (LmicEu868.nextTx ops MAX_CHANNELS rnd now s).examined) ∧
    (LmicEu868.nextTx ops MAX_CHANNELS rnd now s).state.txChnl < MAX_CHANNELS ∧
    ops.is_enable_at_dr s.channels (LmicEu868.nextTx ops MAX_CHANNELS rnd now s).state.txChnl
      s.datarate = true ∧
    (LmicEu868.nextTx ops MAX_CHANNELS rnd now s).time
      = ops.getAvailability s.channels
          (LmicEu868.nextTx ops MAX_CHANNELS rnd now s).state.txChnl ∧
    ((LmicEu868.nextTx ops MAX_CHANNELS rnd now s).time < now ∨
      ∀ c, c < MAX_CHANNELS → ops.is_enable_at_dr s.channels c s.datarate = true →
        (LmicEu868.nextTx ops MAX_CHANNELS rnd now s).time ≤ ops.getAvailability s.channels c) ∧
    (LmicEu868.nextTx ops MAX_CHANNELS rnd now s).state
      = { s with txChnl := (LmicEu868.nextTx ops MAX_CHANNELS rnd now s).state.txChnl } := by
  obtain ⟨l, hl, hstate, hcases⟩ := eu868_nextTx_cases ops MAX_CHANNELS rnd now s
  have hmem : ∀ k, k ∈ l ↔ k < MAX_CHANNELS := by
    intro k
    rw [hl]
    exact scanFrom_full_mem MAX_CHANNELS hmax _ k
  have hnd : l.Nodup := by
    rw [hl]
    exact scanFrom_full_nodup MAX_CHANNELS hmax _
  generalize (LmicEu868.nextTx ops MAX_CHANNELS rnd now s).time = time at hcases ⊢
  generalize (LmicEu868.nextTx ops MAX_CHANNELS rnd now s).examined = examined at hcases ⊢
  generalize (LmicEu868.nextTx ops MAX_CHANNELS rnd now s).state = st at hcases hstate ⊢
  rcases hcases with ⟨l1, c, l2, h1, h2, h3, h4, h5, h6, _⟩ | ⟨h1, _, h3, _⟩
  · -- early return at the channel c
    simp only at h2 h3 h5
    have hsub : examined.Sublist l := by
      rw [h2, h1, List.nil_append]
      exact List.Sublist.append (List.Sublist.refl _)
        (List.Sublist.cons₂ _ (List.nil_sublist _))
    have hc : c ∈ l := by rw [h1]; simp
    refine ⟨fun x hx => (hmem x).mp (hsub.subset hx), hnd.sublist hsub, ?_, ?_, ?_, ?_, ?_,
      hstate⟩
    · intro hle
      rw [h5] at hle
      exact absurd h6 (Nat.not_lt.mpr hle)
    · rw [h3]; exact (hmem c).mp hc
    · rw [h3]; exact h4
    · rw [h3]; exact h5
    · left
      rw [h5]; exact h6
  · -- the scan ran over all channels
    simp only at h1 h3
    rw [List.nil_append] at h1
    obtain ⟨c0, hc0, hE0⟩ := hen
    obtain ⟨g1, g2, _, g4, g5⟩ := h3 (Or.inr ⟨c0, (hmem c0).mpr hc0, hE0⟩)
    have htx : st.txChnl ∈ l := by
      rcases g5 with g | ⟨g, _⟩
      · exact g
      · cases g
    refine ⟨fun x hx => (hmem x).mp (h1 ▸ hx), h1 ▸ hnd, ?_, (hmem _).mp htx, g1, g2, ?_, hstate⟩
    · intro _ c hc
      rw [h1]
      exact (hmem c).mpr hc
    · right
      intro c hc hE
      exact g4 c ((hmem c).mpr hc) hE

/-- Witness for C15: sixteen channels enabled and available at tick zero, the
call made at tick 50. -/
theorem eu868_nextTx_selects_witness :
    (16 ≤ 255 ∧ ∃ c, c < 16 ∧
        (channelList 16).is_enable_at_dr LmicEu868.example16.channels c
          LmicEu868.example16.datarate = true) ∧
      (channelList 16).is_enable_at_dr LmicEu868.example16.channels
        (LmicEu868.nextTx (channelList 16) 16 1 50 LmicEu868.example16).state.txChnl
        LmicEu868.example16.datarate = true :=
  ⟨⟨by decide, 0, by decide, by decide⟩,
    (eu868_nextTx_selects (channelList 16) 16 1 50 LmicEu868.example16 (by decide)
      ⟨0, by decide, by decide⟩).2.2.2.2.1⟩

/-- C14: EU868 nextTx when channel 2 is enabled at the current data rate with
availability equal to now and every other channel is disabled: for every
previous txChnl and random byte the returned time is at most now (it is now)
and txChnl is left at 2. -/
theorem eu868_nextTx_only_channel_2 {Channels : Type} (ops : ChannelListOps Channels)
    (MAX_CHANNELS rnd : Nat) (now : OsTime) (s : LmicEu868 Channels)
    (hmax : MAX_CHANNELS ≤ 255) (h2 : 2 < MAX_CHANNELS)
    (hen : ops.is_enable_at_dr s.channels 2 s.datarate = true)
    (hav : ops.getAvailability s.channels 2 = now)
    (hothers : ∀ c, c ≠ 2 → ops.is_enable_at_dr s.channels c s.datarate = false) :
    (LmicEu868.nextTx ops MAX_CHANNELS rnd now s).time ≤ now ∧
      (LmicEu868.nextTx ops MAX_CHANNELS rnd now s).time = now ∧
      (LmicEu868.nextTx ops MAX_CHANNELS rnd now s).state.txChnl = 2 := by
  obtain ⟨l, hl, _, hcases⟩ := eu868_nextTx_cases ops MAX_CHANNELS rnd now s
  have hmem2 : 2 ∈ l := by
    rw [hl]
    exact (scanFrom_full_mem MAX_CHANNELS hmax _ 2).mpr h2
  have honly : ∀ c, ops.is_enable_at_dr s.channels c s.datarate = true → c = 2 := by
    intro c hc
    by_contra hne
    rw [hothers c hne] at hc
    cases hc
  generalize (LmicEu868.nextTx ops MAX_CHANNELS rnd now s).time = time at hcases ⊢
  generalize (LmicEu868.nextTx ops MAX_CHANNELS rnd now s).examined = examined at hcases ⊢
  generalize (LmicEu868.nextTx ops MAX_CHANNELS rnd now s).state = st at hcases ⊢
  rcases hcases with ⟨l1, c, l2, _, _, _, h4, _, h6, _⟩ | ⟨_, _, h3, _⟩
  · have hc2 := honly c h4
    rw [hc2, hav] at h6
    exact absurd h6 (Nat.lt_irrefl _)
  · simp only at h3
    obtain ⟨g1, g2, _, _, _⟩ := h3 (Or.inr ⟨2, hmem2, hen⟩)
    have htx := honly _ g1
    rw [htx, hav] at g2
    exact ⟨le_of_eq g2, g2, htx⟩

/-- Witness for C14: only channel 2 enabled, available at tick 100, the call
made at tick 100 from txChnl 0. -/
theorem eu868_nextTx_only_channel_2_witness :
    (channelList 16).is_enable_at_dr LmicEu868.onlyChannel2 2 LmicEu868.SF7 = true ∧
      (LmicEu868.nextTx (channelList 16) 16 0 100
        { LmicEu868.example16 with channels := LmicEu868.onlyChannel2 }).state.txChnl = 2 :=
  ⟨by decide,
    (eu868_nextTx_only_channel_2 (channelList 16) 16 0 100
      { LmicEu868.example16 with channels := LmicEu868.onlyChannel2 } (by decide) (by decide)
      (by decide) (by decide)
      (fun c hc => by simp [channelList, LmicEu868.onlyChannel2, hc])).2.2⟩

/-- C16: EU868 nextTx when no channel is enabled at the current data rate: the
call returns exactly now and leaves the state, txChnl included, as it was. -/
theorem eu868_nextTx_no_channel {Channels : Type} (ops : ChannelListOps Channels)
    (MAX_CHANNELS rnd : Nat) (now : OsTime) (s : LmicEu868 Channels)
    (hnone : ∀ c, c < MAX_CHANNELS → ops.is_enable_at_dr s.channels c s.datarate = false) :
    (LmicEu868.nextTx ops MAX_CHANNELS rnd now s).time = now ∧
      (LmicEu868.nextTx ops MAX_CHANNELS rnd now s).state = s := by
  obtain ⟨l, hl, hstate, hcases⟩ := eu868_nextTx_cases ops MAX_CHANNELS rnd now s
  have hlt : ∀ x ∈ l, x < MAX_CHANNELS := by
    rw [hl]
    exact scanFrom_all_lt MAX_CHANNELS _
  generalize (LmicEu868.nextTx ops MAX_CHANNELS rnd now s).time = time at hcases ⊢
  generalize (LmicEu868.nextTx ops MAX_CHANNELS rnd now s).examined = examined at hcases ⊢
  generalize (LmicEu868.nextTx ops MAX_CHANNELS rnd now s).state = st at hcases hstate ⊢
  rcases hcases with ⟨l1, c, l2, h1, _, _, h4, _, _, _⟩ | ⟨_, _, _, h4⟩
  · have hc : c ∈ l := by rw [h1]; simp
    rw [hnone c (hlt c hc)] at h4
    cases h4
  · simp only at h4
    obtain ⟨g1, g2⟩ := h4 trivial (fun x hx => hnone x (hlt x hx))
    refine ⟨g1, ?_⟩
    rw [hstate, g2]

/-- Witness for C16: a table without enabled channels. -/
theorem eu868_nextTx_no_channel_witness :
    (LmicEu868.nextTx (channelList 16) 16 1 50
        { LmicEu868.example16 with channels := LmicEu868.noneEnabled, txChnl := 7 }).time = 50 ∧
      (LmicEu868.nextTx (channelList 16) 16 1 50
        { LmicEu868.example16 with channels := LmicEu868.noneEnabled, txChnl := 7 }).state
        = { LmicEu868.example16 with channels := LmicEu868.noneEnabled, txChnl := 7 } :=
  eu868_nextTx_no_channel (channelList 16) 16 1 50
    { LmicEu868.example16 with channels := LmicEu868.noneEnabled, txChnl := 7 }
    (fun c _ => by simp [channelList, LmicEu868.noneEnabled])

/-! ## US915: nextTx -/

theorem and_seven (c : Nat) : c &&& 7 = c % 8 := Nat.and_pow_two_sub_one_eq_mod c 3

theorem and_sixtythree (c : Nat) : c &&& 0x3F = c % 64 := Nat.and_pow_two_sub_one_eq_mod c 6

theorem us915_nextTxLoop500_spec (map : Nat) :
    ∀ (n chRnd tx : Nat),
      ((LmicUs915.nextTxLoop500 map n chRnd tx).1 = true →
        ∃ k, k < 8 ∧ ((map &&& (1 <<< k)) != 0) = true ∧
          (LmicUs915.nextTxLoop500 map n chRnd tx).2.2 = 64 + k) ∧
      ((LmicUs915.nextTxLoop500 map n chRnd tx).1 = false →
        (LmicUs915.nextTxLoop500 map n chRnd tx).2.2 = tx ∧
        ∀ i, 1 ≤ i → i ≤ n → ((map &&& (1 <<< ((chRnd + i) % 8))) != 0) = false)
  | 0, chRnd, tx => by
    refine ⟨fun h => by simp [LmicUs915.nextTxLoop500] at h, fun _ => ⟨rfl, ?_⟩⟩
    intro i h1 h2
    omega
  | n + 1, chRnd, tx => by
    have hmod : ((chRnd + 1) % 256) % 8 = (chRnd + 1) % 8 := by omega
    by_cases hbit : ((map &&& (1 <<< (((chRnd + 1) % 256) &&& 7))) != 0) = true
    · have hrun : LmicUs915.nextTxLoop500 map (n + 1) chRnd tx
          = (true, (chRnd + 1) % 256, 64 + (((chRnd + 1) % 256) &&& 7)) := by
        simp only [LmicUs915.nextTxLoop500]
        rw [if_pos hbit]
      rw [hrun]
      refine ⟨fun _ => ⟨((chRnd + 1) % 256) &&& 7, ?_, hbit, rfl⟩, fun h => by cases h⟩
      rw [and_seven]
      exact Nat.mod_lt _ (by norm_num)
    · have hrun : LmicUs915.nextTxLoop500 map (n + 1) chRnd tx
          = LmicUs915.nextTxLoop500 map n ((chRnd + 1) % 256) tx := by
        simp only [LmicUs915.nextTxLoop500]
        rw [if_neg hbit]
      rw [hrun]
      obtain ⟨ih1, ih2⟩ := us915_nextTxLoop500_spec map n ((chRnd + 1) % 256) tx
      refine ⟨ih1, fun h => ⟨(ih2 h).1, ?_⟩⟩
      intro i h1 h2
      by_cases hi : i = 1
      · subst hi
        rw [and_seven, hmod] at hbit
        simpa using hbit
      · have := (ih2 h).2 (i - 1) (by omega) (by omega)
        have hidx : ((chRnd + 1) % 256 + (i - 1)) % 8 = (chRnd + i) % 8 := by omega
        rw [hidx] at this
        exact this

theorem us915_nextTxLoop125_spec (s : LmicUs915) :
    ∀ (n chRnd tx : Nat),
      ((LmicUs915.nextTxLoop125 s n chRnd tx).1 = true →
        (LmicUs915.nextTxLoop125 s n chRnd tx).2.2 < 64 ∧
        LmicUs915.channelEnabled s (LmicUs915.nextTxLoop125 s n chRnd tx).2.2 = true) ∧
      ((LmicUs915.nextTxLoop125 s n chRnd tx).1 = false →
        (LmicUs915.nextTxLoop125 s n chRnd tx).2.2 = tx ∧
        ∀ i, 1 ≤ i → i ≤ n → LmicUs915.channelEnabled s ((chRnd + i) % 64) = false)
  | 0, chRnd, tx => by
    refine ⟨fun h => by simp [LmicUs915.nextTxLoop125] at h, fun _ => ⟨rfl, ?_⟩⟩
    intro i h1 h2
    omega
  | n + 1, chRnd, tx => by
    have hmod : ((chRnd + 1) % 256) % 64 = (chRnd + 1) % 64 := by omega
    by_cases hbit : LmicUs915.channelEnabled s (((chRnd + 1) % 256) &&& 0x3F) = true
    · have hrun : LmicUs915.nextTxLoop125 s (n + 1) chRnd tx
          = (true, (chRnd + 1) % 256, ((chRnd + 1) % 256) &&& 0x3F) := by
        simp only [LmicUs915.nextTxLoop125]
        unfold LmicUs915.channelEnabled at hbit
        rw [if_pos hbit]
      rw [hrun]
      refine ⟨fun _ => ⟨?_, hbit⟩, fun h => by cases h⟩
      show ((chRnd + 1) % 256) &&& 0x3F < 64
      rw [and_sixtythree]
      exact Nat.mod_lt _ (by norm_num)
    · have hrun : LmicUs915.nextTxLoop125 s (n + 1) chRnd tx
          = LmicUs915.nextTxLoop125 s n ((chRnd + 1) % 256) tx := by
        simp only [LmicUs915.nextTxLoop125]
        unfold LmicUs915.channelEnabled at hbit
        rw [if_neg hbit]
      rw [hrun]
      obtain ⟨ih1, ih2⟩ := us915_nextTxLoop125_spec s n ((chRnd + 1) % 256) tx
      refine ⟨ih1, fun h => ⟨(ih2 h).1, ?_⟩⟩
      intro i h1 h2
      by_cases hi : i = 1
      · subst hi
        rw [and_sixtythree, hmod] at hbit
        simpa using hbit
      · have := (ih2 h).2 (i - 1) (by omega) (by omega)
        have hidx : ((chRnd + 1) % 256 + (i - 1)) % 64 = (chRnd + i) % 64 := by omega
        rw [hidx] at this
        exact this

theorem rotation_hits_8 (chRnd k : Nat) (hk : k < 8) :
    ∃ i, 1 ≤ i ∧ i ≤ 8 ∧ (chRnd + i) % 8 = k :=
  ⟨(k + 8 - chRnd % 8 + 7) % 8 + 1, by omega, by omega, by omega⟩

theorem rotation_hits_64 (chRnd k : Nat) (hk : k < 64) :
    ∃ i, 1 ≤ i ∧ i ≤ 64 ∧ (chRnd + i) % 64 = k :=
  ⟨(k + 64 - chRnd % 64 + 63) % 64 + 1, by omega, by omega, by omega⟩

theorem us915_wideband_bit (s : LmicUs915) (k : Nat) (hk : k < 8) :
    (((s.channelMap (64 / 16) &&& 0xFF) &&& (1 <<< k)) != 0)
      = LmicUs915.channelEnabled s (64 + k) := by
  have h1 : (64 + k) / 16 = 4 := by omega
  have h2 : (64 + k) % 16 = k := by omega
  have hff : (0xFF : Nat) = 2 ^ 8 - 1 := by norm_num
  rw [LmicUs915.and_one_shiftLeft_ne_zero, LmicUs915.channelEnabled_eq, h1, h2, Nat.testBit_and,
    hff, Nat.testBit_two_pow_sub_one]
  simp [hk]

/-- C17: US915 nextTx returns exactly now and leaves the channel map as it was.
At a wideband data rate (DR_SF8C or above) with one of the channels 64..71
enabled, txChnl afterwards is an enabled channel in 64..71; at a narrowband
data rate with one of the channels 0..63 enabled, txChnl afterwards is an
enabled channel in 0..63; this holds for every value of the rotation counter
and every random byte.  When no channel of the group is enabled, txChnl is
unchanged. -/
theorem us915_nextTx_selects (rnd : Nat) (now : OsTime) (s : LmicUs915) :
    (LmicUs915.nextTx rnd now s).1 = now ∧
    (LmicUs915.nextTx rnd now s).2.channelMap = s.channelMap ∧
    (s.datarate ≥ LmicUs915.DR_SF8C →
      (∃ c, 64 ≤ c ∧ c < 72 ∧ LmicUs915.channelEnabled s c = true) →
      64 ≤ (LmicUs915.nextTx rnd now s).2.txChnl ∧ (LmicUs915.nextTx rnd now s).2.txChnl < 72 ∧
      LmicUs915.channelEnabled (LmicUs915.nextTx rnd now s).2
        (LmicUs915.nextTx rnd now s).2.txChnl = true) ∧
    (s.datarate < LmicUs915.DR_SF8C →
      (∃ c, c < 64 ∧ LmicUs915.channelEnabled s c = true) →
      (LmicUs915.nextTx rnd now s).2.txChnl < 64 ∧
      LmicUs915.channelEnabled (LmicUs915.nextTx rnd now s).2
        (LmicUs915.nextTx rnd now s).2.txChnl = true) ∧
    (s.datarate ≥ LmicUs915.DR_SF8C →
      (∀ c, 64 ≤ c → c < 72 → LmicUs915.channelEnabled s c = false) →
      (LmicUs915.nextTx rnd now s).2.txChnl = s.txChnl) ∧
    (s.datarate < LmicUs915.DR_SF8C →
      (∀ c, c < 64 → LmicUs915.channelEnabled s c = false) →
      (LmicUs915.nextTx rnd now s).2.txChnl = s.txChnl) := by
  have hmap : (LmicUs915.nextTx rnd now s).2.channelMap = s.channelMap := by
    by_cases hdr : s.datarate ≥ LmicUs915.DR_SF8C
    · simp only [LmicUs915.nextTx, if_pos hdr]
    · simp only [LmicUs915.nextTx, if_neg hdr]
  have hsame : ∀ c, LmicUs915.channelEnabled (LmicUs915.nextTx rnd now s).2 c
      = LmicUs915.channelEnabled s c := by
    intro c
    unfold LmicUs915.channelEnabled
    rw [hmap]
  refine ⟨?_, hmap, ?_, ?_, ?_, ?_⟩
  · by_cases hdr : s.datarate ≥ LmicUs915.DR_SF8C
    · simp only [LmicUs915.nextTx, if_pos hdr]
    · simp only [LmicUs915.nextTx, if_neg hdr]
  · intro hdr ⟨c, hc1, hc2, hcE⟩
    rw [hsame]
    have htx : (LmicUs915.nextTx rnd now s).2.txChnl
        = (LmicUs915.nextTxLoop500 (s.channelMap (64 / 16) &&& 0xFF) 8
            (if s.chRnd = 0 then rnd &&& 0x3F else s.chRnd) s.txChnl).2.2 := by
      simp only [LmicUs915.nextTx, if_pos hdr]
    rw [htx]
    obtain ⟨h1, h2⟩ := us915_nextTxLoop500_spec (s.channelMap (64 / 16) &&& 0xFF) 8
      (if s.chRnd = 0 then rnd &&& 0x3F else s.chRnd) s.txChnl
    cases hr : (LmicUs915.nextTxLoop500 (s.channelMap (64 / 16) &&& 0xFF) 8
        (if s.chRnd = 0 then rnd &&& 0x3F else s.chRnd) s.txChnl).1 with
    | true =>
      obtain ⟨k, hk, hbit, hres⟩ := h1 hr
      rw [hres, ← us915_wideband_bit s k hk]
      exact ⟨by omega, by omega, hbit⟩
    | false =>
      obtain ⟨_, hnone⟩ := h2 hr
      obtain ⟨i, hi1, hi2, hi3⟩ := rotation_hits_8
        (if s.chRnd = 0 then rnd &&& 0x3F else s.chRnd) (c - 64) (by omega)
      have hbit := hnone i hi1 hi2
      rw [hi3, us915_wideband_bit s (c - 64) (by omega)] at hbit
      have hc : 64 + (c - 64) = c := by omega
      rw [hc, hcE] at hbit
      cases hbit
  · intro hdr ⟨c, hc1, hcE⟩
    rw [hsame]
    have hdr2 : ¬ s.datarate ≥ LmicUs915.DR_SF8C := Nat.not_le.mpr hdr
    have htx : (LmicUs915.nextTx rnd now s).2.txChnl
        = (LmicUs915.nextTxLoop125 s 64
            (if s.chRnd = 0 then rnd &&& 0x3F else s.chRnd) s.txChnl).2.2 := by
      simp only [LmicUs915.nextTx, if_neg hdr2]
    rw [htx]
    obtain ⟨h1, h2⟩ := us915_nextTxLoop125_spec s 64
      (if s.chRnd = 0 then rnd &&& 0x3F else s.chRnd) s.txChnl
    cases hr : (LmicUs915.nextTxLoop125 s 64
        (if s.chRnd = 0 then rnd &&& 0x3F else s.chRnd) s.txChnl).1 with
    | true => exact h1 hr
    | false =>
      obtain ⟨_, hnone⟩ := h2 hr
      obtain ⟨i, hi1, hi2, hi3⟩ := rotation_hits_64
        (if s.chRnd = 0 then rnd &&& 0x3F else s.chRnd) c hc1
      have hbit := hnone i hi1 hi2
      rw [hi3, hcE] at hbit
      cases hbit
  · intro hdr hnone
    have htx : (LmicUs915.nextTx rnd now s).2.txChnl
        = (LmicUs915.nextTxLoop500 (s.channelMap (64 / 16) &&& 0xFF) 8
            (if s.chRnd = 0 then rnd &&& 0x3F else s.chRnd) s.txChnl).2.2 := by
      simp only [LmicUs915.nextTx, if_pos hdr]
    rw [htx]
    obtain ⟨h1, h2⟩ := us915_nextTxLoop500_spec (s.channelMap (64 / 16) &&& 0xFF) 8
      (if s.chRnd = 0 then rnd &&& 0x3F else s.chRnd) s.txChnl
    cases hr : (LmicUs915.nextTxLoop500 (s.channelMap (64 / 16) &&& 0xFF) 8
        (if s.chRnd = 0 then rnd &&& 0x3F else s.chRnd) s.txChnl).1 with
    | true =>
      obtain ⟨k, hk, hbit, _⟩ := h1 hr
      rw [us915_wideband_bit s k hk, hnone (64 + k) (by omega) (by omega)] at hbit
      cases hbit
    | false => exact (h2 hr).1
  · intro hdr hnone
    have hdr2 : ¬ s.datarate ≥ LmicUs915.DR_SF8C := Nat.not_le.mpr hdr
    have htx : (LmicUs915.nextTx rnd now s).2.txChnl
        = (LmicUs915.nextTxLoop125 s 64
            (if s.chRnd = 0 then rnd &&& 0x3F else s.chRnd) s.txChnl).2.2 := by
      simp only [LmicUs915.nextTx, if_neg hdr2]
    rw [htx]
    obtain ⟨h1, h2⟩ := us915_nextTxLoop125_spec s 64
      (if s.chRnd = 0 then rnd &&& 0x3F else s.chRnd) s.txChnl
    cases hr : (LmicUs915.nextTxLoop125 s 64
        (if s.chRnd = 0 then rnd &&& 0x3F else s.chRnd) s.txChnl).1 with
    | true =>
      obtain ⟨hlt, hE⟩ := h1 hr
      rw [hnone _ hlt] at hE
      cases hE
    | false => exact (h2 hr).1

/-! ## US915: the join sequence -/

/-- C18, counterexample: on the channel map left by initDefaultChannels and
selectSubBand 3 (channels 24..31 and 64..71 enabled, so each group has an
enabled channel), initJoinLoop leaves txChnl = 0, a disabled channel; and after
one nextJoinState (channel 64) a second one with the random byte 5 leaves
txChnl = 5, which is disabled too. -/
theorem us915_join_selects_disabled_channel :
    (LmicUs915.subBand3.map fun t =>
      (LmicUs915.channelEnabled t 24, LmicUs915.channelEnabled t 64,
        (LmicUs915.initJoinLoop 0 0 t).txChnl,
        LmicUs915.channelEnabled (LmicUs915.initJoinLoop 0 0 t)
          (LmicUs915.initJoinLoop 0 0 t).txChnl,
        (LmicUs915.nextJoinStates [(0, 0), (5, 0)] (LmicUs915.initJoinLoop 0 0 t)).2.txChnl,
        LmicUs915.channelEnabled
          (LmicUs915.nextJoinStates [(0, 0), (5, 0)] (LmicUs915.initJoinLoop 0 0 t)).2
          (LmicUs915.nextJoinStates [(0, 0), (5, 0)] (LmicUs915.initJoinLoop 0 0 t)).2.txChnl))
      = some (true, true, 0, false, 5, false) := by
  decide

/-- C18, amended: the US915 join does not consult the channel map.  For every
channel map and every random byte, initJoinLoop leaves txChnl = 0, and
nextJoinState leaves txChnl = 64 + (the previous txChnl mod 8) when the data
rate was not DR_SF8C and the random byte mod 64 when it was; both leave the
channel map as it was, so txChnl is a hardwired channel index below 72 whether
or not that channel is enabled. -/
theorem us915_join_channel_choice (rnd delay : Nat) (now : OsTime) (s : LmicUs915) :
    (LmicUs915.initJoinLoop now delay s).txChnl = 0 ∧
    (LmicUs915.initJoinLoop now delay s).channelMap = s.channelMap ∧
    (LmicUs915.nextJoinState rnd now s).2.channelMap = s.channelMap ∧
    (s.datarate ≠ LmicUs915.DR_SF8C →
      (LmicUs915.nextJoinState rnd now s).2.txChnl = 64 + s.txChnl % 8) ∧
    (s.datarate = LmicUs915.DR_SF8C →
      (LmicUs915.nextJoinState rnd now s).2.txChnl = rnd % 64) ∧
    (LmicUs915.nextJoinState rnd now s).2.txChnl < 72 := by
  have h8 : (64 + s.txChnl % 8) % 256 = 64 + s.txChnl % 8 := by omega
  refine ⟨rfl, rfl, ?_, ?_, ?_, ?_⟩
  · by_cases h : s.datarate ≠ LmicUs915.DR_SF8C
    · simp only [LmicUs915.nextJoinState, if_pos h]
    · simp only [LmicUs915.nextJoinState, if_neg h]
  · intro h
    simp only [LmicUs915.nextJoinState, if_pos h, and_seven, h8]
  · intro h
    have h2 : ¬ s.datarate ≠ LmicUs915.DR_SF8C := fun hne => hne h
    simp only [LmicUs915.nextJoinState, if_neg h2, and_sixtythree]
  · by_cases h : s.datarate ≠ LmicUs915.DR_SF8C
    · simp only [LmicUs915.nextJoinState, if_pos h, and_seven, h8]
      omega
    · simp only [LmicUs915.nextJoinState, if_neg h, and_sixtythree]
      omega

theorem toInt8_small (c : Nat) (hc : c ≤ 131) :
    LmicUs915.toInt8 ((3 : Int) - (c : Int)) = (3 : Int) - (c : Int) := by
  unfold LmicUs915.toInt8
  omega

/-- The data-rate arithmetic of nextJoinState while the 8-bit subtraction does
not wrap: the attempt fails from the fourth decrement on, and the data rate is
3 - c clamped at DR_SF10. -/
theorem us915_join_dr (c : Nat) (hc : c ≤ 131) :
    decide (LmicUs915.toInt8 (((LmicUs915.DR_SF7 : Nat) : Int) - ((c : Nat) : Int))
        < ((LmicUs915.DR_SF10 : Nat) : Int)) = !decide (c ≤ 3) ∧
    ((if decide (LmicUs915.toInt8 (((LmicUs915.DR_SF7 : Nat) : Int) - ((c : Nat) : Int))
          < ((LmicUs915.DR_SF10 : Nat) : Int)) = true
        then ((LmicUs915.DR_SF10 : Nat) : Int)
        else LmicUs915.toInt8 (((LmicUs915.DR_SF7 : Nat) : Int) - ((c : Nat) : Int))) % 256).toNat
      = 3 - c := by
  have hint : LmicUs915.toInt8 (((LmicUs915.DR_SF7 : Nat) : Int) - ((c : Nat) : Int))
      = (3 : Int) - (c : Int) := toInt8_small c hc
  have h0 : ((LmicUs915.DR_SF10 : Nat) : Int) = 0 := rfl
  rw [hint, h0]
  by_cases h3 : c ≤ 3
  · have hlt : ¬ ((3 : Int) - (c : Int) < 0) := by omega
    rw [decide_eq_false hlt, decide_eq_true h3]
    refine ⟨rfl, ?_⟩
    rw [if_neg (by decide)]
    omega
  · have hlt : ((3 : Int) - (c : Int) < 0) := by omega
    rw [decide_eq_true hlt, decide_eq_false h3]
    refine ⟨rfl, ?_⟩
    rw [if_pos rfl]
    omega

/-- A call of nextJoinState at a data rate other than DR_SF8C. -/
theorem us915_nextJoinState_wide (rnd : Nat) (now : OsTime) (s : LmicUs915)
    (h : s.datarate ≠ LmicUs915.DR_SF8C) :
    (LmicUs915.nextJoinState rnd now s).1 = true ∧
      (LmicUs915.nextJoinState rnd now s).2.datarate = LmicUs915.DR_SF8C ∧
      (LmicUs915.nextJoinState rnd now s).2.txCnt = s.txCnt ∧
      (LmicUs915.nextJoinState rnd now s).2.txChnl = 64 + s.txChnl % 8 := by
  have h8 : (64 + s.txChnl % 8) % 256 = 64 + s.txChnl % 8 := by omega
  have hr : LmicUs915.nextJoinState rnd now s
      = (true, { s with txChnl := (64 + (s.txChnl &&& 7)) % 256,
                        datarate := LmicUs915.DR_SF8C, txend := now }) := by
    simp only [LmicUs915.nextJoinState, if_pos h]
  rw [hr]
  refine ⟨rfl, rfl, rfl, ?_⟩
  show (64 + (s.txChnl &&& 7)) % 256 = 64 + s.txChnl % 8
  rw [and_seven, h8]

/-- A call of nextJoinState at DR_SF8C, while the attempt counter is small
enough for the 8-bit subtraction not to wrap. -/
theorem us915_nextJoinState_narrow (rnd : Nat) (now : OsTime) (s : LmicUs915)
    (h : s.datarate = LmicUs915.DR_SF8C) (hc : s.txCnt + 1 ≤ 131) :
    (LmicUs915.nextJoinState rnd now s).1 = decide (s.txCnt + 1 ≤ 3) ∧
      (LmicUs915.nextJoinState rnd now s).2.datarate = 3 - (s.txCnt + 1) ∧
      (LmicUs915.nextJoinState rnd now s).2.txCnt = s.txCnt + 1 ∧
      (LmicUs915.nextJoinState rnd now s).2.txChnl = rnd % 64 := by
  have h2 : ¬ s.datarate ≠ LmicUs915.DR_SF8C := fun hne => hne h
  have hmod : (s.txCnt + 1) % 256 = s.txCnt + 1 := Nat.mod_eq_of_lt (by omega)
  obtain ⟨hd1, hd2⟩ := us915_join_dr (s.txCnt + 1) hc
  simp only [LmicUs915.nextJoinState, if_neg h2, hmod]
  refine ⟨?_, ?_, trivial, ?_⟩
  · rw [hd1, Bool.not_not]
  · exact hd2
  · exact and_sixtythree rnd

/-- The flags of a run of calls, read off a call counter that starts at one. -/
theorem range_map_succ (g : Nat → Bool) (n m : Nat) :
    (List.range (m + 1)).map (fun i => g (n + i + 1))
      = g (n + 1) :: (List.range m).map (fun i => g (n + 1 + i + 1)) := by
  rw [List.range_succ_eq_map, List.map_cons, List.map_map]
  refine congrArg (List.cons (g (n + 1))) ?_
  refine List.map_congr_left ?_
  intro i _
  show g (n + (i + 1) + 1) = g (n + 1 + i + 1)
  rw [show n + (i + 1) + 1 = n + 1 + i + 1 by omega]

/-- One call of the US915 nextJoinState after n calls of the join sequence. -/
theorem us915_join_step (n rnd : Nat) (now : OsTime) (s : LmicUs915)
    (hcnt : s.txCnt = n / 2)
    (hdr : s.datarate = if n % 2 = 1 then LmicUs915.DR_SF8C else LmicUs915.DR_SF7 - n / 2)
    (hn : n + 1 ≤ 263) :
    (LmicUs915.nextJoinState rnd now s).1 = decide ((n + 1) % 2 = 1 ∨ (n + 1) / 2 ≤ 3) ∧
    (LmicUs915.nextJoinState rnd now s).2.txCnt = (n + 1) / 2 ∧
    (LmicUs915.nextJoinState rnd now s).2.datarate
      = (if (n + 1) % 2 = 1 then LmicUs915.DR_SF8C else LmicUs915.DR_SF7 - (n + 1) / 2) ∧
    ((n + 1) % 2 = 1 → 64 ≤ (LmicUs915.nextJoinState rnd now s).2.txChnl ∧
      (LmicUs915.nextJoinState rnd now s).2.txChnl < 72) ∧
    ((n + 1) % 2 = 0 → (LmicUs915.nextJoinState rnd now s).2.txChnl = rnd % 64) := by
  have h4 : LmicUs915.DR_SF8C = 4 := rfl
  have h3 : LmicUs915.DR_SF7 = 3 := rfl
  rw [h4, h3] at hdr
  rw [h4, h3]
  by_cases hodd : n % 2 = 1
  · rw [if_pos hodd] at hdr
    have hc : s.txCnt + 1 ≤ 131 := by omega
    obtain ⟨e1, e2, e3, e4⟩ := us915_nextJoinState_narrow rnd now s hdr hc
    have hne : ¬ (n + 1) % 2 = 1 := by omega
    rw [e1, e2, e3, e4, if_neg hne]
    refine ⟨?_, by omega, by omega, fun h => absurd h hne, fun _ => rfl⟩
    have hiff : (s.txCnt + 1 ≤ 3) ↔ ((n + 1) % 2 = 1 ∨ (n + 1) / 2 ≤ 3) := by omega
    exact decide_eq_decide.mpr hiff
  · rw [if_neg hodd] at hdr
    have hw : s.datarate ≠ LmicUs915.DR_SF8C := by
      rw [h4]
      omega
    obtain ⟨e1, e2, e3, e4⟩ := us915_nextJoinState_wide rnd now s hw
    have hp : (n + 1) % 2 = 1 := by omega
    rw [e1, e2, e3, e4, if_pos hp, h4]
    refine ⟨?_, by omega, rfl, fun _ => by omega, fun h => by omega⟩
    exact (decide_eq_true (Or.inl hp)).symm

/-- The US915 join sequence continued after n calls. -/
theorem us915_join_run (draws : List (Nat × OsTime)) :
    ∀ (n : Nat) (s : LmicUs915), s.txCnt = n / 2 →
      (s.datarate = if n % 2 = 1 then LmicUs915.DR_SF8C else LmicUs915.DR_SF7 - n / 2) →
      n + draws.length ≤ 263 →
      (LmicUs915.nextJoinStates draws s).1
        = (List.range draws.length).map
            (fun i => decide ((n + i + 1) % 2 = 1 ∨ (n + i + 1) / 2 ≤ 3)) ∧
      (LmicUs915.nextJoinStates draws s).2.txCnt = (n + draws.length) / 2 ∧
      (LmicUs915.nextJoinStates draws s).2.datarate
        = (if (n + draws.length) % 2 = 1 then LmicUs915.DR_SF8C
            else LmicUs915.DR_SF7 - (n + draws.length) / 2) ∧
      (0 < draws.length → (n + draws.length) % 2 = 1 →
        64 ≤ (LmicUs915.nextJoinStates draws s).2.txChnl ∧
        (LmicUs915.nextJoinStates draws s).2.txChnl < 72) ∧
      (0 < draws.length → (n + draws.length) % 2 = 0 →
        (LmicUs915.nextJoinStates draws s).2.txChnl < 64) := by
  induction draws with
  | nil =>
    intro n s hcnt hdr _
    exact ⟨rfl, hcnt, hdr, fun h => absurd h (Nat.lt_irrefl 0),
      fun h => absurd h (Nat.lt_irrefl 0)⟩
  | cons c cs ih =>
    intro n s hcnt hdr hlen
    have hl : (c :: cs).length = cs.length + 1 := rfl
    rw [hl] at hlen
    obtain ⟨f1, f2, f3, f4, f5⟩ := us915_join_step n c.1 c.2 s hcnt hdr (by omega)
    obtain ⟨g1, g2, g3, g4, g5⟩ :=
      ih (n + 1) (LmicUs915.nextJoinState c.1 c.2 s).2 f2 f3 (by omega)
    have hr : LmicUs915.nextJoinStates (c :: cs) s
        = ((LmicUs915.nextJoinState c.1 c.2 s).1
              :: (LmicUs915.nextJoinStates cs (LmicUs915.nextJoinState c.1 c.2 s).2).1,
            (LmicUs915.nextJoinStates cs (LmicUs915.nextJoinState c.1 c.2 s).2).2) := rfl
    have hsum : n + (cs.length + 1) = n + 1 + cs.length := by omega
    rw [hr, hl, hsum]
    refine ⟨?_, g2, g3, ?_, ?_⟩
    · show (LmicUs915.nextJoinState c.1 c.2 s).1
          :: (LmicUs915.nextJoinStates cs (LmicUs915.nextJoinState c.1 c.2 s).2).1 = _
      rw [f1, g1]
      exact (range_map_succ (fun k => decide (k % 2 = 1 ∨ k / 2 ≤ 3)) n cs.length).symm
    · intro _ hodd
      cases cs with
      | nil => exact f4 hodd
      | cons d ds => exact g4 (Nat.succ_pos _) hodd
    · intro _ hev
      cases cs with
      | nil =>
        show (LmicUs915.nextJoinState c.1 c.2 s).2.txChnl < 64
        rw [f5 hev]
        exact Nat.mod_lt _ (by decide)
      | cons d ds => exact g5 (Nat.succ_pos _) hev

/-- C19, counterexample: ten calls of nextJoinState from the initial join state.
The 8th call returns failed and leaves the data rate at DR_SF10, not at the
highest data rate, and the 10th call returns failed again: failed is not
returned once per data-rate cycle, but on every second call from the 8th on. -/
theorem us915_nextJoinState_fails_again :
    (LmicUs915.nextJoinStates (List.replicate 10 (0, 0))
        (LmicUs915.initJoinLoop 0 0 LmicUs915.blank)).1
      = [true, true, true, true, true, true, true, false, true, false] ∧
    (LmicUs915.nextJoinStates (List.replicate 8 (0, 0))
        (LmicUs915.initJoinLoop 0 0 LmicUs915.blank)).2.datarate = LmicUs915.DR_SF10 := by
  decide

/-- C19, amended: US915 nextJoinState, called n times (n at most 263) from the
initial join state (data rate DR_SF7, attempt counter 0): the k-th call returns
continue exactly when k is odd or k / 2 is at most 3, so calls 1..7 return
continue, the 8th returns failed and so does every even call after it; after n
calls the attempt counter is n / 2 and the data rate is DR_SF8C on a wideband
channel 64..71 when n is odd, and otherwise DR_SF7 lowered by n / 2 notches and
held at DR_SF10 (SF8, SF9, SF10, then DR_SF10 for good) on a narrowband channel
0..63. -/
theorem us915_nextJoinState_sequence (draws : List (Nat × OsTime)) (s : LmicUs915)
    (hdr : s.datarate = LmicUs915.DR_SF7) (hcnt : s.txCnt = 0)
    (hlen : draws.length ≤ 263) :
    (LmicUs915.nextJoinStates draws s).1
      = (List.range draws.length).map
          (fun i => decide ((i + 1) % 2 = 1 ∨ (i + 1) / 2 ≤ 3)) ∧
    (LmicUs915.nextJoinStates draws s).2.txCnt = draws.length / 2 ∧
    (LmicUs915.nextJoinStates draws s).2.datarate
      = (if draws.length % 2 = 1 then LmicUs915.DR_SF8C
          else LmicUs915.DR_SF7 - draws.length / 2) ∧
    (draws.length % 2 = 1 →
      64 ≤ (LmicUs915.nextJoinStates draws s).2.txChnl ∧
      (LmicUs915.nextJoinStates draws s).2.txChnl < 72) ∧
    (0 < draws.length → draws.length % 2 = 0 →
      (LmicUs915.nextJoinStates draws s).2.txChnl < 64) := by
  have h := us915_join_run draws 0 s (by rw [hcnt]) (by rw [hdr]; rfl) (by omega)
  simp only [Nat.zero_add] at h
  obtain ⟨h1, h2, h3, h4, h5⟩ := h
  refine ⟨h1, h2, h3, ?_, h5⟩
  intro hodd
  have hpos : 0 < draws.length := by omega
  exact h4 hpos hodd

/-- C19, amended, at a concrete run: eight calls from the state left by
initJoinLoop. -/
theorem us915_nextJoinState_sequence_witness :
    (LmicUs915.nextJoinStates (List.replicate 8 (0, 0))
        (LmicUs915.initJoinLoop 0 0 LmicUs915.blank)).1
      = [true, true, true, true, true, true, true, false] ∧
    (LmicUs915.nextJoinStates (List.replicate 8 (0, 0))
        (LmicUs915.initJoinLoop 0 0 LmicUs915.blank)).2.txCnt = 4 :=
  ⟨(us915_nextJoinState_sequence (List.replicate 8 (0, 0))
      (LmicUs915.initJoinLoop 0 0 LmicUs915.blank) rfl rfl (by decide)).1.trans (by decide),
   (us915_nextJoinState_sequence (List.replicate 8 (0, 0))
      (LmicUs915.initJoinLoop 0 0 LmicUs915.blank) rfl rfl (by decide)).2.1⟩

/-! ## EU868: the join sequence -/

/-- One call of the EU868 nextJoinState after m calls of the join sequence that
started at data rate SF7 with an even attempt counter on channel c0. -/
theorem eu868_join_step {Channels : Type} (ops : ChannelListOps Channels) (m c0 : Nat)
    (now : OsTime) (s : LmicEu868 Channels)
    (hdr : s.datarate = LmicEu868.SF7 - (m % 12) / 2)
    (hcnt : s.txCnt % 2 = m % 2)
    (htx : s.txChnl = (c0 + m) % 3) :
    (LmicEu868.nextJoinState ops now s).1 = decide ((m + 1) % 12 ≠ 0) ∧
    (LmicEu868.nextJoinState ops now s).2.datarate = LmicEu868.SF7 - ((m + 1) % 12) / 2 ∧
    (LmicEu868.nextJoinState ops now s).2.txCnt % 2 = (m + 1) % 2 ∧
    (LmicEu868.nextJoinState ops now s).2.txChnl = (c0 + (m + 1)) % 3 ∧
    (LmicEu868.nextJoinState ops now s).2.channels = s.channels := by
  have h5 : LmicEu868.SF7 = 5 := rfl
  have h0 : LmicEu868.SF12 = 0 := rfl
  rw [h5] at hdr
  have hand : ((s.txCnt + 1) % 256) &&& 1 = ((s.txCnt + 1) % 256) % 2 :=
    Nat.and_pow_two_sub_one_eq_mod _ 1
  have hch : (if (s.txChnl + 1) % 256 = 3 then 0 else (s.txChnl + 1) % 256)
      = (c0 + (m + 1)) % 3 := by
    split <;> omega
  simp only [LmicEu868.nextJoinState, hand, hch, h5, h0, LmicEu868.decDR]
  refine ⟨?_, ?_, by omega, trivial, trivial⟩
  · by_cases hstep : (s.txCnt + 1) % 256 % 2 = 0
    · by_cases hz : s.datarate = 0
      · have hk : ¬ (m + 1) % 12 ≠ 0 := by omega
        simp [hstep, hz, hk]
      · have hk : (m + 1) % 12 ≠ 0 := by omega
        simp [hstep, hz, hk]
    · have hk : (m + 1) % 12 ≠ 0 := by omega
      simp [hstep, hk]
  · by_cases hstep : (s.txCnt + 1) % 256 % 2 = 0
    · by_cases hz : s.datarate = 0
      · simp only [hstep, hz, decide_True, if_true]
        omega
      · simp only [hstep, hz, decide_True, if_true, if_false]
        omega
    · simp only [hstep, decide_False, Bool.false_eq_true, if_false]
      omega

/-- The EU868 join sequence continued after m calls. -/
theorem eu868_join_run {Channels : Type} (ops : ChannelListOps Channels) (c0 : Nat)
    (times : List OsTime) :
    ∀ (m : Nat) (s : LmicEu868 Channels),
      s.datarate = LmicEu868.SF7 - (m % 12) / 2 → s.txCnt % 2 = m % 2 →
      s.txChnl = (c0 + m) % 3 →
      (LmicEu868.nextJoinStates ops times s).1
        = (List.range times.length).map (fun i => decide ((m + i + 1) % 12 ≠ 0)) ∧
      (LmicEu868.nextJoinStates ops times s).2.datarate
        = LmicEu868.SF7 - ((m + times.length) % 12) / 2 ∧
      (LmicEu868.nextJoinStates ops times s).2.txChnl = (c0 + (m + times.length)) % 3 := by
  induction times with
  | nil =>
    intro m s hdr _ htx
    exact ⟨rfl, hdr, htx⟩
  | cons t ts ih =>
    intro m s hdr hcnt htx
    obtain ⟨f1, f2, f3, f4, _⟩ := eu868_join_step ops m c0 t s hdr hcnt htx
    obtain ⟨g1, g2, g3⟩ := ih (m + 1) (LmicEu868.nextJoinState ops t s).2 f2 f3 f4
    have hl : (t :: ts).length = ts.length + 1 := rfl
    have hr : LmicEu868.nextJoinStates ops (t :: ts) s
        = ((LmicEu868.nextJoinState ops t s).1
              :: (LmicEu868.nextJoinStates ops ts (LmicEu868.nextJoinState ops t s).2).1,
            (LmicEu868.nextJoinStates ops ts (LmicEu868.nextJoinState ops t s).2).2) := rfl
    have hsum : m + (ts.length + 1) = m + 1 + ts.length := by omega
    rw [hr, hl, hsum]
    refine ⟨?_, g2, g3⟩
    show (LmicEu868.nextJoinState ops t s).1
        :: (LmicEu868.nextJoinStates ops ts (LmicEu868.nextJoinState ops t s).2).1 = _
    rw [f1, g1]
    exact (range_map_succ (fun k => decide (k % 12 ≠ 0)) m ts.length).symm

/-- C20: EU868 nextJoinState called repeatedly from the initial join state (data
rate SF7, even attempt counter, txChnl in 0..2).  For every number n of calls:
the k-th call returns continue exactly when k is not a multiple of 12 (failed on
every 12th call), txChnl after n calls is the start channel advanced n times
round 0, 1, 2, and the data rate is SF7 lowered by one notch for every second
call of the current cycle of 12, so it is back at SF7 after each failed call. -/
theorem eu868_nextJoinState_cycle {Channels : Type} (ops : ChannelListOps Channels)
    (times : List OsTime) (s : LmicEu868 Channels)
    (hdr : s.datarate = LmicEu868.SF7) (hcnt : s.txCnt % 2 = 0) (htx : s.txChnl < 3) :
    (LmicEu868.nextJoinStates ops times s).1
      = (List.range times.length).map (fun i => decide ((i + 1) % 12 ≠ 0)) ∧
    (LmicEu868.nextJoinStates ops times s).2.datarate
      = LmicEu868.SF7 - (times.length % 12) / 2 ∧
    (LmicEu868.nextJoinStates ops times s).2.txChnl = (s.txChnl + times.length) % 3 ∧
    (LmicEu868.nextJoinStates ops times s).2.txChnl < 3 := by
  have h := eu868_join_run ops s.txChnl times 0 s (by rw [hdr]; rfl) (by omega) (by omega)
  simp only [Nat.zero_add] at h
  obtain ⟨h1, h2, h3⟩ := h
  refine ⟨h1, h2, h3, ?_⟩
  rw [h3]
  exact Nat.mod_lt _ (by decide)

/-- C20 at a concrete run: twelve calls on the sixteen-channel example. -/
theorem eu868_nextJoinState_cycle_witness :
    (LmicEu868.nextJoinStates (channelList 16) (List.replicate 12 0) LmicEu868.example16).1
      = [true, true, true, true, true, true, true, true, true, true, true, false] ∧
    (LmicEu868.nextJoinStates (channelList 16) (List.replicate 12 0)
        LmicEu868.example16).2.datarate = LmicEu868.SF7 :=
  ⟨(eu868_nextJoinState_cycle (channelList 16) (List.replicate 12 0) LmicEu868.example16
      rfl rfl (by decide)).1.trans (by decide),
   (eu868_nextJoinState_cycle (channelList 16) (List.replicate 12 0) LmicEu868.example16
      rfl rfl (by decide)).2.1⟩

/-! ## Concrete runs of the channel-mask and channel-selection theorems -/

/-- C12 at a concrete command: the pair (0, 4) is accepted, and mapChannels
applied with it to a sixteen-channel table with no channel enabled leaves a
channel below MAX_CHANNELS enabled. -/
theorem eu868_validMapChannels_accepts_witness :
    LmicEu868.validMapChannels 0 4 = true ∧
    ∃ chnl, chnl < 16 ∧
      ((LmicEu868.mapChannels (channelList 16) 16
          { LmicEu868.example16 with channels := LmicEu868.noneEnabled } 0 4).channels
        chnl).enabled = true :=
  ⟨(eu868_validMapChannels_accepts 16 0 4).1.mpr (Or.inr ⟨rfl, by decide⟩),
   ((eu868_validMapChannels_accepts 16 0 4).2 (by decide) (by decide) (by decide)).2
      { LmicEu868.example16 with channels := LmicEu868.noneEnabled }⟩

/-- C13 at concrete commands on the blank channel map: control code 6 with mask
1 enables channel 10 and wideband channel 64, and control code 1 with mask 2
enables channel 17 and leaves channel 3 disabled. -/
theorem us915_mapChannels_effect_witness :
    LmicUs915.channelEnabled (LmicUs915.mapChannels LmicUs915.blank 6 1) 10 = true ∧
    LmicUs915.channelEnabled (LmicUs915.mapChannels LmicUs915.blank 6 1) (64 + 0)
      = Nat.testBit 1 0 ∧
    LmicUs915.channelEnabled (LmicUs915.mapChannels LmicUs915.blank 1 2) (16 * 1 + 1)
      = Nat.testBit 2 1 ∧
    LmicUs915.channelEnabled (LmicUs915.mapChannels LmicUs915.blank 1 2) 3
      = LmicUs915.channelEnabled LmicUs915.blank 3 :=
  ⟨((us915_mapChannels_effect LmicUs915.blank 6 1).1 rfl).1 10 (by decide),
   ((us915_mapChannels_effect LmicUs915.blank 6 1).1 rfl).2 0 (by decide),
   ((us915_mapChannels_effect LmicUs915.blank 1 2).2.2.1 (by decide)).1 1 (by decide),
   ((us915_mapChannels_effect LmicUs915.blank 1 2).2.2.1 (by decide)).2 3 (by decide)⟩

/-- C17 at a concrete state: on the default channel map at DR_SF8C, nextTx
leaves txChnl on an enabled channel of 64..71. -/
theorem us915_nextTx_selects_witness :
    64 ≤ (LmicUs915.nextTx 0 5
        { LmicUs915.initDefaultChannels LmicUs915.blank with
          datarate := LmicUs915.DR_SF8C }).2.txChnl ∧
    (LmicUs915.nextTx 0 5
        { LmicUs915.initDefaultChannels LmicUs915.blank with
          datarate := LmicUs915.DR_SF8C }).2.txChnl < 72 ∧
    LmicUs915.channelEnabled
      (LmicUs915.nextTx 0 5
        { LmicUs915.initDefaultChannels LmicUs915.blank with
          datarate := LmicUs915.DR_SF8C }).2
      (LmicUs915.nextTx 0 5
        { LmicUs915.initDefaultChannels LmicUs915.blank with
          datarate := LmicUs915.DR_SF8C }).2.txChnl = true :=
  (us915_nextTx_selects 0 5
    { LmicUs915.initDefaultChannels LmicUs915.blank with
      datarate := LmicUs915.DR_SF8C }).2.2.1 (by decide) ⟨64, by decide, by decide, by decide⟩

/-! ## initJoinLoop and the attempt counter -/

/-- C21, counterexample: on a US915 state and on an EU868 state whose attempt
counter is 5, initJoinLoop leaves the attempt counter at 5, not at zero. -/
theorem initJoinLoop_keeps_nonzero_txCnt :
    (LmicUs915.initJoinLoop 0 0 { LmicUs915.blank with txCnt := 5 }).txCnt = 5 ∧
    (LmicEu868.initJoinLoop (channelList 16) 0 0
      { LmicEu868.example16 with txCnt := 5 }).txCnt = 5 := by
  decide

/-- C21, amended: initJoinLoop does not touch the attempt counter.  For every
prior state, in US915 and in EU868, the attempt counter txCnt after initJoinLoop
is the one before (so it is zero afterwards exactly when it was zero before);
what initJoinLoop sets is the data rate (DR_SF7, Dr::SF7), the transmit power
(20, MaxEIRP), txChnl (0, a random one of 0..2) and, for US915, chRnd = 0. -/
theorem initJoinLoop_keeps_txCnt {Channels : Type} (ops : ChannelListOps Channels)
    (rnd delay : Nat) (now : OsTime) (u : LmicUs915) (e : LmicEu868 Channels) :
    (LmicUs915.initJoinLoop now delay u).txCnt = u.txCnt ∧
    (LmicEu868.initJoinLoop ops rnd delay e).txCnt = e.txCnt ∧
    (LmicUs915.initJoinLoop now delay u).datarate = LmicUs915.DR_SF7 ∧
    (LmicUs915.initJoinLoop now delay u).adrTxPow = 20 ∧
    (LmicUs915.initJoinLoop now delay u).txChnl = 0 ∧
    (LmicUs915.initJoinLoop now delay u).chRnd = 0 ∧
    (LmicEu868.initJoinLoop ops rnd delay e).datarate = LmicEu868.SF7 ∧
    (LmicEu868.initJoinLoop ops rnd delay e).adrTxPow = LmicEu868.MaxEIRP ∧
    (LmicEu868.initJoinLoop ops rnd delay e).txChnl = rnd % 3 ∧
    (LmicEu868.initJoinLoop ops rnd delay e).txChnl < 3 :=
  ⟨rfl, rfl, rfl, rfl, rfl, rfl, rfl, rfl, rfl, Nat.mod_lt _ (by decide)⟩

/-! ## pow2dBm -/

theorem toInt8_id (v : Int) (hlo : -128 ≤ v) (hhi : v ≤ 127) : LmicUs915.toInt8 v = v := by
  unfold LmicUs915.toInt8
  omega

/-- The value of the EU868 pow2dBm. -/
theorem eu868_pow2dBm_eq (InvalidPower : Int) (powerIndex : Nat) :
    LmicEu868.pow2dBm InvalidPower powerIndex
      = if powerIndex < 8 then 16 - 2 * (powerIndex : Int) else InvalidPower := by
  unfold LmicEu868.pow2dBm LmicEu868.MaxEIRP
  by_cases h : powerIndex ≥ 8
  · rw [if_pos h, if_neg (by omega)]
  · rw [if_neg h, if_pos (by omega)]
    exact toInt8_id _ (by omega) (by omega)

/-- The value of the US915 pow2dBm. -/
theorem us915_pow2dBm_eq (InvalidPower : Int) (powerIndex : Nat) :
    LmicUs915.pow2dBm InvalidPower powerIndex
      = if powerIndex < 15 then 30 - 2 * (powerIndex : Int) else InvalidPower := by
  unfold LmicUs915.pow2dBm
  by_cases h : powerIndex ≥ 15
  · rw [if_pos h, if_neg (by omega)]
  · rw [if_neg h, if_pos (by omega)]
    rw [toInt8_id _ (by omega) (by omega)]
    omega

/-- C22: pow2dBm for every power index.  EU868 returns 16 - 2 * index below 8
and the sentinel InvalidPower from 8 on; US915 returns 30 - 2 * index below 15
and the sentinel from 15 on.  The in-range results are the exact integers (the
conversion to int8_t does not change them, they lie in 2..30), they decrease
strictly with the index, and, the sentinel being no value of 2..30, the
sentinel is returned exactly for the out-of-range indices. -/
theorem pow2dBm_table (InvalidPower : Int) (powerIndex : Nat)
    (hsentinel : InvalidPower < 2 ∨ 30 < InvalidPower) :
    (powerIndex < 8 →
      LmicEu868.pow2dBm InvalidPower powerIndex = 16 - 2 * (powerIndex : Int) ∧
      LmicEu868.pow2dBm InvalidPower 0 = LmicEu868.MaxEIRP ∧
      -128 ≤ 16 - 2 * (powerIndex : Int) ∧ 16 - 2 * (powerIndex : Int) ≤ 127) ∧
    (8 ≤ powerIndex → LmicEu868.pow2dBm InvalidPower powerIndex = InvalidPower) ∧
    (powerIndex < 15 →
      LmicUs915.pow2dBm InvalidPower powerIndex = 30 - 2 * (powerIndex : Int) ∧
      -128 ≤ 30 - 2 * (powerIndex : Int) ∧ 30 - 2 * (powerIndex : Int) ≤ 127) ∧
    (15 ≤ powerIndex → LmicUs915.pow2dBm InvalidPower powerIndex = InvalidPower) ∧
    (∀ j, powerIndex < j → j < 8 →
      LmicEu868.pow2dBm InvalidPower j < LmicEu868.pow2dBm InvalidPower powerIndex) ∧
    (∀ j, powerIndex < j → j < 15 →
      LmicUs915.pow2dBm InvalidPower j < LmicUs915.pow2dBm InvalidPower powerIndex) ∧
    (LmicEu868.pow2dBm InvalidPower powerIndex = InvalidPower ↔ 8 ≤ powerIndex) ∧
    (LmicUs915.pow2dBm InvalidPower powerIndex = InvalidPower ↔ 15 ≤ powerIndex) := by
  refine ⟨?_, ?_, ?_, ?_, ?_, ?_, ?_, ?_⟩
  · intro h
    refine ⟨?_, ?_, by omega, by omega⟩
    · rw [eu868_pow2dBm_eq, if_pos h]
    · rw [eu868_pow2dBm_eq, if_pos (by decide)]
      rfl
  · intro h
    rw [eu868_pow2dBm_eq, if_neg (by omega)]
  · intro h
    refine ⟨?_, by omega, by omega⟩
    rw [us915_pow2dBm_eq, if_pos h]
  · intro h
    rw [us915_pow2dBm_eq, if_neg (by omega)]
  · intro j hij hj
    rw [eu868_pow2dBm_eq, eu868_pow2dBm_eq, if_pos hj, if_pos (by omega)]
    omega
  · intro j hij hj
    rw [us915_pow2dBm_eq, us915_pow2dBm_eq, if_pos hj, if_pos (by omega)]
    omega
  · rw [eu868_pow2dBm_eq]
    by_cases h : powerIndex < 8
    · rw [if_pos h]
      constructor
      · intro he
        omega
      · intro h8
        omega
    · rw [if_neg h]
      exact ⟨fun _ => by omega, fun _ => rfl⟩
  · rw [us915_pow2dBm_eq]
    by_cases h : powerIndex < 15
    · rw [if_pos h]
      constructor
      · intro he
        omega
      · intro h8
        omega
    · rw [if_neg h]
      exact ⟨fun _ => by omega, fun _ => rfl⟩

/-- C22 at concrete indices, with the sentinel -128: EU868 index 0 gives the
maximal EIRP 16 and index 8 the sentinel. -/
theorem pow2dBm_table_witness :
    LmicEu868.pow2dBm (-128) 0 = LmicEu868.MaxEIRP ∧
    LmicEu868.pow2dBm (-128) 8 = -128 :=
  ⟨((pow2dBm_table (-128) 0 (Or.inl (by decide))).1 (by decide)).2.1,
   (pow2dBm_table (-128) 8 (Or.inl (by decide))).2.1 (by decide)⟩

/-! ## The data-rate tables -/

/-- The EU868 getRawRps reads inside its nine-entry table exactly for the data
rates 0..7. -/
theorem eu868_getRawRps_none_iff (rawValue : rps_t → Nat) (ILLEGAL_RPS dr : Nat) :
    LmicEu868.getRawRps rawValue ILLEGAL_RPS dr = none ↔ 8 ≤ dr := by
  unfold LmicEu868.getRawRps
  rw [Option.map_eq_none', List.getElem?_eq_none_iff]
  show 9 ≤ dr + 1 ↔ 8 ≤ dr
  omega

/-- The US915 getRawRps reads inside its sixteen-entry table exactly for the
data rates 0..14. -/
theorem us915_getRawRps_none_iff (rawValue : rps_t → Nat) (ILLEGAL_RPS dr : Nat) :
    LmicUs915.getRawRps rawValue ILLEGAL_RPS dr = none ↔ 15 ≤ dr := by
  unfold LmicUs915.getRawRps
  rw [Option.map_eq_none', List.getElem?_eq_none_iff]
  show 16 ≤ dr + 1 ↔ 15 ≤ dr
  omega

/-- The EU868 dr2hsym reads inside its eight-entry table exactly for the data
rates 0..7. -/
theorem eu868_dr2hsym_none_iff (from_us_round : Nat → Int) (dr : Nat) :
    LmicEu868.dr2hsym from_us_round dr = none ↔ 8 ≤ dr := by
  unfold LmicEu868.dr2hsym
  rw [List.getElem?_eq_none_iff]
  show 8 ≤ dr ↔ 8 ≤ dr
  exact Iff.rfl

/-- The US915 dr2hsym reads inside its six-entry table exactly when dr & 7 is
below 6. -/
theorem us915_dr2hsym_none_iff (from_us_round : Nat → Int) (dr : Nat) :
    LmicUs915.dr2hsym from_us_round dr = none ↔ 6 ≤ dr % 8 := by
  unfold LmicUs915.dr2hsym
  rw [List.getElem?_eq_none_iff, and_seven]
  show 6 ≤ dr % 8 ↔ 6 ≤ dr % 8
  exact Iff.rfl

/-- C23, at the failing inputs: the lookups read outside their tables.  EU868
getRawRps at data rate 8 reads index 9 of a nine-entry table and dr2hsym index 8
of an eight-entry table; US915 getRawRps at data rate 15 reads index 16 of a
sixteen-entry table and dr2hsym at data rate 6 reads index 6 of a six-entry
table.  In general the reads are outside the tables exactly for the EU868 data
rates from 8 on, the US915 data rates from 15 on (getRawRps) and the US915 data
rates with dr & 7 equal to 6 or 7 (dr2hsym). -/
theorem rate_lookups_read_outside_tables (rawValue : rps_t → Nat) (ILLEGAL_RPS : Nat)
    (from_us_round : Nat → Int) :
    LmicEu868.getRawRps rawValue ILLEGAL_RPS 8 = none ∧
    LmicEu868.dr2hsym from_us_round 8 = none ∧
    LmicUs915.getRawRps rawValue ILLEGAL_RPS 15 = none ∧
    LmicUs915.dr2hsym from_us_round 6 = none ∧
    (∀ dr, LmicEu868.getRawRps rawValue ILLEGAL_RPS dr = none ↔ 8 ≤ dr) ∧
    (∀ dr, LmicEu868.dr2hsym from_us_round dr = none ↔ 8 ≤ dr) ∧
    (∀ dr, LmicUs915.getRawRps rawValue ILLEGAL_RPS dr = none ↔ 15 ≤ dr) ∧
    (∀ dr, LmicUs915.dr2hsym from_us_round dr = none ↔ 6 ≤ dr % 8) ∧
    LmicEu868.getRawRps rawValue ILLEGAL_RPS 7 = some ILLEGAL_RPS ∧
    (∀ dr, 5 ≤ dr → dr ≤ 7 → LmicUs915.getRawRps rawValue ILLEGAL_RPS dr = some ILLEGAL_RPS) ∧
    LmicUs915.getRawRps rawValue ILLEGAL_RPS 14 = some ILLEGAL_RPS :=
  ⟨rfl, rfl, rfl, rfl,
   eu868_getRawRps_none_iff rawValue ILLEGAL_RPS,
   eu868_dr2hsym_none_iff from_us_round,
   us915_getRawRps_none_iff rawValue ILLEGAL_RPS,
   us915_dr2hsym_none_iff from_us_round,
   rfl,
   fun dr h5 h7 => by
     have h : dr = 5 ∨ dr = 6 ∨ dr = 7 := by omega
     rcases h with h | h | h <;> subst h <;> rfl,
   rfl⟩

/-! ## The receive window of US915 -/

/-- C25: US915 getRx1Dr.  For an uplink data rate d in 0..3 the RX1 data rate is
d + 10, whose table entry has the spreading factor of the uplink entry and the
bandwidth 500 kHz; for DR_SF8C it is DR_SF7CR (13); and for every uplink data
rate 0..4 the result is one of the data rates 10..13, whose getRawRps is read
inside the table and is the raw value of its entry, which is not ILLEGAL_RPS
when no rps_t value is encoded as ILLEGAL_RPS. -/
theorem us915_getRx1Dr_table (rawValue : rps_t → Nat) (ILLEGAL_RPS : Nat) (s : LmicUs915)
    (hraw : ∀ r, rawValue r ≠ ILLEGAL_RPS) (hdr : s.datarate ≤ 4) :
    (s.datarate ≤ 3 →
      LmicUs915.getRx1Dr s = s.datarate + 10 ∧
      ∃ up down, LmicUs915._DR2RPS_CRC[s.datarate + 1]? = some (some up) ∧
        LmicUs915._DR2RPS_CRC[LmicUs915.getRx1Dr s + 1]? = some (some down) ∧
        down.sf = up.sf ∧ up.bw = BandWidth.BW125 ∧ down.bw = BandWidth.BW500) ∧
    (s.datarate = LmicUs915.DR_SF8C → LmicUs915.getRx1Dr s = LmicUs915.DR_SF7CR) ∧
    LmicUs915.DR_SF10CR ≤ LmicUs915.getRx1Dr s ∧
    LmicUs915.getRx1Dr s ≤ LmicUs915.DR_SF7CR ∧
    ∃ r, LmicUs915.getRawRps rawValue ILLEGAL_RPS (LmicUs915.getRx1Dr s) = some (rawValue r) ∧
      rawValue r ≠ ILLEGAL_RPS := by
  have h : s.datarate = 0 ∨ s.datarate = 1 ∨ s.datarate = 2 ∨ s.datarate = 3 ∨
      s.datarate = 4 := by omega
  rcases h with h | h | h | h | h
  · have hg : LmicUs915.getRx1Dr s = 10 := by simp [LmicUs915.getRx1Dr, h, LmicUs915.DR_SF8C,
      LmicUs915.DR_SF10CR, LmicUs915.DR_SF10]
    rw [hg, h]
    exact ⟨fun _ => ⟨rfl, LmicUs915.rps_DR0, LmicUs915.rps_DR10, rfl, rfl, rfl, rfl, rfl⟩,
      fun h4 => absurd h4 (by decide), by decide, by decide,
      LmicUs915.rps_DR10, rfl, hraw _⟩
  · have hg : LmicUs915.getRx1Dr s = 11 := by simp [LmicUs915.getRx1Dr, h, LmicUs915.DR_SF8C,
      LmicUs915.DR_SF10CR, LmicUs915.DR_SF10]
    rw [hg, h]
    exact ⟨fun _ => ⟨rfl, LmicUs915.rps_DR1, LmicUs915.rps_DR11, rfl, rfl, rfl, rfl, rfl⟩,
      fun h4 => absurd h4 (by decide), by decide, by decide,
      LmicUs915.rps_DR11, rfl, hraw _⟩
  · have hg : LmicUs915.getRx1Dr s = 12 := by simp [LmicUs915.getRx1Dr, h, LmicUs915.DR_SF8C,
      LmicUs915.DR_SF10CR, LmicUs915.DR_SF10]
    rw [hg, h]
    exact ⟨fun _ => ⟨rfl, LmicUs915.rps_DR2, LmicUs915.rps_DR12, rfl, rfl, rfl, rfl, rfl⟩,
      fun h4 => absurd h4 (by decide), by decide, by decide,
      LmicUs915.rps_DR12, rfl, hraw _⟩
  · have hg : LmicUs915.getRx1Dr s = 13 := by simp [LmicUs915.getRx1Dr, h, LmicUs915.DR_SF8C,
      LmicUs915.DR_SF10CR, LmicUs915.DR_SF10]
    rw [hg, h]
    exact ⟨fun _ => ⟨rfl, LmicUs915.rps_DR3, LmicUs915.rps_DR13, rfl, rfl, rfl, rfl, rfl⟩,
      fun h4 => absurd h4 (by decide), by decide, by decide,
      LmicUs915.rps_DR13, rfl, hraw _⟩
  · have hg : LmicUs915.getRx1Dr s = 13 := by simp [LmicUs915.getRx1Dr, h, LmicUs915.DR_SF8C,
      LmicUs915.DR_SF7CR]
    rw [hg, h]
    exact ⟨fun h3 => absurd h3 (by decide), fun _ => rfl, by decide, by decide,
      LmicUs915.rps_DR13, rfl, hraw _⟩

/-- C25 at a concrete state: uplink data rate DR_SF9 (1) with the encoding that
sends every rps_t to 0 and ILLEGAL_RPS = 255. -/
theorem us915_getRx1Dr_table_witness :
    LmicUs915.getRx1Dr { LmicUs915.blank with datarate := 1 } = 1 + 10 :=
  ((us915_getRx1Dr_table (fun _ => 0) 255 { LmicUs915.blank with datarate := 1 }
    (fun _ => (by decide : (0 : Nat) ≠ 255)) (by decide)).1 (by decide)).1

/-! ## Agreement of the two data-rate tables -/

/-- C28: the two tables of each region agree.  For every defined data rate (EU868
0..6; US915 0..4 and 8..13) the entry of _DR2RPS_CRC that getRawRps reads is
built from the spreading factor and bandwidth listed for it (EU868: SF12..SF7 at
125 kHz for 0..5, SF7 at 250 kHz for 6; US915: SF10..SF7 at 125 kHz for 0..3, SF8
at 500 kHz for 4, SF12..SF7 at 500 kHz for 8..13), and the half-symbol time that
dr2hsym reads is the tick conversion of 128 us * 2^T for the exponent T of the
documented table at that spreading factor and bandwidth, which is SF - 5 at
125 kHz, SF - 6 at 250 kHz and SF - 7 at 500 kHz. -/
theorem rate_tables_agree (rawValue : rps_t → Nat) (ILLEGAL_RPS : Nat)
    (from_us_round : Nat → Int) :
    (∀ dr, dr ≤ 6 → ∃ r,
      LmicEu868._DR2RPS_CRC[dr + 1]? = some (some r) ∧
      LmicEu868.getRawRps rawValue ILLEGAL_RPS dr = some (rawValue r) ∧
      r.sf.toNat = (if dr ≤ 5 then 12 - dr else 7) ∧
      r.bw = (if dr ≤ 5 then BandWidth.BW125 else BandWidth.BW250) ∧
      LmicEu868.dr2hsym from_us_round dr
        = some (from_us_round (128 * 2 ^ symExp r.sf r.bw))) ∧
    (∀ dr, (dr ≤ 4 ∨ (8 ≤ dr ∧ dr ≤ 13)) → ∃ r,
      LmicUs915._DR2RPS_CRC[dr + 1]? = some (some r) ∧
      LmicUs915.getRawRps rawValue ILLEGAL_RPS dr = some (rawValue r) ∧
      r.sf.toNat = (if dr ≤ 3 then 10 - dr else if dr = 4 then 8 else 20 - dr) ∧
      r.bw = (if dr ≤ 3 then BandWidth.BW125 else BandWidth.BW500) ∧
      LmicUs915.dr2hsym from_us_round dr
        = some (from_us_round (128 * 2 ^ symExp r.sf r.bw))) ∧
    (∀ sf, symExp sf BandWidth.BW125 = sf.toNat - 5 ∧ symExp sf BandWidth.BW250 = sf.toNat - 6 ∧
      symExp sf BandWidth.BW500 = sf.toNat - 7 ∧ 7 ≤ sf.toNat) := by
  refine ⟨?_, ?_, ?_⟩
  · intro dr hdr
    have h : dr = 0 ∨ dr = 1 ∨ dr = 2 ∨ dr = 3 ∨ dr = 4 ∨ dr = 5 ∨ dr = 6 := by omega
    rcases h with h | h | h | h | h | h | h <;> subst h
    · exact ⟨LmicEu868.rps_DR0, rfl, rfl, rfl, rfl, rfl⟩
    · exact ⟨LmicEu868.rps_DR1, rfl, rfl, rfl, rfl, rfl⟩
    · exact ⟨LmicEu868.rps_DR2, rfl, rfl, rfl, rfl, rfl⟩
    · exact ⟨LmicEu868.rps_DR3, rfl, rfl, rfl, rfl, rfl⟩
    · exact ⟨LmicEu868.rps_DR4, rfl, rfl, rfl, rfl, rfl⟩
    · exact ⟨LmicEu868.rps_DR5, rfl, rfl, rfl, rfl, rfl⟩
    · exact ⟨LmicEu868.rps_DR6, rfl, rfl, rfl, rfl, rfl⟩
  · intro dr hdr
    have h : dr = 0 ∨ dr = 1 ∨ dr = 2 ∨ dr = 3 ∨ dr = 4 ∨ dr = 8 ∨ dr = 9 ∨ dr = 10 ∨
        dr = 11 ∨ dr = 12 ∨ dr = 13 := by omega
    rcases h with h | h | h | h | h | h | h | h | h | h | h <;> subst h
    · exact ⟨LmicUs915.rps_DR0, rfl, rfl, rfl, rfl, rfl⟩
    · exact ⟨LmicUs915.rps_DR1, rfl, rfl, rfl, rfl, rfl⟩
    · exact ⟨LmicUs915.rps_DR2, rfl, rfl, rfl, rfl, rfl⟩
    · exact ⟨LmicUs915.rps_DR3, rfl, rfl, rfl, rfl, rfl⟩
    · exact ⟨LmicUs915.rps_DR4, rfl, rfl, rfl, rfl, rfl⟩
    · exact ⟨LmicUs915.rps_DR8, rfl, rfl, rfl, rfl, rfl⟩
    · exact ⟨LmicUs915.rps_DR9, rfl, rfl, rfl, rfl, rfl⟩
    · exact ⟨LmicUs915.rps_DR10, rfl, rfl, rfl, rfl, rfl⟩
    · exact ⟨LmicUs915.rps_DR11, rfl, rfl, rfl, rfl, rfl⟩
    · exact ⟨LmicUs915.rps_DR12, rfl, rfl, rfl, rfl, rfl⟩
    · exact ⟨LmicUs915.rps_DR13, rfl, rfl, rfl, rfl, rfl⟩
  · intro sf
    cases sf <;> exact ⟨rfl, rfl, rfl, by decide⟩

/-- C28 at concrete data rates, with the tick conversion that multiplies by two:
EU868 DR6 (SF7 at 250 kHz) and US915 DR13 (SF7 at 500 kHz). -/
theorem rate_tables_agree_witness :
    (∃ r, LmicEu868._DR2RPS_CRC[6 + 1]? = some (some r) ∧
      LmicEu868.dr2hsym (fun us => 2 * (us : Int)) 6 = some (2 * ((128 * 2 ^ symExp r.sf r.bw : Nat) : Int))) ∧
    (∃ r, LmicUs915._DR2RPS_CRC[13 + 1]? = some (some r) ∧
      LmicUs915.dr2hsym (fun us => 2 * (us : Int)) 13 = some (2 * ((128 * 2 ^ symExp r.sf r.bw : Nat) : Int))) :=
  ⟨(((rate_tables_agree (fun _ => 0) 255 (fun us => 2 * (us : Int))).1 6 (by decide)).imp
      fun _ h => ⟨h.1, h.2.2.2.2⟩),
   (((rate_tables_agree (fun _ => 0) 255 (fun us => 2 * (us : Int))).2.1 13
      (Or.inr ⟨by decide, by decide⟩)).imp fun _ h => ⟨h.1, h.2.2.2.2⟩)⟩

/-! ## US915 frequencies -/

/-- C29: US915 frequencies stay in the band 902..928 MHz and the 32-bit
arithmetic does not wrap.  For a hardwired transmit channel c below 64
getTxFrequency is 902300000 + 200000 * c, for 64 <= c < 72 it is
903000000 + 1600000 * (c - 64); for every txChnl getRx1Frequency is
923300000 + 600000 * (txChnl mod 8); the default RX2 frequency is 923300000; and
all of these lie between US915_FREQ_MIN and US915_FREQ_MAX. -/
theorem us915_frequencies_in_band (MAX_XCHANNELS : Nat) (s : LmicUs915) :
    (s.txChnl < 64 →
      LmicUs915.getTxFrequency MAX_XCHANNELS s = some (902300000 + 200000 * s.txChnl) ∧
      LmicUs915.US915_FREQ_MIN ≤ 902300000 + 200000 * s.txChnl ∧
      902300000 + 200000 * s.txChnl ≤ LmicUs915.US915_FREQ_MAX) ∧
    (64 ≤ s.txChnl → s.txChnl < 72 →
      LmicUs915.getTxFrequency MAX_XCHANNELS s
        = some (903000000 + 1600000 * (s.txChnl - 64)) ∧
      LmicUs915.US915_FREQ_MIN ≤ 903000000 + 1600000 * (s.txChnl - 64) ∧
      903000000 + 1600000 * (s.txChnl - 64) ≤ LmicUs915.US915_FREQ_MAX) ∧
    LmicUs915.getRx1Frequency s = 923300000 + 600000 * (s.txChnl % 8) ∧
    LmicUs915.US915_FREQ_MIN ≤ LmicUs915.getRx1Frequency s ∧
    LmicUs915.getRx1Frequency s ≤ LmicUs915.US915_FREQ_MAX ∧
    LmicUs915.FREQ_DNW2 = 923300000 ∧
    LmicUs915.US915_FREQ_MIN ≤ LmicUs915.FREQ_DNW2 ∧
    LmicUs915.FREQ_DNW2 ≤ LmicUs915.US915_FREQ_MAX ∧
    LmicUs915.US915_FREQ_MAX < 2147483648 := by
  have hrx : LmicUs915.getRx1Frequency s = 923300000 + 600000 * (s.txChnl % 8) := by
    unfold LmicUs915.getRx1Frequency LmicUs915.US915_500kHz_DNFBASE
      LmicUs915.US915_500kHz_DNFSTEP
    rw [and_seven]
    omega
  refine ⟨?_, ?_, hrx, ?_, ?_, rfl, by decide, by decide, by decide⟩
  · intro h
    refine ⟨?_, ?_, ?_⟩
    · unfold LmicUs915.getTxFrequency LmicUs915.US915_125kHz_UPFBASE
        LmicUs915.US915_125kHz_UPFSTEP
      simp only [if_pos h]
      congr 1
      omega
    · unfold LmicUs915.US915_FREQ_MIN
      omega
    · unfold LmicUs915.US915_FREQ_MAX
      omega
  · intro h1 h2
    refine ⟨?_, ?_, ?_⟩
    · unfold LmicUs915.getTxFrequency LmicUs915.US915_500kHz_UPFBASE
        LmicUs915.US915_500kHz_UPFSTEP
      have hn : ¬ s.txChnl < 64 := by omega
      have hp : s.txChnl < 64 + 8 := by omega
      simp only [if_neg hn, if_pos hp]
      congr 1
      omega
    · unfold LmicUs915.US915_FREQ_MIN
      omega
    · unfold LmicUs915.US915_FREQ_MAX
      omega
  · rw [hrx]
    unfold LmicUs915.US915_FREQ_MIN
    omega
  · rw [hrx]
    unfold LmicUs915.US915_FREQ_MAX
    omega

/-- C29 at concrete channels: the last narrowband and the last wideband
channel. -/
theorem us915_frequencies_in_band_witness :
    LmicUs915.getTxFrequency 2 { LmicUs915.blank with txChnl := 63 } = some 914900000 ∧
    LmicUs915.getTxFrequency 2 { LmicUs915.blank with txChnl := 71 } = some 914200000 :=
  ⟨((us915_frequencies_in_band 2 { LmicUs915.blank with txChnl := 63 }).1 (by decide)).1,
   ((us915_frequencies_in_band 2 { LmicUs915.blank with txChnl := 71 }).2.1
      (by decide) (by decide)).1⟩

/-! ## The data rate of the US915 join sequence beyond 131 attempts -/

/-- C30, at the failing input: with the attempt counter at 131 and the data rate
DR_SF8C, nextJoinState computes DR_SF7 - 132 = -129, which the int8_t holds as
127; 127 is not below DR_SF10, so the call returns continue and leaves the data
rate 127, which is none of 0..4.  With the attempt counter at 255 the counter
wraps to 0 and the data rate is DR_SF7; at 254 the data rate is 4 (DR_SF8C) on
a narrowband channel. -/
theorem us915_nextJoinState_wraps_dr :
    (LmicUs915.nextJoinState 0 0
      { LmicUs915.blank with datarate := LmicUs915.DR_SF8C, txCnt := 131 }).1 = true ∧
    (LmicUs915.nextJoinState 0 0
      { LmicUs915.blank with datarate := LmicUs915.DR_SF8C, txCnt := 131 }).2.datarate = 127 ∧
    (LmicUs915.nextJoinState 0 0
      { LmicUs915.blank with datarate := LmicUs915.DR_SF8C, txCnt := 131 }).2.txCnt = 132 ∧
    (LmicUs915.nextJoinState 0 0
      { LmicUs915.blank with datarate := LmicUs915.DR_SF8C, txCnt := 254 }).2.datarate
        = LmicUs915.DR_SF8C ∧
    (LmicUs915.nextJoinState 0 0
      { LmicUs915.blank with datarate := LmicUs915.DR_SF8C, txCnt := 254 }).2.txChnl = 0 := by
  decide

/-! ## EU868: the channel list of the join accept -/

/-- The value of convFreq on three bytes: the frequency when it lies in the band,
zero otherwise; the product does not wrap. -/
theorem eu868_convFreq_eq (ptr : Nat → Nat) (h0 : ptr 0 < 256) (h1 : ptr 1 < 256)
    (h2 : ptr 2 < 256) :
    100 * (ptr 0 + 256 * ptr 1 + 65536 * ptr 2) < 4294967296 ∧
    LmicEu868.convFreq ptr
      = (if 863000000 ≤ 100 * (ptr 0 + 256 * ptr 1 + 65536 * ptr 2) ∧
            100 * (ptr 0 + 256 * ptr 1 + 65536 * ptr 2) ≤ 870000000
          then 100 * (ptr 0 + 256 * ptr 1 + 65536 * ptr 2) else 0) := by
  have hlt : 100 * (ptr 0 + 256 * ptr 1 + 65536 * ptr 2) < 4294967296 := by omega
  refine ⟨hlt, ?_⟩
  have hmod : (rlsbf3 ptr * 100) % 4294967296
      = 100 * (ptr 0 + 256 * ptr 1 + 65536 * ptr 2) := by
    unfold rlsbf3
    omega
  simp only [LmicEu868.convFreq, hmod, LmicEu868.EU868_FREQ_MIN, LmicEu868.EU868_FREQ_MAX]
  by_cases hb : 863000000 ≤ 100 * (ptr 0 + 256 * ptr 1 + 65536 * ptr 2) ∧
      100 * (ptr 0 + 256 * ptr 1 + 65536 * ptr 2) ≤ 870000000
  · rw [if_pos hb, if_neg (by omega)]
  · rw [if_neg hb, if_pos (by omega)]

/-- The entry of a channel after configure on the modelled channel list, and the
entries of the other channels. -/
theorem channelList_configure_entry (MAX_CHANNELS : Nat) (c : Nat → ChannelDetail)
    (k f m j : Nat) :
    ((channelList MAX_CHANNELS).configure c k f m k).frequency = f ∧
    ((channelList MAX_CHANNELS).configure c k f m k).drMap = m ∧
    ((channelList MAX_CHANNELS).configure c k f m k).enabled = true ∧
    ((channelList MAX_CHANNELS).configure c k f m k).availability = (c k).availability ∧
    (j ≠ k → (channelList MAX_CHANNELS).configure c k f m j = c j) := by
  have hk : (channelList MAX_CHANNELS).configure c k f m
      = Function.update c k { c k with frequency := f, drMap := m, enabled := true } := rfl
  rw [hk, Function.update_same]
  exact ⟨rfl, rfl, rfl, rfl, fun h => Function.update_noteq h _ _⟩

/-- The state after setupChannel with data-rate map 0 on a valid index. -/
theorem eu868_setupChannel_channels {Channels : Type} (ops : ChannelListOps Channels)
    (MAX_CHANNELS : Nat) (dr_range_map : Nat → Nat → Nat)
    (s : LmicEu868 Channels) (chidx newfreq : Nat) (h : chidx < MAX_CHANNELS) :
    (LmicEu868.setupChannel ops MAX_CHANNELS dr_range_map s chidx newfreq 0).2
      = { s with channels := (ops.configure s.channels chidx newfreq
            (dr_range_map LmicEu868.SF12 LmicEu868.SF7)) } := by
  have hn : ¬ chidx ≥ MAX_CHANNELS := by omega
  simp only [LmicEu868.setupChannel, if_neg hn]
  rfl

/-- The loop of handleCFList on the modelled channel list: the channels it
leaves, and the other fields. -/
theorem eu868_handleCFListLoop_spec (MAX_CHANNELS : Nat) (dr_range_map : Nat → Nat → Nat)
    (hmax : 8 ≤ MAX_CHANNELS) :
    ∀ (rounds chidx : Nat) (ptr : Nat → Nat) (s : LmicEu868 (Nat → ChannelDetail)),
      chidx + rounds ≤ 8 →
      (∀ c,
        (LmicEu868.handleCFListLoop (channelList MAX_CHANNELS) MAX_CHANNELS dr_range_map
            rounds chidx ptr s).channels c
          = (if chidx ≤ c ∧ c < chidx + rounds ∧
                LmicEu868.convFreq (fun i => ptr (i + 3 * (c - chidx))) ≠ 0
              then (channelList MAX_CHANNELS).configure s.channels c
                (LmicEu868.convFreq (fun i => ptr (i + 3 * (c - chidx))))
                (dr_range_map LmicEu868.SF12 LmicEu868.SF7) c
              else s.channels c)) ∧
      LmicEu868.handleCFListLoop (channelList MAX_CHANNELS) MAX_CHANNELS dr_range_map
          rounds chidx ptr s
        = { s with channels :=
            (LmicEu868.handleCFListLoop (channelList MAX_CHANNELS) MAX_CHANNELS dr_range_map
              rounds chidx ptr s).channels } := by
  intro rounds
  induction rounds with
  | zero =>
    intro chidx ptr s _
    refine ⟨?_, rfl⟩
    intro c
    have hn : ¬ (chidx ≤ c ∧ c < chidx + 0 ∧
        LmicEu868.convFreq (fun i => ptr (i + 3 * (c - chidx))) ≠ 0) := by
      intro h
      omega
    rw [if_neg hn]
    rfl
  | succ rounds ih =>
    intro chidx ptr s hle
    have hlt : chidx < 8 := by omega
    have hmod : (chidx + 1) % 256 = chidx + 1 := Nat.mod_eq_of_lt (by omega)
    have hptr : (fun i => ptr (i + 3 * (chidx - chidx))) = ptr := by
      funext i
      rw [Nat.sub_self, Nat.mul_zero, Nat.add_zero]
    have hshift : ∀ c, chidx + 1 ≤ c → (fun i => ptr (i + 3 * (c - (chidx + 1)) + 3))
        = (fun i => ptr (i + 3 * (c - chidx))) := by
      intro c hge
      funext i
      congr 1
      omega
    by_cases hf : LmicEu868.convFreq ptr ≠ 0
    · have hstep : LmicEu868.handleCFListLoop (channelList MAX_CHANNELS) MAX_CHANNELS
            dr_range_map (rounds + 1) chidx ptr s
          = LmicEu868.handleCFListLoop (channelList MAX_CHANNELS) MAX_CHANNELS dr_range_map
              rounds (chidx + 1) (fun i => ptr (i + 3))
              { s with channels := ((channelList MAX_CHANNELS).configure s.channels chidx
                  (LmicEu868.convFreq ptr) (dr_range_map LmicEu868.SF12 LmicEu868.SF7)) } := by
        rw [← eu868_setupChannel_channels (channelList MAX_CHANNELS) MAX_CHANNELS dr_range_map
          s chidx (LmicEu868.convFreq ptr) (by omega)]
        simp only [LmicEu868.handleCFListLoop, if_pos hlt, hmod, if_pos hf]
      obtain ⟨ih1, ih2⟩ := ih (chidx + 1) (fun i => ptr (i + 3))
        { s with channels := ((channelList MAX_CHANNELS).configure s.channels chidx
            (LmicEu868.convFreq ptr) (dr_range_map LmicEu868.SF12 LmicEu868.SF7)) }
        (by omega)
      rw [hstep]
      refine ⟨?_, ih2⟩
      intro c
      rw [ih1 c]
      by_cases hc : c = chidx
      · subst hc
        have hn : ¬ (c + 1 ≤ c ∧ c < c + 1 + rounds ∧
            LmicEu868.convFreq (fun i => ptr (i + 3 * (c - (c + 1)) + 3)) ≠ 0) := by
          intro h
          omega
        rw [if_neg hn, hptr, if_pos ⟨Nat.le_refl _, by omega, hf⟩]
      · have hsame : (channelList MAX_CHANNELS).configure s.channels chidx
              (LmicEu868.convFreq ptr) (dr_range_map LmicEu868.SF12 LmicEu868.SF7) c
            = s.channels c :=
          (channelList_configure_entry MAX_CHANNELS s.channels chidx _ _ c).2.2.2.2 hc
        by_cases hge : chidx + 1 ≤ c
        · rw [hshift c hge]
          by_cases hcond : chidx + 1 ≤ c ∧ c < chidx + 1 + rounds ∧
              LmicEu868.convFreq (fun i => ptr (i + 3 * (c - chidx))) ≠ 0
          · rw [if_pos hcond, if_pos ⟨by omega, by omega, hcond.2.2⟩]
            have hcfg : ∀ (t t2 : Nat → ChannelDetail) (f m : Nat), t c = t2 c →
                (channelList MAX_CHANNELS).configure t c f m c
                  = (channelList MAX_CHANNELS).configure t2 c f m c := by
              intro t t2 f m ht
              show Function.update t c _ c = Function.update t2 c _ c
              rw [Function.update_same, Function.update_same, ht]
            exact hcfg _ _ _ _ hsame
          · rw [if_neg hcond, if_neg (fun h => hcond ⟨hge, by omega, h.2.2⟩)]
            exact hsame
        · rw [if_neg (fun h => hge h.1), if_neg (fun h => by omega)]
          exact hsame
    · have hf0 : ¬ LmicEu868.convFreq ptr ≠ 0 := hf
      have hstep : LmicEu868.handleCFListLoop (channelList MAX_CHANNELS) MAX_CHANNELS
            dr_range_map (rounds + 1) chidx ptr s
          = LmicEu868.handleCFListLoop (channelList MAX_CHANNELS) MAX_CHANNELS dr_range_map
              rounds (chidx + 1) (fun i => ptr (i + 3)) s := by
        simp only [LmicEu868.handleCFListLoop, if_pos hlt, hmod, if_neg hf0]
      obtain ⟨ih1, ih2⟩ := ih (chidx + 1) (fun i => ptr (i + 3)) s (by omega)
      rw [hstep]
      refine ⟨?_, ih2⟩
      intro c
      rw [ih1 c]
      by_cases hc : c = chidx
      · subst hc
        rw [if_neg (fun h => by omega), hptr, if_neg (fun h => hf0 h.2.2)]
      · by_cases hge : chidx + 1 ≤ c
        · rw [hshift c hge]
          by_cases hcond : chidx + 1 ≤ c ∧ c < chidx + 1 + rounds ∧
              LmicEu868.convFreq (fun i => ptr (i + 3 * (c - chidx))) ≠ 0
          · rw [if_pos hcond, if_pos ⟨by omega, by omega, hcond.2.2⟩]
          · rw [if_neg hcond, if_neg (fun h => hcond ⟨hge, by omega, h.2.2⟩)]
        · rw [if_neg (fun h => hge h.1), if_neg (fun h => by omega)]

/-- C24: EU868 handleCFList on the modelled channel list with at least eight
channels, for every payload of 15 bytes.  For k in 0..4 let f_k be 100 times the
little-endian 24-bit value of the bytes 3k..3k+2: f_k is below 2^32; when
863000000 <= f_k <= 870000000 channel 3+k is configured with frequency f_k and
the default data-rate map and enabled, and otherwise channel 3+k is left as it
was; channels 0..2 and channels from 8 on are left as they were; so every
channel that changed holds a frequency inside the band.  No other field of the
state changes. -/
theorem eu868_handleCFList_installs (MAX_CHANNELS : Nat) (dr_range_map : Nat → Nat → Nat)
    (s : LmicEu868 (Nat → ChannelDetail)) (ptr : Nat → Nat)
    (hmax : 8 ≤ MAX_CHANNELS) (hbytes : ∀ i, i < 15 → ptr i < 256) :
    (∀ k, k < 5 →
      100 * (ptr (3 * k) + 256 * ptr (3 * k + 1) + 65536 * ptr (3 * k + 2)) < 4294967296 ∧
      ((863000000 ≤ 100 * (ptr (3 * k) + 256 * ptr (3 * k + 1) + 65536 * ptr (3 * k + 2)) ∧
          100 * (ptr (3 * k) + 256 * ptr (3 * k + 1) + 65536 * ptr (3 * k + 2)) ≤ 870000000) →
        ((LmicEu868.handleCFList (channelList MAX_CHANNELS) MAX_CHANNELS dr_range_map s
            ptr).channels (3 + k)).frequency
          = 100 * (ptr (3 * k) + 256 * ptr (3 * k + 1) + 65536 * ptr (3 * k + 2)) ∧
        ((LmicEu868.handleCFList (channelList MAX_CHANNELS) MAX_CHANNELS dr_range_map s
            ptr).channels (3 + k)).drMap = dr_range_map LmicEu868.SF12 LmicEu868.SF7 ∧
        ((LmicEu868.handleCFList (channelList MAX_CHANNELS) MAX_CHANNELS dr_range_map s
            ptr).channels (3 + k)).enabled = true ∧
        ((LmicEu868.handleCFList (channelList MAX_CHANNELS) MAX_CHANNELS dr_range_map s
            ptr).channels (3 + k)).availability = (s.channels (3 + k)).availability) ∧
      (¬ (863000000 ≤ 100 * (ptr (3 * k) + 256 * ptr (3 * k + 1) + 65536 * ptr (3 * k + 2)) ∧
          100 * (ptr (3 * k) + 256 * ptr (3 * k + 1) + 65536 * ptr (3 * k + 2)) ≤ 870000000) →
        (LmicEu868.handleCFList (channelList MAX_CHANNELS) MAX_CHANNELS dr_range_map s
            ptr).channels (3 + k) = s.channels (3 + k))) ∧
    (∀ c, (c < 3 ∨ 8 ≤ c) →
      (LmicEu868.handleCFList (channelList MAX_CHANNELS) MAX_CHANNELS dr_range_map s
          ptr).channels c = s.channels c) ∧
    (∀ c,
      (LmicEu868.handleCFList (channelList MAX_CHANNELS) MAX_CHANNELS dr_range_map s
          ptr).channels c ≠ s.channels c →
      LmicEu868.EU868_FREQ_MIN ≤
        ((LmicEu868.handleCFList (channelList MAX_CHANNELS) MAX_CHANNELS dr_range_map s
          ptr).channels c).frequency ∧
      ((LmicEu868.handleCFList (channelList MAX_CHANNELS) MAX_CHANNELS dr_range_map s
          ptr).channels c).frequency ≤ LmicEu868.EU868_FREQ_MAX) ∧
    LmicEu868.handleCFList (channelList MAX_CHANNELS) MAX_CHANNELS dr_range_map s ptr
      = { s with channels :=
          (LmicEu868.handleCFList (channelList MAX_CHANNELS) MAX_CHANNELS dr_range_map s
            ptr).channels } := by
  obtain ⟨hch, hrest⟩ :=
    eu868_handleCFListLoop_spec MAX_CHANNELS dr_range_map hmax (8 - 3) 3 ptr s (by decide)
  have hconv : ∀ k, k < 5 →
      100 * (ptr (3 * k) + 256 * ptr (3 * k + 1) + 65536 * ptr (3 * k + 2)) < 4294967296 ∧
      LmicEu868.convFreq (fun i => ptr (i + 3 * k))
        = (if 863000000 ≤ 100 * (ptr (3 * k) + 256 * ptr (3 * k + 1) + 65536 * ptr (3 * k + 2)) ∧
              100 * (ptr (3 * k) + 256 * ptr (3 * k + 1) + 65536 * ptr (3 * k + 2)) ≤ 870000000
            then 100 * (ptr (3 * k) + 256 * ptr (3 * k + 1) + 65536 * ptr (3 * k + 2)) else 0) := by
    intro k hk
    have h := eu868_convFreq_eq (fun i => ptr (i + 3 * k))
      (hbytes _ (by omega)) (hbytes _ (by omega)) (hbytes _ (by omega))
    have e0 : 0 + 3 * k = 3 * k := by omega
    have e1 : 1 + 3 * k = 3 * k + 1 := by omega
    have e2 : 2 + 3 * k = 3 * k + 2 := by omega
    simp only [e0, e1, e2] at h
    exact h
  have hentry : ∀ c,
      (LmicEu868.handleCFList (channelList MAX_CHANNELS) MAX_CHANNELS dr_range_map s
          ptr).channels c
        = (if 3 ≤ c ∧ c < 3 + (8 - 3) ∧
              LmicEu868.convFreq (fun i => ptr (i + 3 * (c - 3))) ≠ 0
            then (channelList MAX_CHANNELS).configure s.channels c
              (LmicEu868.convFreq (fun i => ptr (i + 3 * (c - 3))))
              (dr_range_map LmicEu868.SF12 LmicEu868.SF7) c
            else s.channels c) := hch
  refine ⟨?_, ?_, ?_, hrest⟩
  · intro k hk
    obtain ⟨hlt, hc⟩ := hconv k hk
    have hsub : 3 + k - 3 = k := by omega
    refine ⟨hlt, ?_, ?_⟩
    · intro hband
      have hne : LmicEu868.convFreq (fun i => ptr (i + 3 * k)) ≠ 0 := by
        rw [hc, if_pos hband]
        omega
      have he := hentry (3 + k)
      rw [hsub, if_pos ⟨by omega, by omega, hne⟩] at he
      rw [he]
      obtain ⟨g1, g2, g3, g4, _⟩ := channelList_configure_entry MAX_CHANNELS s.channels (3 + k)
        (LmicEu868.convFreq (fun i => ptr (i + 3 * k)))
        (dr_range_map LmicEu868.SF12 LmicEu868.SF7) 0
      refine ⟨?_, g2, g3, g4⟩
      rw [g1, hc, if_pos hband]
    · intro hband
      have he := hentry (3 + k)
      have hz : ¬ LmicEu868.convFreq (fun i => ptr (i + 3 * k)) ≠ 0 := by
        rw [hc, if_neg hband]
        exact fun h => h rfl
      rw [hsub, if_neg (fun h => hz h.2.2)] at he
      exact he
  · intro c hc
    rw [hentry c, if_neg (fun h => by omega)]
  · intro c hne
    have he := hentry c
    by_cases hcond : 3 ≤ c ∧ c < 3 + (8 - 3) ∧
        LmicEu868.convFreq (fun i => ptr (i + 3 * (c - 3))) ≠ 0
    · obtain ⟨hlt, hc⟩ := hconv (c - 3) (by omega)
      rw [if_pos hcond] at he
      rw [he]
      obtain ⟨g1, _⟩ := channelList_configure_entry MAX_CHANNELS s.channels c
        (LmicEu868.convFreq (fun i => ptr (i + 3 * (c - 3))))
        (dr_range_map LmicEu868.SF12 LmicEu868.SF7) 0
      rw [g1]
      have hnz := hcond.2.2
      rw [hc] at hnz ⊢
      by_cases hband : 863000000 ≤
            100 * (ptr (3 * (c - 3)) + 256 * ptr (3 * (c - 3) + 1)
              + 65536 * ptr (3 * (c - 3) + 2)) ∧
          100 * (ptr (3 * (c - 3)) + 256 * ptr (3 * (c - 3) + 1)
              + 65536 * ptr (3 * (c - 3) + 2)) ≤ 870000000
      · rw [if_pos hband]
        exact hband
      · rw [if_neg hband] at hnz
        exact absurd rfl hnz
    · rw [if_neg hcond] at he
      exact absurd he hne

/-- C24 at a concrete payload: the frequency 867100000 in the first slot (bytes
0x18 0x4F 0x84) and zero elsewhere configures channel 3 and leaves channel 4 as
it was. -/
theorem eu868_handleCFList_installs_witness :
    ((LmicEu868.handleCFList (channelList 16) 16 (fun _ _ => 63) LmicEu868.example16
        (fun i => if i = 0 then 24 else if i = 1 then 79 else if i = 2 then 132 else 0)).channels
      (3 + 0)).frequency = 100 * (24 + 256 * 79 + 65536 * 132) ∧
    (LmicEu868.handleCFList (channelList 16) 16 (fun _ _ => 63) LmicEu868.example16
        (fun i => if i = 0 then 24 else if i = 1 then 79 else if i = 2 then 132 else 0)).channels
      (3 + 1) = LmicEu868.example16.channels (3 + 1) :=
  ⟨(((eu868_handleCFList_installs 16 (fun _ _ => 63) LmicEu868.example16
        (fun i => if i = 0 then 24 else if i = 1 then 79 else if i = 2 then 132 else 0)
        (by decide) (fun i _ => by beta_reduce; split_ifs <;> omega)).1 0 (by decide)).2.1
      (by decide)).1,
   ((eu868_handleCFList_installs 16 (fun _ _ => 63) LmicEu868.example16
        (fun i => if i = 0 then 24 else if i = 1 then 79 else if i = 2 then 132 else 0)
        (by decide) (fun i _ => by beta_reduce; split_ifs <;> omega)).1 1 (by decide)).2.2 (by decide)⟩

/-! ## EU868: where the scan of nextTx stops -/

/-- The loop body of nextTx over a list whose first channel that is enabled at
the data rate and available before now is c: the loop returns at c. -/
theorem nextTxPick_first {Channels : Type} (ops : ChannelListOps Channels) (now : OsTime)
    (channels : Channels) (datarate : Nat) (c : Nat) (l2 : List Nat)
    (hen : ops.is_enable_at_dr channels c datarate = true)
    (hav : ops.getAvailability channels c < now) :
    ∀ (l1 : List Nat) (found : Bool) (t : OsTime) (tx : Nat) (ex : List Nat),
      (∀ x ∈ l1, ops.is_enable_at_dr channels x datarate = true →
        now ≤ ops.getAvailability channels x) →
      LmicEu868.nextTxPick ops now channels datarate (l1 ++ c :: l2) found t tx ex
        = (ops.getAvailability channels c, c, ex ++ l1 ++ [c])
  | [], found, t, tx, ex, _ => by
    simp only [List.nil_append, LmicEu868.nextTxPick, hen, if_true, hav, List.append_nil]
  | x :: l1, found, t, tx, ex, h => by
    have hrest : ∀ y ∈ l1, ops.is_enable_at_dr channels y datarate = true →
        now ≤ ops.getAvailability channels y :=
      fun y hy => h y (List.mem_cons_of_mem _ hy)
    have hassoc : ex ++ (x :: l1) ++ [c] = ex ++ [x] ++ l1 ++ [c] := by simp
    have hcons : (x :: l1) ++ c :: l2 = x :: (l1 ++ c :: l2) := rfl
    rw [hcons, hassoc]
    by_cases hx : ops.is_enable_at_dr channels x datarate = true
    · have hnot : ¬ ops.getAvailability channels x < now :=
        Nat.not_lt.mpr (h x (List.mem_cons_self _ _) hx)
      simp only [LmicEu868.nextTxPick, hx, if_true, if_neg hnot]
      exact nextTxPick_first ops now channels datarate c l2 hen hav l1 _ _ _ _ hrest
    · have hx2 : ops.is_enable_at_dr channels x datarate = false := by
        cases hb : ops.is_enable_at_dr channels x datarate with
        | false => rfl
        | true => exact absurd hb hx
      simp only [LmicEu868.nextTxPick, hx2, Bool.false_eq_true, if_false]
      exact nextTxPick_first ops now channels datarate c l2 hen hav l1 _ _ _ _ hrest

/-- C26, counterexample: channels 1 and 2 are enabled, channel 1 is available
exactly at now = 100 and channel 2 at tick 50.  The scan starts at channel 1,
which is available at now, yet it does not stop there: it goes on to channel 2
and returns 50 with txChnl = 2. -/
theorem eu868_nextTx_passes_channel_available_at_now :
    (channelList 16).is_enable_at_dr LmicEu868.twoChannels 1 LmicEu868.SF7 = true ∧
    (channelList 16).getAvailability LmicEu868.twoChannels 1 = 100 ∧
    (LmicEu868.nextTx (channelList 16) 16 0 100
      { LmicEu868.example16 with channels := LmicEu868.twoChannels }).examined = [1, 2] ∧
    (LmicEu868.nextTx (channelList 16) 16 0 100
      { LmicEu868.example16 with channels := LmicEu868.twoChannels }).state.txChnl = 2 ∧
    (LmicEu868.nextTx (channelList 16) 16 0 100
      { LmicEu868.example16 with channels := LmicEu868.twoChannels }).time = 50 := by
  decide

/-- C26, amended: the scan of EU868 nextTx stops at the first channel, in scan
order, that is enabled at the current data rate and whose availability is
strictly before now: that channel becomes txChnl, its availability is returned
and the channels after it in the scan are not examined.  A channel that is
enabled with availability equal to now or later does not stop the scan. -/
theorem eu868_nextTx_short_circuit {Channels : Type} (ops : ChannelListOps Channels)
    (MAX_CHANNELS rnd : Nat) (now : OsTime) (s : LmicEu868 Channels)
    (l1 l2 : List Nat) (c : Nat)
    (hscan : LmicEu868.scanFrom MAX_CHANNELS ((s.txChnl + 1 + rnd % 2) % 256) MAX_CHANNELS
      = l1 ++ c :: l2)
    (hen : ops.is_enable_at_dr s.channels c s.datarate = true)
    (hav : ops.getAvailability s.channels c < now)
    (hfirst : ∀ x ∈ l1, ops.is_enable_at_dr s.channels x s.datarate = true →
      now ≤ ops.getAvailability s.channels x) :
    (LmicEu868.nextTx ops MAX_CHANNELS rnd now s).examined = l1 ++ [c] ∧
    (LmicEu868.nextTx ops MAX_CHANNELS rnd now s).state.txChnl = c ∧
    (LmicEu868.nextTx ops MAX_CHANNELS rnd now s).time = ops.getAvailability s.channels c ∧
    (LmicEu868.nextTx ops MAX_CHANNELS rnd now s).time < now := by
  have hr : LmicEu868.nextTxLoop ops MAX_CHANNELS now s.channels s.datarate MAX_CHANNELS
      ((s.txChnl + 1 + rnd % 2) % 256) false 0 s.txChnl []
      = (ops.getAvailability s.channels c, c, [] ++ l1 ++ [c]) := by
    rw [nextTxLoop_eq_pick, hscan]
    exact nextTxPick_first ops now s.channels s.datarate c l2 hen hav l1 false 0 s.txChnl []
      hfirst
  have h1 : (LmicEu868.nextTx ops MAX_CHANNELS rnd now s).examined
      = (LmicEu868.nextTxLoop ops MAX_CHANNELS now s.channels s.datarate MAX_CHANNELS
          ((s.txChnl + 1 + rnd % 2) % 256) false 0 s.txChnl []).2.2 := rfl
  have h2 : (LmicEu868.nextTx ops MAX_CHANNELS rnd now s).state.txChnl
      = (LmicEu868.nextTxLoop ops MAX_CHANNELS now s.channels s.datarate MAX_CHANNELS
          ((s.txChnl + 1 + rnd % 2) % 256) false 0 s.txChnl []).2.1 := rfl
  have h3 : (LmicEu868.nextTx ops MAX_CHANNELS rnd now s).time
      = (LmicEu868.nextTxLoop ops MAX_CHANNELS now s.channels s.datarate MAX_CHANNELS
          ((s.txChnl + 1 + rnd % 2) % 256) false 0 s.txChnl []).1 := rfl
  rw [h1, h2, h3, hr]
  exact ⟨by simp, rfl, rfl, hav⟩

/-- C26, amended, at a concrete state: with now = 101 channel 1 (available at
tick 100) is the first channel available before now and the scan stops there. -/
theorem eu868_nextTx_short_circuit_witness :
    (LmicEu868.nextTx (channelList 16) 16 0 101
      { LmicEu868.example16 with channels := LmicEu868.twoChannels }).examined = [] ++ [1] ∧
    (LmicEu868.nextTx (channelList 16) 16 0 101
      { LmicEu868.example16 with channels := LmicEu868.twoChannels }).state.txChnl = 1 :=
  ⟨(eu868_nextTx_short_circuit (channelList 16) 16 0 101
      { LmicEu868.example16 with channels := LmicEu868.twoChannels }
      [] [2, 3, 4, 5, 6, 7, 8, 9, 10, 11, 12, 13, 14, 15, 0] 1
      (by decide) (by decide) (by decide) (fun x hx => by cases hx)).1,
   (eu868_nextTx_short_circuit (channelList 16) 16 0 101
      { LmicEu868.example16 with channels := LmicEu868.twoChannels }
      [] [2, 3, 4, 5, 6, 7, 8, 9, 10, 11, 12, 13, 14, 15, 0] 1
      (by decide) (by decide) (by decide) (fun x hx => by cases hx)).2.1⟩

/-! ## Ties in the deadline list -/

/-- Where insertByDeadline puts the job: after a prefix of jobs whose deadlines
are at most the new deadline and directly before the first job whose deadline is
greater. -/
theorem insertByDeadline_split (dl : Nat → OsTime) (job : Nat) (time : OsTime) :
    ∀ l : List Nat, ∃ pre post,
      insertByDeadline dl job time l = pre ++ job :: post ∧ l = pre ++ post ∧
      (∀ x ∈ pre, dl x ≤ time) ∧ (∀ p, post.head? = some p → time < dl p)
  | [] => ⟨[], [], rfl, rfl, (fun _ h => by cases h), (fun _ h => by cases h)⟩
  | p :: l => by
    by_cases hp : dl p > time
    · refine ⟨[], p :: l, ?_, rfl, (fun _ h => by cases h), ?_⟩
      · simp only [insertByDeadline, if_pos hp]
        rfl
      · intro q hq
        cases hq
        exact hp
    · obtain ⟨pre, post, h1, h2, h3, h4⟩ := insertByDeadline_split dl job time l
      refine ⟨p :: pre, post, ?_, ?_, ?_, h4⟩
      · simp only [insertByDeadline, if_neg hp, h1]
        rfl
      · rw [h2]
        rfl
      · intro x hx
        rcases List.mem_cons.mp hx with hx | hx
        · subst hx
          exact Nat.le_of_not_lt hp
        · exact h3 x hx

/-- In a list sorted by deadline every job after the insertion point has a
greater deadline. -/
theorem insertByDeadline_split_sorted (dl : Nat → OsTime) (job : Nat) (time : OsTime)
    (l : List Nat) (hs : l.Pairwise fun a b => dl a ≤ dl b) :
    ∃ pre post,
      insertByDeadline dl job time l = pre ++ job :: post ∧ l = pre ++ post ∧
      (∀ x ∈ pre, dl x ≤ time) ∧ (∀ x ∈ post, time < dl x) := by
  obtain ⟨pre, post, h1, h2, h3, h4⟩ := insertByDeadline_split dl job time l
  refine ⟨pre, post, h1, h2, h3, ?_⟩
  rw [h2] at hs
  have hpost := (List.pairwise_append.mp hs).2.1
  cases post with
  | nil =>
    intro x hx
    cases hx
  | cons p post =>
    intro x hx
    have hp : time < dl p := h4 p rfl
    rcases List.mem_cons.mp hx with hx | hx
    · subst hx
      exact hp
    · exact Nat.lt_of_lt_of_le hp ((List.pairwise_cons.mp hpost).1 x hx)

/-- One completed setTimed on a sorted deadline list: the job is placed after
every queued job whose deadline is at most its own and before every job whose
deadline is greater. -/
theorem setTimed_after_ties {s s2 : OsScheduler} {ls lr : List Nat} {fuel b : Nat}
    {t : OsTime} (h : Lists s ls lr) (hsorted : SortedDeadlines s ls)
    (hrun : setTimed fuel s b t = .ok s2) :
    ∃ pre post, Lists s2 (pre ++ b :: post) (lr.erase b) ∧ pre ++ post = ls.erase b ∧
      SortedDeadlines s2 (pre ++ b :: post) ∧
      (s2.jobs b).deadline = t ∧
      (∀ x ∈ pre, (s2.jobs x).deadline ≤ t) ∧ (∀ x ∈ post, t < (s2.jobs x).deadline) ∧
      b ∉ pre ∧
      (∀ a, a ∈ ls → a ≠ b → (s.jobs a).deadline = t → a ∈ pre) := by
  obtain ⟨hl, hsorted2⟩ := setTimed_sorted h hsorted hrun
  obtain ⟨_, hdb, hdk, _⟩ := setTimed_ok h hrun
  have hnd : ls.Nodup := (List.nodup_append.mp h.2.2).2.1
  have hpw : (ls.erase b).Pairwise
      fun x y => (fun k => (s.jobs k).deadline) x ≤ (fun k => (s.jobs k).deadline) y :=
    ((sortedDeadlines_iff s ls).mp hsorted).sublist (List.erase_sublist b ls)
  obtain ⟨pre, post, h1, h2, h3, h4⟩ :=
    insertByDeadline_split_sorted (fun k => (s.jobs k).deadline) b t (ls.erase b) hpw
  have hnb : ∀ x, x ∈ ls.erase b → x ≠ b := by
    intro x hx hxb
    subst hxb
    exact (List.Nodup.mem_erase_iff hnd).mp hx |>.1 rfl
  have hpre : ∀ x ∈ pre, x ∈ ls.erase b := by
    intro x hx
    rw [h2]
    exact List.mem_append_left _ hx
  have hpost : ∀ x ∈ post, x ∈ ls.erase b := by
    intro x hx
    rw [h2]
    exact List.mem_append_right _ hx
  rw [h1] at hl hsorted2
  refine ⟨pre, post, hl, h2.symm, hsorted2, hdb, ?_, ?_, ?_, ?_⟩
  · intro x hx
    rw [hdk x (hnb x (hpre x hx))]
    exact h3 x hx
  · intro x hx
    rw [hdk x (hnb x (hpost x hx))]
    exact h4 x hx
  · intro hb
    exact hnb b (hpre b hb) rfl
  · intro a ha hab hda
    have hmem : a ∈ ls.erase b := (List.mem_erase_of_ne hab).mpr ha
    rw [h2] at hmem
    rcases List.mem_append.mp hmem with hm | hm
    · exact hm
    · have := h4 a hm
      rw [hda] at this
      exact absurd this (Nat.lt_irrefl _)

/-- C27: ties in the deadline list run first-inserted-first.  On a sorted
deadline list a completed setTimed (scheduleAt) of job b at deadline t places b
after every queued job whose deadline is at most t, in particular after every
other job a queued with the same deadline, and before every job with a greater
deadline, and the run loop pops the jobs in the order of the list; and two
distinct jobs a and b that are not yet queued, scheduled in this order at the
same deadline, are both queued by calls that complete, with a before b. -/
theorem scheduleAt_ties_first_inserted_first (fuel : Nat) (s : OsScheduler)
    (ls lr : List Nat) (b : Nat) (t : OsTime) (h : Lists s ls lr)
    (hsorted : SortedDeadlines s ls) :
    (∀ s2, setTimed fuel s b t = .ok s2 →
      ∃ pre post, Lists s2 (pre ++ b :: post) (lr.erase b) ∧ pre ++ post = ls.erase b ∧
        (∀ x ∈ pre, (s2.jobs x).deadline ≤ t) ∧ (∀ x ∈ post, t < (s2.jobs x).deadline) ∧
        b ∉ pre ∧
        (∀ a, a ∈ ls → a ≠ b → (s.jobs a).deadline = t → a ∈ pre) ∧
        ∀ n, popHeads s2.jobs n s2.scheduledjobs = (pre ++ b :: post).take n) ∧
    (∀ a, a ≠ b → a ∉ ls → a ∉ lr → b ∉ ls → b ∉ lr →
      ls.length + 1 < fuel → lr.length < fuel →
      ∃ s1 s2 pre post, setTimed fuel s a t = .ok s1 ∧ setTimed fuel s1 b t = .ok s2 ∧
        Lists s2 (pre ++ b :: post) lr ∧ a ∈ pre ∧ b ∉ pre ∧
        (s2.jobs a).deadline = t ∧ (s2.jobs b).deadline = t ∧
        ∀ n, popHeads s2.jobs n s2.scheduledjobs = (pre ++ b :: post).take n) := by
  refine ⟨?_, ?_⟩
  · intro s2 hrun
    obtain ⟨pre, post, h1, h2, _, _, h5, h6, h7, h8⟩ := setTimed_after_ties h hsorted hrun
    exact ⟨pre, post, h1, h2, h5, h6, h7, h8, fun n => popHeads_eq_take n h1.1⟩
  · intro a hab hals halr hbls hblr hfs hfr
    obtain ⟨s1, hrun1⟩ := setTimed_progress t h (by omega) hfr
      (not_last_of_not_mem hals) (not_last_of_not_mem halr)
    obtain ⟨pre1, post1, g1, g2, g3, g4, _, _, _, _⟩ := setTimed_after_ties h hsorted hrun1
    rw [List.erase_of_not_mem halr] at g1
    rw [List.erase_of_not_mem hals] at g2
    have hlen : (pre1 ++ a :: post1).length = ls.length + 1 := by
      rw [← g2]
      simp
      omega
    have hb1 : b ∉ pre1 ++ a :: post1 := by
      intro hb
      rcases List.mem_append.mp hb with hb | hb
      · exact hbls (g2 ▸ List.mem_append_left _ hb)
      · rcases List.mem_cons.mp hb with hb | hb
        · exact hab hb.symm
        · exact hbls (g2 ▸ List.mem_append_right _ hb)
    obtain ⟨s2, hrun2⟩ := setTimed_progress t g1 (by omega) hfr
      (not_last_of_not_mem hb1) (not_last_of_not_mem hblr)
    obtain ⟨pre, post, k1, _, _, k4, _, _, k7, k8⟩ := setTimed_after_ties g1 g3 hrun2
    rw [List.erase_of_not_mem hblr] at k1
    have hapre : a ∈ pre :=
      k8 a (List.mem_append_right _ (List.mem_cons_self _ _)) hab g4
    obtain ⟨_, _, hdk, _⟩ := setTimed_ok g1 hrun2
    refine ⟨s1, s2, pre, post, hrun1, hrun2, k1, hapre, k7, ?_, k4,
      fun n => popHeads_eq_take n k1.1⟩
    rw [hdk a hab]
    exact g4

/-- C27 at a concrete scheduler: on the empty scheduler jobs 1 and 2 are
scheduled in this order at tick 7 with fuel 4; the calls complete and job 1 is
ahead of job 2. -/
theorem scheduleAt_ties_first_inserted_first_witness :
    Lists emptyScheduler [] [] ∧ SortedDeadlines emptyScheduler [] ∧
    ∃ s1 s2 pre post, setTimed 4 emptyScheduler 1 7 = .ok s1 ∧ setTimed 4 s1 2 7 = .ok s2 ∧
      Lists s2 (pre ++ 2 :: post) [] ∧ 1 ∈ pre ∧ 2 ∉ pre :=
  ⟨by decide, by decide,
   ((scheduleAt_ties_first_inserted_first 4 emptyScheduler [] [] 2 7 (by decide)
      (by decide)).2 1 (by decide) (by decide) (by decide) (by decide) (by decide)
      (by decide) (by decide)).imp fun _ h1 => h1.imp fun _ h2 => h2.imp fun _ h3 =>
        h3.imp fun _ h4 => ⟨h4.1, h4.2.1, h4.2.2.1, h4.2.2.2.1, h4.2.2.2.2.1⟩⟩

/-! ## Removal of the last element -/

/-- C31, at the failing inputs: unlinkjob on a list whose last element is the
job.  With job 1 alone in the deadline list, and with job 2 last in the deadline
list 1, 2, the loop unlinks the job and then follows the next link of the null
pointer.  This holds for every well-formed list and every job that is its last
element: with enough steps the run ends in the null dereference, and with any
number of steps it never ends normally.  For every job that is not the last
element the removal ends normally and leaves the list with the job erased, the
other jobs in their order. -/
theorem unlinkjob_last_element_null_deref :
    unlinkjob 2 oneScheduled .scheduledjobs 1 = Exec.nullDeref ∧
    unlinkScheduledJobs 2 oneScheduled 1 = Exec.nullDeref ∧
    unlinkRunableJobs 2 oneRunnable 1 = Exec.nullDeref ∧
    IsList twoScheduled.jobs twoScheduled.scheduledjobs [1, 2] ∧
    unlinkScheduledJobs 3 twoScheduled 2 = Exec.nullDeref ∧
    (∀ (s : OsScheduler) (pnext : Link) (l : List Nat) (fuel job : Nat),
      (∀ k, pnext ≠ .next k) → IsList s.jobs (s.load pnext) l → l.getLast? = some job →
      (l.length < fuel → unlinkjob fuel s pnext job = .nullDeref) ∧
      ∀ s2, unlinkjob fuel s pnext job ≠ .ok s2) ∧
    (∀ (s : OsScheduler) (pnext : Link) (l : List Nat) (fuel job : Nat),
      (∀ k, pnext ≠ .next k) → IsList s.jobs (s.load pnext) l → l.length < fuel →
      l.getLast? ≠ some job →
      ∃ s2, unlinkjob fuel s pnext job = .ok s2 ∧
        IsList s2.jobs (s2.load pnext) (l.erase job)) := by
  refine ⟨rfl, rfl, rfl, by decide, rfl, ?_, ?_⟩
  · intro s pnext l fuel job hhead hl hlast
    refine ⟨fun hf => unlinkjob_last pnext job hhead hl hf hlast, ?_⟩
    intro s2 hok
    have hbig := unlinkjob_fuel_mono job fuel s pnext s2 hok (l.length + 1)
    have hlen : l.length < fuel + (l.length + 1) := by omega
    have hnull := unlinkjob_last pnext job hhead hl hlen hlast
    rw [hnull] at hbig
    cases hbig
  · intro s pnext l fuel job hhead hl hf hlast
    rcases unlinkjob_spec job l fuel s pnext hl (fun k _ => hhead k) hf with h | h | h
    · refine ⟨s, h.2, ?_⟩
      rw [List.erase_of_not_mem h.1]
      exact hl
    · exact absurd h.1 hlast
    · obtain ⟨_, _, lk, _, hrun, hlist⟩ := h
      exact ⟨_, hrun, hlist⟩

end Lmic
